import Mathlib

/-!
# Rhythm trainer: scoring, validation and the half-beat scheduler

A shallow embedding of `domain/rhythm_trainer.go`.

Modelling conventions

* A `float64` that the program computes with is an `F64`: not-a-number, an
  infinity or a finite rational.  Operations on finite values round the exact
  result to the nearest binary64 number, ties to even (`F64.round`), each
  operation on its own as the amd64 compiler does: 53 significant bits, a
  smallest unit of `2 ^ (-1074)` and an infinity for a rounded magnitude of
  `2 ^ 1024` or more.  The two zeros are not told apart.
* The precision of a recorded beat is a finite number, kept as the exact
  quotient `beatManager.precision`.  `Score` is given twice:
  `ExerciseResult.Score` computes in exact arithmetic,
  `ExerciseResult.ScoreF64` with binary64 rounding as the code does.
* Go `int` values that the program only ever counts upwards from zero (slice
  lengths, the half-beat counter, the scheduler's note and measure) are
  natural numbers; values that a caller may choose freely (`BPM`,
  `MeasuresNo`, the fields of a `UserBeat`) are integers.  No product formed
  here comes near the 64-bit range for an exercise that can be run, so
  integers are unbounded.
* `time.Duration` and `time.Time` are integers counting nanoseconds.
* A run-time panic is a `Fault`; a function that can panic returns `Except Fault`.
* `Input` and `Output` capabilities are line identifiers.  What an input reads
  is supplied by the environment with each sampling pass; what an output is
  told is recorded in a trace.
* The three concurrent activities of one exercise (ticker, control loop,
  sampler) are interleaved as one sequence of events, each handled atomically:
  a `tick` is one delivery of the half-beat ticker to the control loop, a
  `sample` is one firing of the sampler's ticker, and a `stop` is the ticker
  goroutine taking the `<-bm.done` branch of its `select`.  Ticks may still
  be delivered after `bm.done` is closed, until the `stop`.
-/

namespace Domain

/-! ## Floating point -/

/-- Rounding to the nearest integer, ties to the even one. -/
def roundHalfEven (x : ℚ) : Int :=
  let f := x.floor
  let r := x - f
  if r < 1 / 2 then f
  else if 1 / 2 < r then f + 1
  else if f % 2 = 0 then f else f + 1

/-- Rounding to the nearest binary64 number, ties to even, before the check
for overflow: a number other than zero in the binade `[2 ^ e, 2 ^ (e + 1))` is
rounded to a multiple of `2 ^ (e - 52)`, and to a multiple of `2 ^ (-1074)` in
the subnormal range. -/
def round64 (x : ℚ) : ℚ :=
  if x = 0 then 0
  else
    let ulp : ℚ := 2 ^ (max (Int.log 2 |x| - 52) (-1074))
    (roundHalfEven (x / ulp) : ℚ) * ulp

/-- A `float64` value. -/
inductive F64 where
  | nan
  | negInf
  | posInf
  | fin (q : ℚ)
deriving DecidableEq

/-- The `float64` nearest to an exact result: an infinity when the rounded
magnitude reaches `2 ^ 1024`. -/
def F64.round (x : ℚ) : F64 :=
  let r := round64 x
  if 2 ^ 1024 ≤ |r| then (if 0 < r then .posInf else .negInf) else .fin r

/-- The comparison `x <= y` of two floats: false when either is not a number. -/
def F64.le : F64 → F64 → Prop
  | .fin a, .fin b => a ≤ b
  | .negInf, .negInf => True
  | .negInf, .fin _ => True
  | .negInf, .posInf => True
  | .fin _, .posInf => True
  | .posInf, .posInf => True
  | _, _ => False

/-- The comparison `x < y` of two floats: false when either is not a number. -/
def F64.lt : F64 → F64 → Prop
  | .fin a, .fin b => a < b
  | .negInf, .fin _ => True
  | .negInf, .posInf => True
  | .fin _, .posInf => True
  | _, _ => False

/-- `math.Max`: `+Inf` when either argument is `+Inf`, otherwise not a number
when either argument is not a number, otherwise the larger argument. -/
def F64.max : F64 → F64 → F64
  | .posInf, _ => .posInf
  | _, .posInf => .posInf
  | .nan, _ => .nan
  | _, .nan => .nan
  | .negInf, y => y
  | x, .negInf => x
  | .fin a, .fin b => .fin (Max.max a b)

/-- `math.Min`: `-Inf` when either argument is `-Inf`, otherwise not a number
when either argument is not a number, otherwise the smaller argument. -/
def F64.min : F64 → F64 → F64
  | .negInf, _ => .negInf
  | _, .negInf => .negInf
  | .nan, _ => .nan
  | _, .nan => .nan
  | .posInf, y => y
  | x, .posInf => x
  | .fin a, .fin b => .fin (Min.min a b)

/-- The product `x * y` of two floats. -/
def F64.mul : F64 → F64 → F64
  | .fin a, .fin b => F64.round (a * b)
  | .nan, _ => .nan
  | _, .nan => .nan
  | .posInf, .posInf => .posInf
  | .negInf, .negInf => .posInf
  | .posInf, .negInf => .negInf
  | .negInf, .posInf => .negInf
  | .posInf, .fin b => if b = 0 then .nan else if 0 < b then .posInf else .negInf
  | .negInf, .fin b => if b = 0 then .nan else if 0 < b then .negInf else .posInf
  | .fin a, .posInf => if a = 0 then .nan else if 0 < a then .posInf else .negInf
  | .fin a, .negInf => if a = 0 then .nan else if 0 < a then .negInf else .posInf

/-- The difference `x - y` of two floats. -/
def F64.sub : F64 → F64 → F64
  | .fin a, .fin b => F64.round (a - b)
  | .nan, _ => .nan
  | _, .nan => .nan
  | .posInf, .posInf => .nan
  | .negInf, .negInf => .nan
  | .posInf, _ => .posInf
  | .negInf, _ => .negInf
  | .fin _, .posInf => .negInf
  | .fin _, .negInf => .posInf

/-- The quotient `x / y` of two floats; a zero divisor counts as `+0`. -/
def F64.div : F64 → F64 → F64
  | .fin a, .fin b =>
    if b = 0 then (if a = 0 then .nan else if 0 < a then .posInf else .negInf)
    else F64.round (a / b)
  | .nan, _ => .nan
  | _, .nan => .nan
  | .posInf, .fin b => if 0 ≤ b then .posInf else .negInf
  | .negInf, .fin b => if 0 ≤ b then .negInf else .posInf
  | .fin _, .posInf => .fin 0
  | .fin _, .negInf => .fin 0
  | _, _ => .nan

/-- The conversion `float64(n)` of an integer. -/
def F64.ofInt (n : Int) : F64 :=
  F64.round (n : ℚ)

/-- Dropping the fraction of a number. -/
def truncate (q : ℚ) : Int :=
  if 0 ≤ q then q.floor else -((-q).floor)

/-- The conversion of a float to a 64-bit integer, `time.Duration(x)`: the
fraction of a finite value is dropped; what a value that is not finite or
does not fit converts to depends on the implementation, and is the smallest
integer on amd64. -/
def F64.toInt64 : F64 → Int
  | .fin q =>
    if -9223372036854775808 ≤ truncate q ∧ truncate q ≤ 9223372036854775807 then truncate q
    else -9223372036854775808
  | _ => -9223372036854775808

/-! ## Data model -/

/-- A measure: for every subdivision, whether a beat is expected there. -/
abbrev Measure := List Bool

/-- The exercise configuration (`ExerciseConfig`). -/
structure ExerciseConfig where
  TracksRhythm : List Measure
  BPM : Int
  MeasuresNo : Int
  OutBeat : F64
  InBeat : F64

/-- One detected rising edge on an input (`UserBeat`). -/
structure UserBeat where
  Track : Int
  Measure : Int
  Note : Int
  Precision : ℚ
deriving DecidableEq

/-- The result of an exercise (`ExerciseResult`). -/
structure ExerciseResult where
  measuresNo : Int
  inputs : List UserBeat
  trackRhythm : List Measure
deriving DecidableEq

/-! ## Scoring -/

/-- The key type of the map built by `Score`. -/
structure beatRef where
  Track : Int
  Measure : Int
  Note : Int
deriving DecidableEq

/-- The Go map `map[beatRef]float64`: a key is either absent or bound to a value. -/
abbrev BeatsSet := beatRef → Option ℚ

/-- Reading a Go map at a key: the zero value when the key is absent. -/
def BeatsSet.lookup (beatsSet : BeatsSet) (br : beatRef) : ℚ :=
  (beatsSet br).getD 0

/-- One iteration of the first loop of `Score`:
`beatsSet[br] = math.Max(math.Abs(beatsSet[br]), in.Precision)`. -/
def recordBeat (beatsSet : BeatsSet) (b : UserBeat) : BeatsSet :=
  let br : beatRef := ⟨b.Track, b.Measure, b.Note⟩
  fun k => if k = br then some (max |beatsSet.lookup br| b.Precision) else beatsSet k

/-- The first loop of `Score`, over `er.inputs`, starting from the empty map. -/
def collectBeats (inputs : List UserBeat) : BeatsSet :=
  inputs.foldl recordBeat (fun _ => none)

/-- The body of the innermost loop of `Score` for the cell at zero-based index
`cell.1` of a track, where `cell.2` says whether a beat is expected. -/
def scoreCell (faultCoef : ℚ) (beatsSet : BeatsSet) (measure trackIndex : Int)
    (score : ℚ) (cell : Nat × Bool) : ℚ :=
  let br : beatRef := ⟨trackIndex, measure, (cell.1 : Int) + 1⟩
  match cell.2, beatsSet br with
  | true, some prec => score - faultCoef * prec
  | true, none => score - faultCoef
  | false, some _ => score - faultCoef
  | false, none => score

/-- The loop over the notes of one track. -/
def scoreTrack (faultCoef : ℚ) (beatsSet : BeatsSet) (measure : Int)
    (score : ℚ) (t : Nat × Measure) : ℚ :=
  t.2.enum.foldl (scoreCell faultCoef beatsSet measure t.1) score

/-- The loop over the tracks of one measure. -/
def scoreMeasure (faultCoef : ℚ) (beatsSet : BeatsSet) (trackRhythm : List Measure)
    (score : ℚ) (measure : Nat) : ℚ :=
  trackRhythm.enum.foldl (scoreTrack faultCoef beatsSet measure) score

/-- `ExerciseResult.Score` in exact arithmetic.  The result is `none` when
`er.trackRhythm[0]` panics, that is when there is no track.  With rounding the
value can differ in the last places (see `ExerciseResult.ScoreF64`); for a
grid without cells the code divides by zero and gets an infinite fault
coefficient, which exact arithmetic does not have. -/
def ExerciseResult.Score (er : ExerciseResult) : Option ℚ :=
  match er.trackRhythm with
  | [] => none
  | t0 :: _ =>
    let beatsSet := collectBeats er.inputs
    let faultCoef : ℚ :=
      1 / ((er.measuresNo * er.trackRhythm.length * t0.length : Int) : ℚ)
    some ((List.range' 1 er.measuresNo.toNat).foldl
      (scoreMeasure faultCoef beatsSet er.trackRhythm) 1)

/-! ## Scoring with binary64 rounding -/

/-- The body of the innermost loop of `Score` with the product and the
difference rounded. -/
def scoreCellF64 (faultCoef : F64) (beatsSet : BeatsSet) (measure trackIndex : Int)
    (score : F64) (cell : Nat × Bool) : F64 :=
  let br : beatRef := ⟨trackIndex, measure, (cell.1 : Int) + 1⟩
  match cell.2, beatsSet br with
  | true, some prec => score.sub (faultCoef.mul (.fin prec))
  | true, none => score.sub faultCoef
  | false, some _ => score.sub faultCoef
  | false, none => score

/-- The loop over the notes of one track, rounded. -/
def scoreTrackF64 (faultCoef : F64) (beatsSet : BeatsSet) (measure : Int)
    (score : F64) (t : Nat × Measure) : F64 :=
  t.2.enum.foldl (scoreCellF64 faultCoef beatsSet measure t.1) score

/-- The loop over the tracks of one measure, rounded. -/
def scoreMeasureF64 (faultCoef : F64) (beatsSet : BeatsSet) (trackRhythm : List Measure)
    (score : F64) (measure : Nat) : F64 :=
  trackRhythm.enum.foldl (scoreTrackF64 faultCoef beatsSet measure) score

/-- `ExerciseResult.Score` as the code computes it: the fault coefficient is
`1.0 / float64(cells)` and every cell subtracts a rounded amount.  The result
is `none` when `er.trackRhythm[0]` panics. -/
def ExerciseResult.ScoreF64 (er : ExerciseResult) : Option F64 :=
  match er.trackRhythm with
  | [] => none
  | t0 :: _ =>
    let beatsSet := collectBeats er.inputs
    let faultCoef : F64 :=
      (F64.fin 1).div (F64.ofInt (er.measuresNo * er.trackRhythm.length * t0.length))
    some ((List.range' 1 er.measuresNo.toNat).foldl
      (scoreMeasureF64 faultCoef beatsSet er.trackRhythm) (.fin 1))

/-! ## The trainer and its validation -/

/-- A digital input line. -/
abbrev Input := Nat

/-- A digital output line. -/
abbrev Output := Nat

/-- A bound hardware track (`Track`). -/
structure Track where
  In : Input
  Out : Output
deriving DecidableEq

/-- The trainer (`RhythmTrainer`). -/
structure RhythmTrainer where
  tracks : List Track
  metronome : Output

/-- The three errors of `validateRhythmTracks`. -/
inductive TrackError where
  | tooManyTracks
  | noTracks
  | unequalLength
deriving DecidableEq

/-- Run-time panics. -/
inductive Fault where
  | divideByZero
  | indexOutOfRange
  | nonPositiveInterval
  | closeOfClosedChannel
deriving DecidableEq

/-- The loop of `validateRhythmTracks` over the tracks. -/
def checkLengths (measureLen : Nat) : List Measure → Except TrackError Unit
  | [] => .ok ()
  | track :: rest =>
    if track.length ≠ measureLen then .error .unequalLength
    else checkLengths measureLen rest

/-- `RhythmTrainer.validateRhythmTracks`. -/
def RhythmTrainer.validateRhythmTracks (rt : RhythmTrainer) (tracks : List Measure) :
    Except TrackError Nat :=
  if tracks.length > rt.tracks.length then .error .tooManyTracks
  else
    match tracks with
    | [] => .error .noTracks
    | t0 :: _ =>
      match checkLengths t0.length tracks with
      | .error e => .error e
      | .ok _ => .ok t0.length

/-! ## Clamping -/

/-- The constant `MinOutBeat = 0.1` as a `float64`. -/
def MinOutBeat : F64 := .fin (3602879701896397 / 36028797018963968)

/-- The constant `MaxOutBeat = 0.5` as a `float64`. -/
def MaxOutBeat : F64 := .fin (1 / 2)

/-- The constant `MinInBeat = 0.01` as a `float64`. -/
def MinInBeat : F64 := .fin (5764607523034235 / 576460752303423488)

/-- The constant `MaxInBeat = 0.2` as a `float64`. -/
def MaxInBeat : F64 := .fin (3602879701896397 / 18014398509481984)

/-- `clampFunc`: `math.Max(min, math.Min(max, x))`. -/
def clampFunc (min max : F64) : F64 → F64 :=
  fun x => F64.max min (F64.min max x)

def clampOutBeat : F64 → F64 := clampFunc MinOutBeat MaxOutBeat
def clampInBeat : F64 → F64 := clampFunc MinInBeat MaxInBeat

/-! ## The beat manager -/

/-- The scheduler state (`beatManager`).  `done` is true once the channel
`bm.done` has been closed. -/
structure beatManager where
  beatLen : Int
  outIndicatorDuration : Int
  inIndicatorDuration : Int
  measureLen : Nat
  measuresNo : Int
  inputs : List Input
  userInputs : List UserBeat
  done : Bool
  currentNoteStarted : Int
  note : Nat
  measure : Nat

/-- One minute in nanoseconds (`time.Minute`). -/
def minute : Int := 60000000000

/-- The closure `scaleBeat` of `newBeatManager`:
`time.Duration(float64(beatDuration) * scale)`. -/
def scaleBeat (beatDuration : Int) (scale : F64) : Int :=
  ((F64.ofInt beatDuration).mul scale).toInt64

/-- `newBeatManager`.  The division `time.Minute / time.Duration(config.BPM)`
panics for `BPM = 0` and otherwise rounds towards zero;
`config.TracksRhythm[0]` panics when there is no track. -/
def newBeatManager (config : ExerciseConfig) (inputs : List Input) :
    Except Fault beatManager :=
  if config.BPM = 0 then .error .divideByZero
  else
    let beatDuration := Int.tdiv minute config.BPM
    match config.TracksRhythm with
    | [] => .error .indexOutOfRange
    | t0 :: _ =>
      .ok {
        beatLen := beatDuration
        outIndicatorDuration := scaleBeat beatDuration (clampOutBeat config.OutBeat)
        inIndicatorDuration := scaleBeat beatDuration (clampInBeat config.InBeat)
        measureLen := t0.length
        measuresNo := config.MeasuresNo
        inputs := inputs
        userInputs := []
        done := false
        currentNoteStarted := 0
        note := 0
        measure := 0 }

/-- `startHalfBeatTicker`: `time.NewTicker(bm.beatLen / 2)` panics for an
interval that is not positive. -/
def beatManager.startHalfBeatTicker (bm : beatManager) : Except Fault Unit :=
  if Int.tdiv bm.beatLen 2 ≤ 0 then .error .nonPositiveInterval else .ok ()

/-- The critical section of `nextNote` (from `Lock` to `Unlock`): the note
advances, the measure advances when the note wraps to 1, and the time is
recorded.  The remainder panics for a measure length of zero. -/
def beatManager.advance (bm : beatManager) (now : Int) : Except Fault beatManager :=
  if bm.measureLen = 0 then .error .divideByZero
  else
    let note := bm.note % bm.measureLen + 1
    .ok { bm with
      note := note
      measure := if note = 1 then bm.measure + 1 else bm.measure
      currentNoteStarted := now }

/-- `nextNote`: the critical section, then `close(bm.done)` when the measure
exceeds `measuresNo`.  Closing a closed channel panics. -/
def beatManager.nextNote (bm : beatManager) (now : Int) :
    Except Fault (beatManager × Nat) :=
  match bm.advance now with
  | .error f => .error f
  | .ok bm1 =>
    if (bm1.measure : Int) > bm1.measuresNo then
      if bm1.done then .error .closeOfClosedChannel
      else .ok ({ bm1 with done := true }, bm1.note)
    else .ok (bm1, bm1.note)

/-- Repeated calls of the critical section, one for each time of `nows`. -/
def advanceAll : beatManager → List Int → Except Fault beatManager
  | bm, [] => .ok bm
  | bm, now :: rest =>
    match bm.advance now with
    | .error f => .error f
    | .ok bm1 => advanceAll bm1 rest

/-- Repeated calls of `nextNote`, one for each time of `nows`. -/
def nextNoteAll : beatManager → List Int → Except Fault beatManager
  | bm, [] => .ok bm
  | bm, now :: rest =>
    match bm.nextNote now with
    | .error f => .error f
    | .ok r => nextNoteAll r.1 rest

/-- The precision recorded by `listen` for a sample taken at `now`:
`float64(now.Sub(bm.currentNoteStarted) - bm.beatLen/2) / float64(bm.beatLen)`,
where `bm.beatLen/2` is an integer division. -/
def beatManager.precision (bm : beatManager) (now : Int) : ℚ :=
  ((now - bm.currentNoteStarted - Int.tdiv bm.beatLen 2 : Int) : ℚ) / (bm.beatLen : ℚ)

/-- The synchronous part of `listen`: the sampler's ticker is created
(`time.NewTicker(bm.inIndicatorDuration / 20)`, which panics for an interval
that is not positive) and the last-seen levels start low. -/
def beatManager.listen (bm : beatManager) : Except Fault (List Bool) :=
  if Int.tdiv bm.inIndicatorDuration 20 ≤ 0 then .error .nonPositiveInterval
  else .ok (List.replicate bm.inputs.length false)

/-- The body of the sampler's loop over `bm.inputs` for one track: `levels`
gives what `in.Value()` returns during this pass. -/
def listenTrack (now : Int) (levels : Input → Bool)
    (st : beatManager × List Bool) (ti : Nat × Input) : beatManager × List Bool :=
  let v := levels ti.2
  if v = st.2.getD ti.1 false then st
  else
    let wasUp := st.2.set ti.1 v
    if v = false then (st.1, wasUp)
    else
      ({ st.1 with
          userInputs := st.1.userInputs ++
            [{ Track := ti.1, Measure := st.1.measure, Note := st.1.note,
               Precision := st.1.precision now }] },
        wasUp)

/-- One firing of the sampler's ticker: the loop over `bm.inputs`.  When the
channel `bm.done` is closed the sampler returns without sampling. -/
def listenPass (bm : beatManager) (wasUp : List Bool) (now : Int)
    (levels : Input → Bool) : beatManager × List Bool :=
  if bm.done then (bm, wasUp)
  else bm.inputs.enum.foldl (listenTrack now levels) (bm, wasUp)

/-- One firing of the sampler's ticker: the time and the level of every input. -/
structure Sample where
  now : Int
  levels : Input → Bool

/-- The sampler's loop over the firings of its ticker. -/
def listenLoop (bm : beatManager) (wasUp : List Bool) (samples : List Sample) :
    beatManager × List Bool :=
  samples.foldl (fun st s => listenPass st.1 st.2 s.now s.levels) (bm, wasUp)

/-! ## The exercise -/

/-- The state of the control loop of `RunExercise`: the beat manager, the
half-beat counter, the local variable `note`, the sampler's last-seen levels
(`none` until `listen` has been called) and the outputs pulsed so far by
`outBeat`, oldest first. -/
structure LoopState where
  bm : beatManager
  halfBeat : Nat
  note : Nat
  wasUp : Option (List Bool)
  outputs : List Output

/-- The loop `for i := range ec.TracksRhythm` that binds `rt.tracks[i].In`. -/
def bindInputs (rt : RhythmTrainer) : List Nat → Except Fault (List Input)
  | [] => .ok []
  | i :: rest =>
    match rt.tracks[i]? with
    | none => .error .indexOutOfRange
    | some tr =>
      match bindInputs rt rest with
      | .error f => .error f
      | .ok ins => .ok (tr.In :: ins)

/-- The loop over the tracks on an odd exercise tick: `rhythm[note-1]` is
looked up and, where a beat is expected, `rt.tracks[i].Out` is pulsed. -/
def indicate (rt : RhythmTrainer) (note : Nat) :
    List (Nat × Measure) → List Output → Except Fault (List Output)
  | [], outs => .ok outs
  | (i, rhythm) :: rest, outs =>
    match note with
    | 0 => .error .indexOutOfRange
    | n + 1 =>
      match rhythm[n]? with
      | none => .error .indexOutOfRange
      | some false => indicate rt note rest outs
      | some true =>
        match rt.tracks[i]? with
        | none => .error .indexOutOfRange
        | some tr => indicate rt note rest (outs ++ [tr.Out])

/-- The part of the loop body after the intro test: `listen` on the
transition tick, then `nextNote` on an even half-beat and the track
indications on an odd one. -/
def exerciseTick (rt : RhythmTrainer) (ec : ExerciseConfig) (measureLen : Nat)
    (s : LoopState) (now : Int) : Except Fault LoopState :=
  let started : Except Fault LoopState :=
    if s.halfBeat = 2 * measureLen then
      match s.bm.listen with
      | .error f => .error f
      | .ok w => .ok { s with wasUp := some w }
    else .ok s
  match started with
  | .error f => .error f
  | .ok s1 =>
    if s1.halfBeat % 2 = 0 then
      match s1.bm.nextNote now with
      | .error f => .error f
      | .ok r => .ok { s1 with bm := r.1, note := r.2 }
    else
      match indicate rt s1.note ec.TracksRhythm.enum s1.outputs with
      | .error f => .error f
      | .ok outs => .ok { s1 with outputs := outs }

/-- The body of the loop `for range ticks` for one tick delivered at `now`. -/
def tickBody (rt : RhythmTrainer) (ec : ExerciseConfig) (measureLen : Nat)
    (s : LoopState) (now : Int) : Except Fault LoopState :=
  let halfBeat := s.halfBeat + 1
  let s1 : LoopState :=
    if halfBeat % 2 = 1 then
      { s with halfBeat := halfBeat, outputs := s.outputs ++ [rt.metronome] }
    else { s with halfBeat := halfBeat }
  if halfBeat < 2 * measureLen then .ok s1
  else exerciseTick rt ec measureLen s1 now

/-- What happens during an exercise: a tick reaches the control loop, the
sampler's ticker fires, or the ticker goroutine takes the `<-bm.done` branch,
stops the ticker and closes the channel of ticks. -/
inductive Event where
  | tick (now : Int)
  | sample (now : Int) (levels : Input → Bool)
  | stop

/-- A tick or a firing of the sampler, handled atomically.  A sample before
`listen` was called finds no sampler and changes nothing. -/
def step (rt : RhythmTrainer) (ec : ExerciseConfig) (measureLen : Nat)
    (s : LoopState) : Event → Except Fault LoopState
  | .tick now => tickBody rt ec measureLen s now
  | .sample now levels =>
    match s.wasUp with
    | none => .ok s
    | some w =>
      let r := listenPass s.bm w now levels
      .ok { s with bm := r.1, wasUp := some r.2 }
  | .stop => .ok s

/-- The loop `for range ticks` under a schedule.  Every tick of the schedule
is handled, also one delivered after `bm.done` was closed.  The loop ends at
the first `stop` that finds `bm.done` closed; before that the ticker
goroutine cannot take that branch and a `stop` is passed over.  The value
holds the last state and whether the loop has ended. -/
def runLoop (rt : RhythmTrainer) (ec : ExerciseConfig) (measureLen : Nat) :
    LoopState → List Event → Except Fault (LoopState × Bool)
  | s, [] => .ok (s, false)
  | s, .stop :: rest =>
    if s.bm.done then .ok (s, true) else runLoop rt ec measureLen s rest
  | s, e :: rest =>
    match step rt ec measureLen s e with
    | .error f => .error f
    | .ok s1 => runLoop rt ec measureLen s1 rest

/-- What a call of `RunExercise` returns and what it did to the outputs. -/
structure Outcome where
  result : ExerciseResult
  err : Option TrackError
  outputs : List Output
deriving DecidableEq

/-- `RhythmTrainer.RunExercise` under a schedule of events.  The value is
`.error f` when the call panics, `.ok none` when the schedule ends while the
loop is still running, and `.ok (some o)` when the call returns. -/
def RhythmTrainer.RunExercise (rt : RhythmTrainer) (ec : ExerciseConfig)
    (events : List Event) : Except Fault (Option Outcome) :=
  match rt.validateRhythmTracks ec.TracksRhythm with
  | .error e => .ok (some ⟨⟨0, [], []⟩, some e, []⟩)
  | .ok measureLen =>
    match bindInputs rt (List.range ec.TracksRhythm.length) with
    | .error f => .error f
    | .ok inputs =>
      match newBeatManager ec inputs with
      | .error f => .error f
      | .ok bm =>
        match bm.startHalfBeatTicker with
        | .error f => .error f
        | .ok _ =>
          match runLoop rt ec measureLen ⟨bm, 0, 0, none, []⟩ events with
          | .error f => .error f
          | .ok r =>
            if r.2 then
              .ok (some ⟨⟨ec.MeasuresNo, r.1.bm.userInputs, ec.TracksRhythm⟩, none,
                r.1.outputs⟩)
            else .ok none

/-! ## Concrete configurations used by the examples -/

/-- A trainer with three bound tracks, as in the repository's tests. -/
def trainer3 : RhythmTrainer :=
  ⟨[⟨0, 10⟩, ⟨1, 11⟩, ⟨2, 12⟩], 99⟩

/-- Four one-note patterns: one more than `trainer3` has tracks. -/
def configFourTracks : ExerciseConfig :=
  ⟨[[true], [true], [true], [true]], 2880, 12, .fin 0, .fin 0⟩

/-- A scheduler in its initial state for measures of four notes and three
measures, at 120 beats a minute. -/
def scheduler43 : beatManager :=
  { beatLen := 500000000, outIndicatorDuration := 100000000,
    inIndicatorDuration := 25000000, measureLen := 4, measuresNo := 3,
    inputs := [0], userInputs := [], done := false, currentNoteStarted := 0,
    note := 0, measure := 0 }

/-! ## Reading the score

The loops of `Score` visit a grid of cells; the definitions below name the
grid and what one cell takes off the score, in units of the fault coefficient. -/

/-- The cell a recorded beat falls in. -/
def UserBeat.ref (b : UserBeat) : beatRef :=
  ⟨b.Track, b.Measure, b.Note⟩

/-- The cells visited by the loops of `Score`, in the order of the visit:
measures `1 .. measuresNo`, tracks from index 0, notes from 1; each cell comes
with whether the pattern expects a beat there. -/
def gridCells (measuresNo : Int) (trackRhythm : List Measure) : List (beatRef × Bool) :=
  (List.range' 1 measuresNo.toNat).flatMap fun measure =>
    trackRhythm.enum.flatMap fun t =>
      t.2.enum.map fun c => (⟨(t.1 : Int), (measure : Int), (c.1 : Int) + 1⟩, c.2)

/-- What one cell takes off the score, in units of the fault coefficient: the
stored precision for an expected beat that was recorded, 1 for an expected
beat that was not recorded or a recorded beat that was not expected, and 0
otherwise. -/
def cellFault (beatsSet : BeatsSet) (c : beatRef × Bool) : ℚ :=
  match c.2, beatsSet c.1 with
  | true, some prec => prec
  | true, none => 1
  | false, some _ => 1
  | false, none => 0

/-- What the loops of `Score` do at one cell of the grid when every operation
is rounded. -/
def cellStepF64 (faultCoef : F64) (beatsSet : BeatsSet) (score : F64)
    (c : beatRef × Bool) : F64 :=
  match c.2, beatsSet c.1 with
  | true, some prec => score.sub (faultCoef.mul (.fin prec))
  | true, none => score.sub faultCoef
  | false, some _ => score.sub faultCoef
  | false, none => score

/-- The patterns of the repository's end-to-end test: `1000`, `1010`, `0100`. -/
def testRhythm : List Measure :=
  [[true, false, false, false], [true, false, true, false], [false, true, false, false]]

/-- One beat of precision 0 in every cell where the pattern expects one. -/
def perfectInputs (measuresNo : Int) (trackRhythm : List Measure) : List UserBeat :=
  ((gridCells measuresNo trackRhythm).filter fun c => c.2).map fun c =>
    ⟨c.1.Track, c.1.Measure, c.1.Note, 0⟩

/-- Twelve measures of the test patterns, played perfectly. -/
def perfectResult : ExerciseResult :=
  ⟨12, perfectInputs 12 testRhythm, testRhythm⟩

/-- A result with an early beat, a doubled beat, a beat where none is
expected and a beat outside the grid. -/
def messyResult : ExerciseResult :=
  ⟨2, [⟨0, 1, 1, -2 / 5⟩, ⟨0, 1, 1, 3⟩, ⟨1, 2, 2, 1 / 4⟩, ⟨7, -3, 0, -9⟩],
    [[true, false], [false, true]]⟩

/-- One measure of one note that expects a beat, and one beat recorded early,
at precision -0.4. -/
def earlyBeatResult : ExerciseResult :=
  ⟨1, [⟨0, 1, 1, -2 / 5⟩], [[true]]⟩

/-- The same cell with the beat recorded late, at precision 0.4. -/
def lateBeatResult : ExerciseResult :=
  ⟨1, [⟨0, 1, 1, 2 / 5⟩], [[true]]⟩

/-- The same cell hit twice: early at precision -0.4, then late at 0.1. -/
def doubleBeatResult : ExerciseResult :=
  ⟨1, [⟨0, 1, 1, -2 / 5⟩, ⟨0, 1, 1, 1 / 10⟩], [[true]]⟩

/-- The same cell hit twice late, at precisions 0.1 and 0.4. -/
def doubleLateResult : ExerciseResult :=
  ⟨1, [⟨0, 1, 1, 1 / 10⟩, ⟨0, 1, 1, 2 / 5⟩], [[true]]⟩

/-! ## Reading the sampler -/

/-- The number of low-to-high transitions in a sequence of levels that follows
the level `previous`. -/
def risingEdges (previous : Bool) : List Bool → Nat
  | [] => 0
  | v :: rest => (if v = true ∧ previous = false then 1 else 0) + risingEdges v rest

/-- The number of recorded beats that carry the track index `track`. -/
def beatsOnTrack (track : Nat) (userInputs : List UserBeat) : Nat :=
  userInputs.countP fun b => decide (b.Track = (track : Int))

/-- A scheduler with two inputs in the first note of the first measure, the
note having started at time 1000, at 120 beats a minute. -/
def listeningScheduler : beatManager :=
  { beatLen := 500000000, outIndicatorDuration := 100000000,
    inIndicatorDuration := 25000000, measureLen := 4, measuresNo := 3,
    inputs := [5, 6], userInputs := [], done := false, currentNoteStarted := 1000,
    note := 1, measure := 1 }

/-- Five firings of the sampler: input 5 reads high, high, low, high, high and
input 6 reads low throughout. -/
def fiveSamples : List Sample :=
  [⟨2000, fun i => i == 5⟩, ⟨3000, fun i => i == 5⟩, ⟨4000, fun _ => false⟩,
   ⟨250001000, fun i => i == 5⟩, ⟨250002000, fun i => i == 5⟩]

/-! ## Reading a schedule -/

/-- The number of ticks in a schedule of events. -/
def tickCount : List Event → Nat
  | [] => 0
  | .tick _ :: rest => tickCount rest + 1
  | .sample _ _ :: rest => tickCount rest
  | .stop :: rest => tickCount rest

/-- The invariant of the control loop for measure length `L` and `M`
measures.  During the intro the scheduler is in its initial state; from the
transition tick on, the note lies in `[1, L]`, the loop's local note is the
scheduler's, the number of notes started so far is one for every two
half-beats since the transition tick, and the channel is closed exactly when
the measure exceeds `M`. -/
structure LoopInv (L : Nat) (M : Int) (s : LoopState) : Prop where
  measureLen : s.bm.measureLen = L
  measuresNo : s.bm.measuresNo = M
  sampler : 20 ≤ s.bm.inIndicatorDuration
  phase :
    (s.halfBeat < 2 * L ∧ s.bm.note = 0 ∧ s.bm.measure = 0 ∧ s.note = 0 ∧
      s.bm.done = false) ∨
    (2 * L ≤ s.halfBeat ∧ 1 ≤ s.bm.note ∧ s.bm.note ≤ L ∧ s.note = s.bm.note ∧
      1 ≤ s.bm.measure ∧
      L * (s.bm.measure - 1) + s.bm.note = (s.halfBeat - 2 * L) / 2 + 1 ∧
      (s.bm.done = true ↔ M < (s.bm.measure : Int)))

/-- The `float64` nearest 0.2, the output pulse fraction of the tests. -/
def outBeatTest : F64 := .fin (3602879701896397 / 18014398509481984)

/-- The `float64` nearest 0.05, the input pulse fraction of the tests. -/
def inBeatTest : F64 := .fin (3602879701896397 / 72057594037927936)

/-- The configuration of the repository's end-to-end test: the test patterns,
twelve measures at 2880 beats a minute. -/
def testConfig : ExerciseConfig :=
  ⟨testRhythm, 2880, 12, outBeatTest, inBeatTest⟩

/-- A schedule of 104 ticks, half a beat apart, each followed by one firing of
the sampler that reads every input low; then one more tick that was already on
its way when the exercise completed. -/
def testTicks : List Event :=
  ((List.range 104).flatMap fun i =>
    [Event.tick (i * 10416666), Event.sample (i * 10416666 + 5000000) fun _ => false]) ++
  [Event.tick 1083333264]

/-- The ticks of `testTicks`, after which the ticker goroutine stops. -/
def testSchedule : List Event :=
  testTicks ++ Event.stop :: []

/-- One one-note pattern at a tempo of zero. -/
def configZeroTempo : ExerciseConfig :=
  ⟨[[true]], 0, 12, outBeatTest, inBeatTest⟩

/-- One pattern without notes. -/
def configEmptyMeasure : ExerciseConfig :=
  ⟨[[]], 60, 12, outBeatTest, inBeatTest⟩

/-- One one-note pattern at a negative tempo. -/
def configNegativeTempo : ExerciseConfig :=
  ⟨[[true]], -60, 12, outBeatTest, inBeatTest⟩

/-- One one-note pattern at 30 000 001 beats a minute, with the input pulse
fraction left at zero as in the repository's second test. -/
def configFastTempo : ExerciseConfig :=
  ⟨[[true]], 30000001, 12, outBeatTest, .fin 0⟩

/-- One one-note pattern at 60 beats a minute with an input pulse fraction
that is not a number. -/
def configNaN : ExerciseConfig :=
  ⟨[[true]], 60, 12, outBeatTest, .nan⟩

/-- One one-note pattern, one measure, at 60 beats a minute. -/
def configOneNote : ExerciseConfig :=
  ⟨[[true]], 60, 1, outBeatTest, inBeatTest⟩

/-- Six ticks: the fourth completes the one measure of `configOneNote`, and
two more are delivered before the ticker goroutine stops. -/
def lateStopSchedule : List Event :=
  [Event.tick 0, Event.tick 500000000, Event.tick 1000000000, Event.tick 1500000000,
   Event.tick 2000000000, Event.tick 2500000000, Event.stop]

/-- A configuration at 80 beats a minute, with the given pulse fractions. -/
def configAt80 (outBeat inBeat : F64) : ExerciseConfig :=
  ⟨[[true]], 80, 1, outBeat, inBeat⟩

/-- The `float64` nearest 0.35. -/
def f64_035 : F64 := .fin (3152519739159347 / 9007199254740992)

/-- The `float64` nearest 0.01, which is a little above 0.01. -/
def f64_001 : ℚ := 5764607523034235 / 576460752303423488

/-- The largest `float64` below 0.01. -/
def justBelow001 : ℚ := 2882303761517117 / 288230376151711744

/-- One measure of one track of six notes that all expect a beat, and a beat
in every cell with the largest `float64` precision below 0.01. -/
def sixNoteResult : ExerciseResult :=
  ⟨1,
    [⟨0, 1, 1, justBelow001⟩, ⟨0, 1, 2, justBelow001⟩, ⟨0, 1, 3, justBelow001⟩,
     ⟨0, 1, 4, justBelow001⟩, ⟨0, 1, 5, justBelow001⟩, ⟨0, 1, 6, justBelow001⟩],
    [[true, true, true, true, true, true]]⟩

/-! ## Rounding -/

theorem floor_facts (x : ℚ) : (x.floor : ℚ) ≤ x ∧ x < (x.floor : ℚ) + 1 := by
  have e : x.floor = ⌊x⌋ := rfl
  rw [e]
  exact ⟨Int.floor_le x, Int.lt_floor_add_one x⟩

/-- The rounded integer is within one half of the number. -/
theorem roundHalfEven_error (x : ℚ) : |(roundHalfEven x : ℚ) - x| ≤ 1 / 2 := by
  obtain ⟨h1, h2⟩ := floor_facts x
  unfold roundHalfEven
  simp only
  rw [abs_le]
  split_ifs with ha hb hc
  · constructor <;> linarith
  · push_cast
    constructor <;> linarith
  · constructor <;> linarith
  · push_cast
    constructor <;> linarith

/-- Rounding does not cross an integer. -/
theorem roundHalfEven_ge (x : ℚ) (z : Int) (h : (z : ℚ) ≤ x) : z ≤ roundHalfEven x := by
  have hz : z ≤ x.floor := Rat.le_floor.2 h
  unfold roundHalfEven
  simp only
  split_ifs <;> omega

theorem roundHalfEven_le (x : ℚ) (z : Int) (h : x ≤ (z : ℚ)) : roundHalfEven x ≤ z := by
  obtain ⟨h1, h2⟩ := floor_facts x
  have hz : x.floor ≤ z := by
    have : (x.floor : ℚ) ≤ (z : ℚ) := le_trans h1 h
    exact_mod_cast this
  by_cases he : x.floor = z
  · have hx : x = (z : ℚ) := le_antisymm h (by rw [← he]; exact h1)
    unfold roundHalfEven
    simp only
    have hr : x - (x.floor : ℚ) = 0 := by rw [he, hx]; ring
    rw [hr]
    norm_num
    exact hz
  · have hlt : x.floor + 1 ≤ z := by omega
    unfold roundHalfEven
    simp only
    split_ifs <;> omega

/-- A number within less than one half of an integer rounds to it. -/
theorem roundHalfEven_eq (x : ℚ) (m : Int) (h : |x - (m : ℚ)| < 1 / 2) :
    roundHalfEven x = m := by
  rw [abs_lt] at h
  obtain ⟨h1, h2⟩ := floor_facts x
  have e := roundHalfEven_error x
  rw [abs_le] at e
  have ha : ((roundHalfEven x : Int) : ℚ) - (m : ℚ) < 1 := by linarith
  have hb : (m : ℚ) - ((roundHalfEven x : Int) : ℚ) < 1 := by linarith
  have ha' : roundHalfEven x - m < 1 := by exact_mod_cast ha
  have hb' : m - roundHalfEven x < 1 := by exact_mod_cast hb
  omega

theorem round64_zero : round64 0 = 0 := by simp [round64]

/-- The binade of a number other than zero. -/
theorem binade (x : ℚ) (hx : x ≠ 0) :
    (2 : ℚ) ^ (Int.log 2 |x|) ≤ |x| ∧ |x| < (2 : ℚ) ^ (Int.log 2 |x| + 1) := by
  have hpos : 0 < |x| := abs_pos.2 hx
  have h1 := Int.zpow_log_le_self (b := 2) (r := |x|) (by norm_num) hpos
  have h2 := Int.lt_zpow_succ_log_self (b := 2) (by norm_num) |x|
  exact ⟨by exact_mod_cast h1, by exact_mod_cast h2⟩

theorem log_eq (x : ℚ) (e : Int) (h1 : (2 : ℚ) ^ e ≤ |x|) (h2 : |x| < (2 : ℚ) ^ (e + 1)) :
    Int.log 2 |x| = e := by
  have hpos : 0 < |x| := lt_of_lt_of_le (by positivity) h1
  have ha : e ≤ Int.log 2 |x| :=
    (Int.zpow_le_iff_le_log (b := 2) (by norm_num) hpos).1 (by exact_mod_cast h1)
  have hb : Int.log 2 |x| < e + 1 :=
    (Int.lt_zpow_iff_log_lt (b := 2) (by norm_num) hpos).1 (by exact_mod_cast h2)
  omega

/-- The exponent of the unit in the last place is at most zero for a number
below `2 ^ 53`. -/
theorem ulp_exponent_facts (x : ℚ) :
    Int.log 2 |x| - 52 ≤ max (Int.log 2 |x| - 52) (-1074) ∧
    (-1074 : Int) ≤ max (Int.log 2 |x| - 52) (-1074) ∧
    (max (Int.log 2 |x| - 52) (-1074) = Int.log 2 |x| - 52 ∨
      max (Int.log 2 |x| - 52) (-1074) = -1074) := by
  refine ⟨le_max_left _ _, le_max_right _ _, ?_⟩
  rcases le_total (Int.log 2 |x| - 52) (-1074) with h | h
  · exact Or.inr (max_eq_right h)
  · exact Or.inl (max_eq_left h)

/-- The value of `round64` at a number of a known binade. -/
theorem round64_eq (x : ℚ) (m e : Int) (h1 : (2 : ℚ) ^ (e + 52) ≤ |x|)
    (h2 : |x| < (2 : ℚ) ^ (e + 53)) (h3 : |x - (m : ℚ) * 2 ^ e| < 2 ^ e / 2)
    (h4 : -1074 ≤ e) :
    round64 x = (m : ℚ) * 2 ^ e := by
  have hx : x ≠ 0 := by
    intro h
    rw [h, abs_zero] at h1
    have : (0 : ℚ) < 2 ^ (e + 52) := by positivity
    linarith
  have hlog : Int.log 2 |x| = e + 52 := log_eq x (e + 52) h1 (by
    have : e + 52 + 1 = e + 53 := by ring
    rw [this]
    exact h2)
  unfold round64
  rw [if_neg hx]
  simp only [hlog]
  have he : max (e + 52 - 52) (-1074) = e := by
    have : e + 52 - 52 = e := by ring
    rw [this]
    exact max_eq_left h4
  rw [he]
  have hpos : (0 : ℚ) < 2 ^ e := by positivity
  have hm : roundHalfEven (x / 2 ^ e) = m := by
    apply roundHalfEven_eq
    have : x / 2 ^ e - (m : ℚ) = (x - (m : ℚ) * 2 ^ e) / 2 ^ e := by
      field_simp
      ring
    rw [this, abs_div, abs_of_pos hpos, div_lt_iff₀ hpos]
    linarith
  rw [hm]

/-- The error of `round64` is at most half a unit in the last place. -/
theorem round64_half_ulp (x : ℚ) (hx : x ≠ 0) :
    |round64 x - x| ≤ 1 / 2 * 2 ^ (max (Int.log 2 |x| - 52) (-1074)) := by
  unfold round64
  rw [if_neg hx]
  simp only
  generalize max (Int.log 2 |x| - 52) (-1074) = k
  have hpos : (0 : ℚ) < 2 ^ k := by positivity
  have herr := roundHalfEven_error (x / 2 ^ k)
  have e1 : (roundHalfEven (x / 2 ^ k) : ℚ) * 2 ^ k - x =
      ((roundHalfEven (x / 2 ^ k) : ℚ) - x / 2 ^ k) * 2 ^ k := by
    field_simp
  rw [e1, abs_mul, abs_of_pos hpos]
  exact mul_le_mul_of_nonneg_right herr hpos.le

/-- The error of `round64` is at most `2 ^ (-53)` of the number, and half of
the smallest unit in the subnormal range. -/
theorem round64_error (x : ℚ) :
    |round64 x - x| ≤ 2 ^ (-53 : Int) * |x| + 2 ^ (-1075 : Int) := by
  by_cases hx : x = 0
  · rw [hx, round64_zero]
    simp
    positivity
  · obtain ⟨hb1, -⟩ := binade x hx
    have h := round64_half_ulp x hx
    obtain ⟨-, -, hk | hk⟩ := ulp_exponent_facts x
    · rw [hk] at h
      have e2 : (1 : ℚ) / 2 * 2 ^ (Int.log 2 |x| - 52) =
          2 ^ (-53 : Int) * 2 ^ (Int.log 2 |x|) := by
        have : (2 : ℚ) ^ (Int.log 2 |x| - 52) = 2 ^ (-52 : Int) * 2 ^ (Int.log 2 |x|) := by
          rw [← zpow_add₀ (by norm_num : (2 : ℚ) ≠ 0)]
          congr 1
          ring
        rw [this]
        norm_num
        ring
      have h5 : (2 : ℚ) ^ (-53 : Int) * 2 ^ (Int.log 2 |x|) ≤ 2 ^ (-53 : Int) * |x| :=
        mul_le_mul_of_nonneg_left hb1 (by positivity)
      have h6 : (0 : ℚ) < 2 ^ (-1075 : Int) := by positivity
      rw [e2] at h
      exact le_trans h (le_trans h5 (le_add_of_nonneg_right h6.le))
    · rw [hk] at h
      have e2 : (1 : ℚ) / 2 * 2 ^ (-1074 : Int) = 2 ^ (-1075 : Int) := by
        have : (2 : ℚ) ^ (-1074 : Int) = 2 ^ (1 : Int) * 2 ^ (-1075 : Int) := by
          rw [← zpow_add₀ (by norm_num : (2 : ℚ) ≠ 0)]
          congr 1
        rw [this]
        norm_num
      have h5 : (0 : ℚ) ≤ 2 ^ (-53 : Int) * |x| := by positivity
      rw [e2] at h
      exact le_trans h (le_add_of_nonneg_left h5)

/-- The relative error of `round64` is at most `2 ^ (-53)` for a number of
normal magnitude. -/
theorem round64_error_normal (x : ℚ) (hx : (2 : ℚ) ^ (-1022 : Int) ≤ |x|) :
    |round64 x - x| ≤ 2 ^ (-53 : Int) * |x| := by
  have hpos : 0 < |x| := lt_of_lt_of_le (by positivity) hx
  have hx0 : x ≠ 0 := abs_pos.1 hpos
  obtain ⟨hb1, -⟩ := binade x hx0
  have h := round64_half_ulp x hx0
  have hlog : (-1022 : Int) ≤ Int.log 2 |x| :=
    (Int.zpow_le_iff_le_log (b := 2) (by norm_num) hpos).1 (by exact_mod_cast hx)
  rw [max_eq_left (by omega)] at h
  have e2 : (1 : ℚ) / 2 * 2 ^ (Int.log 2 |x| - 52) =
      2 ^ (-53 : Int) * 2 ^ (Int.log 2 |x|) := by
    have : (2 : ℚ) ^ (Int.log 2 |x| - 52) = 2 ^ (-52 : Int) * 2 ^ (Int.log 2 |x|) := by
      rw [← zpow_add₀ (by norm_num : (2 : ℚ) ≠ 0)]
      congr 1
      ring
    rw [this]
    norm_num
    ring
  have h5 : (2 : ℚ) ^ (-53 : Int) * 2 ^ (Int.log 2 |x|) ≤ 2 ^ (-53 : Int) * |x| :=
    mul_le_mul_of_nonneg_left hb1 (by positivity)
  rw [e2] at h
  exact le_trans h h5

theorem round64_nonneg (x : ℚ) (h : 0 ≤ x) : 0 ≤ round64 x := by
  unfold round64
  split_ifs with hx
  · exact le_rfl
  · simp only
    generalize max (Int.log 2 |x| - 52) (-1074) = k
    have hpos : (0 : ℚ) < 2 ^ k := by positivity
    have h1 : (0 : Int) ≤ roundHalfEven (x / 2 ^ k) :=
      roundHalfEven_ge _ 0 (by simpa using div_nonneg h hpos.le)
    have h2 : (0 : ℚ) ≤ (roundHalfEven (x / 2 ^ k) : ℚ) := by
      exact_mod_cast h1
    exact mul_nonneg h2 hpos.le

theorem round64_nonpos (x : ℚ) (h : x ≤ 0) : round64 x ≤ 0 := by
  unfold round64
  split_ifs with hx
  · exact le_rfl
  · simp only
    generalize max (Int.log 2 |x| - 52) (-1074) = k
    have hpos : (0 : ℚ) < 2 ^ k := by positivity
    have h1 : roundHalfEven (x / 2 ^ k) ≤ (0 : Int) :=
      roundHalfEven_le _ 0 (by simpa using div_nonpos_of_nonpos_of_nonneg h hpos.le)
    have h2 : (roundHalfEven (x / 2 ^ k) : ℚ) ≤ 0 := by
      exact_mod_cast h1
    exact mul_nonpos_of_nonpos_of_nonneg h2 hpos.le

theorem round64_one : round64 1 = 1 := by
  rw [round64_eq 1 4503599627370496 (-52) (by norm_num) (by norm_num)
    (by rw [abs_lt]; constructor <;> norm_num) (by norm_num)]
  norm_num

theorem two_pow_52_mul (k : Int) :
    (4503599627370496 : ℚ) * 2 ^ (k - 52) = 2 ^ k := by
  have e : (4503599627370496 : ℚ) = 2 ^ (52 : Int) := by norm_num
  rw [e, ← zpow_add₀ (by norm_num : (2 : ℚ) ≠ 0)]
  congr 1
  ring

/-- The unit in the last place of a number below `2 ^ 53` is a power of two
with an exponent that is not positive. -/
theorem ulp_exponent_nonpos (x : ℚ) (hx : x ≠ 0) (h : |x| < 2 ^ (53 : Int)) :
    max (Int.log 2 |x| - 52) (-1074) ≤ 0 := by
  have hpos : 0 < |x| := abs_pos.2 hx
  have hlog : Int.log 2 |x| < 53 :=
    (Int.lt_zpow_iff_log_lt (b := 2) (by norm_num) hpos).1 (by exact_mod_cast h)
  exact max_le (by omega) (by norm_num)

/-- Rounding does not cross a natural number below `2 ^ 53` upwards. -/
theorem round64_le_nat (x : ℚ) (n : Nat) (hn : n < 2 ^ 53) (h : x ≤ (n : ℚ)) :
    round64 x ≤ (n : ℚ) := by
  rcases le_or_lt x 0 with h0 | h0
  · exact le_trans (round64_nonpos x h0) (Nat.cast_nonneg n)
  · have hx : x ≠ 0 := h0.ne'
    have hn' : (n : ℚ) < 2 ^ (53 : Int) := by
      have h6 : ((n : Nat) : ℚ) < ((2 ^ 53 : Nat) : ℚ) := by exact_mod_cast hn
      have h7 : (((2 : Nat) ^ 53 : Nat) : ℚ) = 2 ^ (53 : Int) := by norm_num
      rw [h7] at h6
      exact h6
    have hbig : |x| < 2 ^ (53 : Int) := by
      rw [abs_of_pos h0]
      linarith
    have hk := ulp_exponent_nonpos x hx hbig
    unfold round64
    rw [if_neg hx]
    simp only
    revert hk
    generalize max (Int.log 2 |x| - 52) (-1074) = k
    intro hk
    obtain ⟨j, hj⟩ : ∃ j : Nat, k = -(j : Int) := ⟨(-k).toNat, by omega⟩
    rw [hj]
    have hpos : (0 : ℚ) < 2 ^ (-(j : Int)) := by positivity
    have hq : x / 2 ^ (-(j : Int)) ≤ (((n * 2 ^ j : Nat) : Int) : ℚ) := by
      rw [div_le_iff₀ hpos]
      push_cast
      rw [zpow_neg, zpow_natCast]
      field_simp
      exact h
    have h1 := roundHalfEven_le _ _ hq
    have h2 : (roundHalfEven (x / 2 ^ (-(j : Int))) : ℚ) ≤
        (((n * 2 ^ j : Nat) : Int) : ℚ) := by
      exact_mod_cast h1
    have h3 := mul_le_mul_of_nonneg_right h2 hpos.le
    have e : (((n * 2 ^ j : Nat) : Int) : ℚ) * 2 ^ (-(j : Int)) = (n : ℚ) := by
      push_cast
      rw [zpow_neg, zpow_natCast]
      field_simp
    rw [e] at h3
    exact h3

/-- Rounding does not cross 1 upwards. -/
theorem round64_le_one (x : ℚ) (h : x ≤ 1) : round64 x ≤ 1 := by
  have := round64_le_nat x 1 (by norm_num) (by simpa using h)
  simpa using this

/-- Rounding does not cross a natural number below `2 ^ 53` downwards. -/
theorem round64_ge_nat (x : ℚ) (n : Nat) (hn : n ≤ 2 ^ 53) (h : (n : ℚ) ≤ x) :
    (n : ℚ) ≤ round64 x := by
  rcases Nat.eq_zero_or_pos n with h0 | h0
  · subst h0
    simpa using round64_nonneg x (by simpa using h)
  · have hn1 : (1 : ℚ) ≤ (n : ℚ) := by exact_mod_cast h0
    have hxpos : 0 < x := by linarith
    have hx : x ≠ 0 := hxpos.ne'
    obtain ⟨hb1, hb2⟩ := binade x hx
    obtain ⟨-, -, hmax⟩ := ulp_exponent_facts x
    unfold round64
    rw [if_neg hx]
    simp only
    rcases le_or_lt (max (Int.log 2 |x| - 52) (-1074)) 0 with hk | hk
    · -- the unit in the last place divides every natural number
      revert hk
      generalize max (Int.log 2 |x| - 52) (-1074) = k
      intro hk
      obtain ⟨j, hj⟩ : ∃ j : Nat, k = -(j : Int) := ⟨(-k).toNat, by omega⟩
      rw [hj]
      have hpos : (0 : ℚ) < 2 ^ (-(j : Int)) := by positivity
      have hq : (((n * 2 ^ j : Nat) : Int) : ℚ) ≤ x / 2 ^ (-(j : Int)) := by
        rw [le_div_iff₀ hpos]
        push_cast
        rw [zpow_neg, zpow_natCast]
        field_simp
        exact h
      have h1 := roundHalfEven_ge _ _ hq
      have h2 : (((n * 2 ^ j : Nat) : Int) : ℚ) ≤
          (roundHalfEven (x / 2 ^ (-(j : Int))) : ℚ) := by
        exact_mod_cast h1
      have h3 := mul_le_mul_of_nonneg_right h2 hpos.le
      have e : (((n * 2 ^ j : Nat) : Int) : ℚ) * 2 ^ (-(j : Int)) = (n : ℚ) := by
        push_cast
        rw [zpow_neg, zpow_natCast]
        field_simp
      rw [e] at h3
      exact h3
    · have hk2 : max (Int.log 2 |x| - 52) (-1074) = Int.log 2 |x| - 52 := by
        rcases hmax with h | h
        · exact h
        · rw [h] at hk
          omega
      rw [hk2] at hk ⊢
      have hpos : (0 : ℚ) < 2 ^ (Int.log 2 |x| - 52) := by positivity
      have hq : ((4503599627370496 : Int) : ℚ) ≤ x / 2 ^ (Int.log 2 |x| - 52) := by
        rw [le_div_iff₀ hpos]
        push_cast
        rw [two_pow_52_mul]
        exact hb1.trans (le_of_eq (abs_of_pos hxpos))
      have h1 := roundHalfEven_ge _ _ hq
      have h2 : (4503599627370496 : ℚ) ≤
          (roundHalfEven (x / 2 ^ (Int.log 2 |x| - 52)) : ℚ) := by
        exact_mod_cast h1
      have h3 := mul_le_mul_of_nonneg_right h2 hpos.le
      rw [two_pow_52_mul] at h3
      have h4 : (2 : ℚ) ^ (53 : Int) ≤ 2 ^ (Int.log 2 |x|) :=
        zpow_le_zpow_right₀ (by norm_num) (by omega)
      have h5 : (n : ℚ) ≤ 2 ^ (53 : Int) := by
        have h6 : ((n : Nat) : ℚ) ≤ ((2 ^ 53 : Nat) : ℚ) := by exact_mod_cast hn
        have h7 : (((2 : Nat) ^ 53 : Nat) : ℚ) = 2 ^ (53 : Int) := by norm_num
        rw [h7] at h6
        exact h6
      linarith

/-- A result of magnitude at most `2 ^ 1023` does not overflow. -/
theorem F64.round_fin (x : ℚ) (h : |x| ≤ 2 ^ 1023) : F64.round x = .fin (round64 x) := by
  have he := round64_error x
  have h1 : |round64 x| ≤ |x| + |round64 x - x| := by
    have := abs_add x (round64 x - x)
    simpa using this
  have h3 : |round64 x| < 2 ^ 1024 := by
    have h4 : (2 : ℚ) ^ (-1075 : Int) ≤ 1 :=
      zpow_le_one_of_nonpos₀ (by norm_num) (by norm_num)
    have hu : (2 : ℚ) ^ (-53 : Int) = 1 / 9007199254740992 := by norm_num
    have h6 : (9007199254740992 : ℚ) ≤ 2 ^ 1023 := by norm_num
    have h8 : (2 : ℚ) ^ 1024 = 2 * 2 ^ 1023 := by ring
    rw [h8]
    rw [hu] at he
    revert h h6
    generalize (2 : ℚ) ^ 1023 = B
    intro h h6
    have h9 : 1 / 9007199254740992 * |x| ≤ 1 / 9007199254740992 * B :=
      mul_le_mul_of_nonneg_left h (by norm_num)
    linarith
  unfold F64.round
  simp only
  rw [if_neg (not_le.2 h3)]

/-- The float of an integer below `2 ^ 53` in absolute value is that integer. -/
theorem round64_natCast (n : Nat) (hn : n < 2 ^ 53) : round64 (n : ℚ) = (n : ℚ) :=
  le_antisymm (round64_le_nat _ n hn le_rfl) (round64_ge_nat _ n hn.le le_rfl)

/-- The float nearest a number of a known binade. -/
theorem F64.round_eq (x : ℚ) (m e : Int) (h1 : (2 : ℚ) ^ (e + 52) ≤ |x|)
    (h2 : |x| < (2 : ℚ) ^ (e + 53)) (h3 : |x - (m : ℚ) * 2 ^ e| < 2 ^ e / 2)
    (h4 : -1074 ≤ e) (h5 : e ≤ 900) :
    F64.round x = .fin ((m : ℚ) * 2 ^ e) := by
  have hle : |x| ≤ 2 ^ 1023 := by
    have h6 : (2 : ℚ) ^ (e + 53) ≤ 2 ^ (1023 : Int) :=
      zpow_le_zpow_right₀ (by norm_num) (by omega)
    have h7 : (2 : ℚ) ^ (1023 : Int) = 2 ^ 1023 := by norm_num
    rw [h7] at h6
    exact le_trans h2.le h6
  rw [F64.round_fin x hle, round64_eq x m e h1 h2 h3 h4]

/-! ## Validation -/

theorem checkLengths_ok_iff (n : Nat) (tracks : List Measure) :
    checkLengths n tracks = .ok () ↔ ∀ t ∈ tracks, t.length = n := by
  induction tracks with
  | nil => simp [checkLengths]
  | cons t rest ih =>
    by_cases h : t.length = n
    · simp [checkLengths, h, ih]
    · simp [checkLengths, h]

theorem checkLengths_error (n : Nat) (tracks : List Measure) (e : TrackError)
    (h : checkLengths n tracks = .error e) : e = .unequalLength := by
  induction tracks with
  | nil => simp [checkLengths] at h
  | cons t rest ih =>
    by_cases ht : t.length = n
    · simp [checkLengths, ht] at h
      exact ih h
    · simp [checkLengths, ht] at h
      exact h.symm

theorem validate_ok_iff (rt : RhythmTrainer) (tracks : List Measure) (n : Nat) :
    rt.validateRhythmTracks tracks = .ok n ↔
      tracks.length ≤ rt.tracks.length ∧ tracks ≠ [] ∧
        (∀ t ∈ tracks, t.length = n) := by
  unfold RhythmTrainer.validateRhythmTracks
  by_cases hlen : tracks.length > rt.tracks.length
  · simp [hlen]
  · rw [if_neg hlen]
    cases tracks with
    | nil => simp
    | cons t0 rest =>
      have hle : (t0 :: rest).length ≤ rt.tracks.length := Nat.le_of_not_gt hlen
      by_cases hall : ∀ t ∈ t0 :: rest, t.length = t0.length
      · have hc := (checkLengths_ok_iff t0.length (t0 :: rest)).2 hall
        simp only [hc]
        constructor
        · intro h
          have h0 : t0.length = n := by simpa using h
          refine ⟨hle, by simp, ?_⟩
          intro t ht
          rw [hall t ht, h0]
        · rintro ⟨_, _, h⟩
          have h0 : t0.length = n := h t0 (by simp)
          simp [h0]
      · cases hc : checkLengths t0.length (t0 :: rest) with
        | ok u =>
          exact absurd ((checkLengths_ok_iff t0.length (t0 :: rest)).1 hc) hall
        | error e =>
          simp only []
          constructor
          · intro h
            rw [hc] at h
            cases h
          · rintro ⟨_, _, h⟩
            exfalso
            apply hall
            intro t ht
            rw [h t ht, h t0 (by simp)]

theorem validate_error_iff (rt : RhythmTrainer) (tracks : List Measure) :
    (∃ e, rt.validateRhythmTracks tracks = .error e) ↔
      (tracks.length > rt.tracks.length ∨ tracks.length = 0 ∨
        ∃ t ∈ tracks, t.length ≠ (tracks.headD []).length) := by
  constructor
  · rintro ⟨e, he⟩
    by_contra hcon
    push_neg at hcon
    obtain ⟨h1, h2, h3⟩ := hcon
    have hne : tracks ≠ [] := by
      intro h
      simp [h] at h2
    have := (validate_ok_iff rt tracks (tracks.headD []).length).2 ⟨h1, hne, h3⟩
    rw [this] at he
    cases he
  · intro h
    cases hv : rt.validateRhythmTracks tracks with
    | error e => exact ⟨e, rfl⟩
    | ok n =>
      exfalso
      obtain ⟨h1, h2, h3⟩ := (validate_ok_iff rt tracks n).1 hv
      rcases h with h | h | ⟨t, ht, hne⟩
      · omega
      · exact h2 (List.length_eq_zero.mp h)
      · apply hne
        cases tracks with
        | nil => simp at ht
        | cons t0 rest =>
          simp only [List.headD_cons]
          rw [h3 t ht, h3 t0 (by simp)]

/-- C1: `validateRhythmTracks` fails exactly when more patterns are requested
than tracks are bound, or no pattern is given, or some pattern is not as long
as the first; when it succeeds the measure length it returns is the length of
every pattern.  `RunExercise` fails in the same cases: it then returns the zero
result with that error whatever the schedule and the rest of the
configuration, pulses no output and does not reach the scheduler (so not even
a tempo of zero panics); and when validation succeeds a returning call
carries no error. -/
theorem C1_validation (rt : RhythmTrainer) (ec : ExerciseConfig) :
    ((∃ e, rt.validateRhythmTracks ec.TracksRhythm = .error e) ↔
      (ec.TracksRhythm.length > rt.tracks.length ∨ ec.TracksRhythm.length = 0 ∨
        ∃ t ∈ ec.TracksRhythm, t.length ≠ (ec.TracksRhythm.headD []).length)) ∧
    (∀ n, rt.validateRhythmTracks ec.TracksRhythm = .ok n →
      ∀ t ∈ ec.TracksRhythm, t.length = n) ∧
    (∀ e, rt.validateRhythmTracks ec.TracksRhythm = .error e →
      ∀ events, rt.RunExercise ec events = .ok (some ⟨⟨0, [], []⟩, some e, []⟩)) ∧
    (∀ n, rt.validateRhythmTracks ec.TracksRhythm = .ok n →
      ∀ events o, rt.RunExercise ec events = .ok (some o) → o.err = none) := by
  refine ⟨validate_error_iff rt ec.TracksRhythm, ?_, ?_, ?_⟩
  · intro n hn
    exact ((validate_ok_iff rt ec.TracksRhythm n).1 hn).2.2
  · intro e he events
    simp [RhythmTrainer.RunExercise, he]
  · intro n hn events o ho
    simp only [RhythmTrainer.RunExercise, hn] at ho
    split at ho
    · cases ho
    · split at ho
      · cases ho
      · split at ho
        · cases ho
        · split at ho
          · cases ho
          · split at ho
            · simp only [Except.ok.injEq, Option.some.injEq] at ho
              rw [← ho]
            · simp at ho

/-- C1 at the test's configuration: four patterns on three tracks. -/
theorem C1_validation_witness :
    trainer3.validateRhythmTracks configFourTracks.TracksRhythm = .error .tooManyTracks ∧
    trainer3.RunExercise configFourTracks [Event.tick 0] =
      .ok (some ⟨⟨0, [], []⟩, some .tooManyTracks, []⟩) :=
  ⟨rfl, (C1_validation trainer3 configFourTracks).2.2.1 _ rfl [Event.tick 0]⟩

/-! ## Clamping -/

theorem clampFunc_eq (min max x : F64) :
    clampFunc min max x = F64.max min (F64.min max x) := rfl

/-- Dropping the fraction of a number that is not negative. -/
theorem truncate_eq (q : ℚ) (n : Int) (h1 : (n : ℚ) ≤ q) (h2 : q < (n : ℚ) + 1)
    (h0 : 0 ≤ q) : truncate q = n := by
  unfold truncate
  rw [if_pos h0]
  have e : q.floor = ⌊q⌋ := rfl
  rw [e, Int.floor_eq_iff]
  exact ⟨h1, h2⟩

/-- The float of an integer from 0 to below `2 ^ 53` is that integer. -/
theorem F64.ofInt_of_nonneg (n : Int) (h0 : 0 ≤ n) (h1 : n < 2 ^ 53) :
    F64.ofInt n = .fin (n : ℚ) := by
  obtain ⟨k, rfl⟩ := Int.eq_ofNat_of_zero_le h0
  have hk : k < 2 ^ 53 := by exact_mod_cast h1
  have hq : ((k : Int) : ℚ) = (k : ℚ) := by push_cast; rfl
  have hle : |(k : ℚ)| ≤ 2 ^ 1023 := by
    rw [abs_of_nonneg (Nat.cast_nonneg k)]
    have h2 : ((k : Nat) : ℚ) ≤ ((2 ^ 53 : Nat) : ℚ) := by exact_mod_cast hk.le
    have h3 : (((2 : Nat) ^ 53 : Nat) : ℚ) ≤ 2 ^ 1023 := by norm_num
    exact le_trans h2 h3
  rw [F64.ofInt, hq, F64.round_fin _ hle, round64_natCast k hk]

/-- The conversion to an integer of a number between two natural numbers. -/
theorem toInt64_between (q : ℚ) (n1 n2 : Nat) (h1 : (n1 : ℚ) ≤ q) (h2 : q ≤ (n2 : ℚ))
    (hn : n2 < 2 ^ 53) :
    (n1 : Int) ≤ (F64.fin q).toInt64 ∧ (F64.fin q).toInt64 ≤ (n2 : Int) := by
  have h0 : 0 ≤ q := le_trans (Nat.cast_nonneg n1) h1
  have ht : truncate q = q.floor := by
    unfold truncate
    rw [if_pos h0]
  have hlo : (n1 : Int) ≤ q.floor := Rat.le_floor.2 (by exact_mod_cast h1)
  have hhi : q.floor ≤ (n2 : Int) := by
    have h3 : ((q.floor : Int) : ℚ) ≤ ((n2 : Int) : ℚ) :=
      le_trans (floor_facts q).1 (by exact_mod_cast h2)
    exact_mod_cast h3
  have hn' : (n2 : Int) < 2 ^ 53 := by exact_mod_cast hn
  simp only [F64.toInt64, ht]
  rw [if_pos ⟨by omega, by omega⟩]
  exact ⟨hlo, hhi⟩

/-- The scaled beat lies between two natural numbers that bound the exact
product. -/
theorem scaleBeat_between (b : Int) (c : ℚ) (n1 n2 : Nat) (hb0 : 0 ≤ b) (hb1 : b < 2 ^ 53)
    (h1 : (n1 : ℚ) ≤ (b : ℚ) * c) (h2 : (b : ℚ) * c ≤ (n2 : ℚ)) (hn : n2 < 2 ^ 53) :
    (n1 : Int) ≤ scaleBeat b (.fin c) ∧ scaleBeat b (.fin c) ≤ (n2 : Int) := by
  have hle : |(b : ℚ) * c| ≤ 2 ^ 1023 := by
    rw [abs_of_nonneg (le_trans (Nat.cast_nonneg n1) h1)]
    have h3 : ((n2 : Nat) : ℚ) ≤ ((2 ^ 53 : Nat) : ℚ) := by exact_mod_cast hn.le
    have h4 : (((2 : Nat) ^ 53 : Nat) : ℚ) ≤ 2 ^ 1023 := by norm_num
    exact le_trans h2 (le_trans h3 h4)
  rw [scaleBeat, F64.ofInt_of_nonneg b hb0 hb1]
  simp only [F64.mul]
  rw [F64.round_fin _ hle]
  exact toInt64_between _ n1 n2 (round64_ge_nat _ n1 (le_of_lt (lt_of_le_of_lt
    (by exact_mod_cast (le_trans h1 h2)) hn)) h1) (round64_le_nat _ n2 hn h2) hn

/-- The scaled beat when the rounded product is known. -/
theorem scaleBeat_eval (b : Int) (c : ℚ) (m e : Int) (n : Nat) (hb0 : 0 ≤ b)
    (hb1 : b < 2 ^ 53) (h1 : (2 : ℚ) ^ (e + 52) ≤ |(b : ℚ) * c|)
    (h2 : |(b : ℚ) * c| < (2 : ℚ) ^ (e + 53))
    (h3 : |(b : ℚ) * c - (m : ℚ) * 2 ^ e| < 2 ^ e / 2) (h4 : -1074 ≤ e)
    (h5 : e ≤ 900)
    (hn1 : (n : ℚ) ≤ (m : ℚ) * 2 ^ e) (hn2 : (m : ℚ) * 2 ^ e < (n : ℚ) + 1)
    (hn : n < 2 ^ 53) :
    scaleBeat b (.fin c) = (n : Int) := by
  have hle : |(b : ℚ) * c| ≤ 2 ^ 1023 := by
    have h6 : (2 : ℚ) ^ (e + 53) ≤ 2 ^ (1023 : Int) :=
      zpow_le_zpow_right₀ (by norm_num) (by omega)
    have h7 : (2 : ℚ) ^ (1023 : Int) = 2 ^ 1023 := by norm_num
    rw [h7] at h6
    exact le_trans h2.le h6
  rw [scaleBeat, F64.ofInt_of_nonneg b hb0 hb1]
  simp only [F64.mul]
  rw [F64.round_fin _ hle, round64_eq _ m e h1 h2 h3 h4]
  have h0 : (0 : ℚ) ≤ (m : ℚ) * 2 ^ e := le_trans (Nat.cast_nonneg n) hn1
  have ht : truncate ((m : ℚ) * 2 ^ e) = (n : Int) :=
    truncate_eq _ _ (by exact_mod_cast hn1) (by exact_mod_cast hn2) h0
  have hn' : (n : Int) < 2 ^ 53 := by exact_mod_cast hn
  simp only [F64.toInt64, ht]
  rw [if_pos ⟨by omega, by omega⟩]

/-- A clamped output pulse fraction that is a number lies between 0.1 and 0.5. -/
theorem clampOutBeat_fin (x : F64) (hx : x ≠ F64.nan) :
    ∃ c : ℚ, clampOutBeat x = .fin c ∧ 1 / 10 ≤ c ∧ c ≤ 1 / 2 := by
  cases x with
  | nan => exact absurd rfl hx
  | negInf =>
    refine ⟨_, rfl, ?_, ?_⟩ <;> norm_num
  | posInf =>
    refine ⟨_, rfl, ?_, ?_⟩ <;> norm_num [max_def]
  | fin q =>
    refine ⟨_, rfl, le_trans (by norm_num) (le_max_left _ _), ?_⟩
    exact max_le (by norm_num) (min_le_left _ _)

/-- A clamped input pulse fraction that is a number lies between 0.01 and the
`float64` nearest to 0.2. -/
theorem clampInBeat_fin (x : F64) (hx : x ≠ F64.nan) :
    ∃ c : ℚ, clampInBeat x = .fin c ∧ 1 / 100 ≤ c ∧
      c ≤ 3602879701896397 / 18014398509481984 := by
  cases x with
  | nan => exact absurd rfl hx
  | negInf =>
    refine ⟨_, rfl, ?_, ?_⟩ <;> norm_num
  | posInf =>
    refine ⟨_, rfl, ?_, ?_⟩ <;> norm_num [max_def]
  | fin q =>
    refine ⟨_, rfl, le_trans (by norm_num) (le_max_left _ _), ?_⟩
    exact max_le (by norm_num) (min_le_left _ _)

/-- The beat length at a tempo of at least one beat a minute. -/
theorem beatLen_range (bpm : Int) (h1 : 1 ≤ bpm) :
    0 ≤ Int.tdiv minute bpm ∧ Int.tdiv minute bpm ≤ 60000000000 := by
  rw [Int.tdiv_eq_ediv (by decide) (by omega)]
  constructor
  · exact Int.ediv_nonneg (by decide) (by omega)
  · exact Int.ediv_le_self _ (by decide)

/-- The output pulse at 80 beats a minute for `OutBeat = 0.35`: the product
`750000000 * 0.35` rounds to a number just below 262500000. -/
theorem scaleBeat_80_out : scaleBeat 750000000 (clampOutBeat f64_035) = 262499999 := by
  have hc : clampOutBeat f64_035 = f64_035 := by
    simp only [clampOutBeat, clampFunc, MinOutBeat, MaxOutBeat, f64_035, F64.max, F64.min]
    norm_num [max_def, min_def]
  rw [hc]
  exact scaleBeat_eval 750000000 _ 8808038399999999 (-25) 262499999 (by norm_num)
    (by norm_num) (by norm_num [abs_of_pos]) (by norm_num [abs_of_pos])
    (by rw [abs_lt]; constructor <;> norm_num) (by norm_num) (by norm_num)
    (by norm_num) (by norm_num) (by norm_num)

/-- The input pulse at 80 beats a minute for `InBeat = 0`. -/
theorem scaleBeat_80_in : scaleBeat 750000000 (clampInBeat (.fin 0)) = 7500000 := by
  have hc : clampInBeat (.fin 0) = MinInBeat := by
    simp only [clampInBeat, clampFunc, MinInBeat, MaxInBeat, F64.max, F64.min]
    norm_num [max_def, min_def]
  rw [hc]
  exact scaleBeat_eval 750000000 _ 8053063680000000 (-30) 7500000 (by norm_num)
    (by norm_num) (by norm_num [abs_of_pos]) (by norm_num [abs_of_pos])
    (by rw [abs_lt]; constructor <;> norm_num) (by norm_num) (by norm_num)
    (by norm_num) (by norm_num) (by norm_num)

/-- The output pulse at 80 beats a minute for `OutBeat = 1`. -/
theorem scaleBeat_80_out_max : scaleBeat 750000000 (clampOutBeat (.fin 1)) = 375000000 := by
  have hc : clampOutBeat (.fin 1) = MaxOutBeat := by
    simp only [clampOutBeat, clampFunc, MinOutBeat, MaxOutBeat, F64.max, F64.min]
    norm_num [max_def, min_def]
  rw [hc]
  exact scaleBeat_eval 750000000 _ 6291456000000000 (-24) 375000000 (by norm_num)
    (by norm_num) (by norm_num [abs_of_pos]) (by norm_num [abs_of_pos])
    (by rw [abs_lt]; constructor <;> norm_num) (by norm_num) (by norm_num)
    (by norm_num) (by norm_num) (by norm_num)

/-- The input pulse at 80 beats a minute for `InBeat = 1`. -/
theorem scaleBeat_80_in_max : scaleBeat 750000000 (clampInBeat (.fin 1)) = 150000000 := by
  have hc : clampInBeat (.fin 1) = MaxInBeat := by
    simp only [clampInBeat, clampFunc, MinInBeat, MaxInBeat, F64.max, F64.min]
    norm_num [max_def, min_def]
  rw [hc]
  exact scaleBeat_eval 750000000 _ 5033164800000000 (-25) 150000000 (by norm_num)
    (by norm_num) (by norm_num [abs_of_pos]) (by norm_num [abs_of_pos])
    (by rw [abs_lt]; constructor <;> norm_num) (by norm_num) (by norm_num)
    (by norm_num) (by norm_num) (by norm_num)

/-- The scaled beat lies between two integers that bound the exact product. -/
theorem scaleBeat_range (b : Int) (c : ℚ) (lo hi : Int) (hb0 : 0 ≤ b)
    (hb1 : b ≤ 60000000000) (hlo0 : 0 ≤ lo) (hlo : (lo : ℚ) ≤ (b : ℚ) * c)
    (hhi : (b : ℚ) * c ≤ (hi : ℚ)) (hhi1 : hi ≤ 60000000001) :
    lo ≤ scaleBeat b (.fin c) ∧ scaleBeat b (.fin c) ≤ hi := by
  have hhi0 : 0 ≤ hi := by
    have h1 : ((0 : Int) : ℚ) ≤ (hi : ℚ) := by
      have : ((0 : Int) : ℚ) ≤ (lo : ℚ) := by exact_mod_cast hlo0
      linarith
    exact_mod_cast h1
  obtain ⟨n1, rfl⟩ := Int.eq_ofNat_of_zero_le hlo0
  obtain ⟨n2, rfl⟩ := Int.eq_ofNat_of_zero_le hhi0
  have hn : n2 < 2 ^ 53 := by
    have : (n2 : Int) < 2 ^ 53 := by omega
    exact_mod_cast this
  exact scaleBeat_between b c n1 n2 hb0 (by omega) (by exact_mod_cast hlo)
    (by exact_mod_cast hhi) hn

/-- The quotient of an integer that is not negative, as a rational number. -/
theorem ediv_cast_bounds (b d : Int) (hd : 0 < d) :
    ((b / d : Int) : ℚ) * (d : ℚ) ≤ (b : ℚ) ∧
      (b : ℚ) < (((b / d : Int) : ℚ) + 1) * (d : ℚ) := by
  have h1 : b / d * d ≤ b := Int.ediv_mul_le b (by omega)
  have h2 : b < (b / d + 1) * d := Int.lt_ediv_add_one_mul_self b hd
  constructor
  · exact_mod_cast h1
  · exact_mod_cast h2

/-- C6, as amended: for `min ≤ max` and every `x` that is a number, the clamped
value lies between the bounds, is `x` itself when `x` is within them, `max`
when `x` is above and `min` when `x` is below, and clamping twice is clamping
once; `clampFunc 0.1 0.5` sends `1.0` to `0.5` and `0.0` to `0.1`.  For every
configuration with a tempo other than zero and at least one pattern,
`newBeatManager` returns a beat manager whose beat lasts `60s / BPM`, whose
output pulse is that beat scaled by `OutBeat` clamped to `[0.1, 0.5]` and whose
input pulse is that beat scaled by `InBeat` clamped to `[0.01, 0.2]`, the
product rounded and its fraction dropped.  For a tempo of at least 1 and
fractions that are numbers, whatever their values, the output pulse is at
least a tenth of the beat (in whole nanoseconds) and at most half of it
(rounded up), and the input pulse is at least a hundredth of the beat and at
most a fifth of it plus a nanosecond.  At 80 beats a minute the pulses are
262499999 ns and 7500000 ns for `OutBeat = 0.35` and `InBeat = 0`, and
375000000 ns and 150000000 ns when both fractions are 1. -/
theorem C6_clamp (min max x : F64) (h : F64.le min max) (hx : x ≠ F64.nan) :
    (F64.le min (clampFunc min max x) ∧ F64.le (clampFunc min max x) max) ∧
    (F64.le min x → F64.le x max → clampFunc min max x = x) ∧
    (F64.lt max x → clampFunc min max x = max) ∧
    (F64.lt x min → clampFunc min max x = min) ∧
    clampFunc min max (clampFunc min max x) = clampFunc min max x ∧
    clampFunc MinOutBeat MaxOutBeat (.fin 1) = MaxOutBeat ∧
    clampFunc MinOutBeat MaxOutBeat (.fin 0) = MinOutBeat ∧
    (∀ (config : ExerciseConfig) (inputs : List Input), config.BPM ≠ 0 →
      config.TracksRhythm ≠ [] →
      ∃ bm, newBeatManager config inputs = .ok bm ∧
        bm.beatLen = Int.tdiv 60000000000 config.BPM ∧
        bm.outIndicatorDuration =
          ((F64.ofInt (Int.tdiv 60000000000 config.BPM)).mul
            (clampFunc MinOutBeat MaxOutBeat config.OutBeat)).toInt64 ∧
        bm.inIndicatorDuration =
          ((F64.ofInt (Int.tdiv 60000000000 config.BPM)).mul
            (clampFunc MinInBeat MaxInBeat config.InBeat)).toInt64) ∧
    (∀ (config : ExerciseConfig) (inputs : List Input), 1 ≤ config.BPM →
      config.TracksRhythm ≠ [] → config.OutBeat ≠ F64.nan → config.InBeat ≠ F64.nan →
      ∃ bm, newBeatManager config inputs = .ok bm ∧
        bm.beatLen = Int.tdiv 60000000000 config.BPM ∧
        Int.tdiv 60000000000 config.BPM / 10 ≤ bm.outIndicatorDuration ∧
        bm.outIndicatorDuration ≤ (Int.tdiv 60000000000 config.BPM + 1) / 2 ∧
        Int.tdiv 60000000000 config.BPM / 100 ≤ bm.inIndicatorDuration ∧
        bm.inIndicatorDuration ≤ Int.tdiv 60000000000 config.BPM / 5 + 1) ∧
    (∃ bm, newBeatManager (configAt80 f64_035 (.fin 0)) [] = .ok bm ∧
      bm.beatLen = 750000000 ∧ bm.outIndicatorDuration = 262499999 ∧
      bm.inIndicatorDuration = 7500000) ∧
    (∃ bm, newBeatManager (configAt80 (.fin 1) (.fin 1)) [] = .ok bm ∧
      bm.beatLen = 750000000 ∧ bm.outIndicatorDuration = 375000000 ∧
      bm.inIndicatorDuration = 150000000) := by
  refine ⟨⟨?_, ?_⟩, ?_, ?_, ?_, ?_, ?_, ?_, ?_, ?_, ?_, ?_⟩
  · cases min <;> cases max <;> cases x <;>
      simp_all [F64.le, F64.lt, F64.max, F64.min, clampFunc]
  · cases min <;> cases max <;> cases x <;>
      simp_all [F64.le, F64.lt, F64.max, F64.min, clampFunc]
  · cases min <;> cases max <;> cases x <;>
      simp_all [F64.le, F64.lt, F64.max, F64.min, clampFunc]
  · cases min <;> cases max <;> cases x <;>
      simp_all [F64.le, F64.lt, F64.max, F64.min, clampFunc] <;>
      first
        | exact le_of_lt
        | (intro hlt; simp [min_eq_left hlt.le, h])
  · cases min <;> cases max <;> cases x <;>
      simp_all [F64.le, F64.lt, F64.max, F64.min, clampFunc] <;>
      first
        | exact le_of_lt
        | (intro hlt; exact Or.inr hlt.le)
  · cases min <;> cases max <;> cases x <;>
      simp_all [F64.le, F64.lt, F64.max, F64.min, clampFunc]
  · simp only [clampFunc, MinOutBeat, MaxOutBeat, F64.max, F64.min]
    norm_num [max_def, min_def]
  · simp only [clampFunc, MinOutBeat, MaxOutBeat, F64.max, F64.min]
    norm_num [max_def, min_def]
  · intro config inputs hbpm htr
    cases htracks : config.TracksRhythm with
    | nil => exact absurd htracks htr
    | cons t0 rest =>
      simp only [newBeatManager, hbpm, if_false, htracks]
      exact ⟨_, rfl, rfl, rfl, rfl⟩
  · intro config inputs hbpm htr hout hin
    have hne : ¬ config.BPM = 0 := by omega
    obtain ⟨hb0, hb1⟩ := beatLen_range config.BPM hbpm
    have hm : Int.tdiv 60000000000 config.BPM = Int.tdiv minute config.BPM := rfl
    obtain ⟨co, hco, hco1, hco2⟩ := clampOutBeat_fin config.OutBeat hout
    obtain ⟨ci, hci, hci1, hci2⟩ := clampInBeat_fin config.InBeat hin
    cases htracks : config.TracksRhythm with
    | nil => exact absurd htracks htr
    | cons t0 rest =>
      simp only [newBeatManager, hne, if_false, htracks, hm, hco, hci]
      revert hb0 hb1
      generalize Int.tdiv minute config.BPM = b
      intro hb0 hb1
      have hbq0 : (0 : ℚ) ≤ (b : ℚ) := by exact_mod_cast hb0
      have hbq1 : (b : ℚ) ≤ 60000000000 := by exact_mod_cast hb1
      have e10 := ediv_cast_bounds b 10 (by norm_num)
      have e2 := ediv_cast_bounds (b + 1) 2 (by norm_num)
      have e100 := ediv_cast_bounds b 100 (by norm_num)
      have e5 := ediv_cast_bounds b 5 (by norm_num)
      push_cast at e10 e2 e100 e5
      have hout := scaleBeat_range b co (b / 10) ((b + 1) / 2) hb0 hb1 (by omega)
        (by nlinarith) (by
          have h5 : (((b + 1) / 2 : Int) : ℚ) * 2 ≥ (b : ℚ) := by
            have h6 : (b + 1) / 2 * 2 ≥ b := by omega
            exact_mod_cast h6
          nlinarith) (by omega)
      have hin := scaleBeat_range b ci (b / 100) (b / 5 + 1) hb0 hb1 (by omega)
        (by nlinarith) (by
          have h5 : (b : ℚ) ≤ 5 * ((b / 5 : Int) : ℚ) + 4 := by
            have h6 : b ≤ 5 * (b / 5) + 4 := by omega
            exact_mod_cast h6
          have h7 : (b : ℚ) * ci ≤ (b : ℚ) * (3602879701896397 / 18014398509481984) :=
            mul_le_mul_of_nonneg_left hci2 hbq0
          push_cast
          linarith) (by omega)
      exact ⟨_, rfl, rfl, hout.1, hout.2, hin.1, hin.2⟩
  · have hb : Int.tdiv minute 80 = 750000000 := by decide
    simp only [newBeatManager, configAt80, hb]
    exact ⟨_, rfl, rfl, scaleBeat_80_out, scaleBeat_80_in⟩
  · have hb : Int.tdiv minute 80 = 750000000 := by decide
    simp only [newBeatManager, configAt80, hb]
    exact ⟨_, rfl, rfl, scaleBeat_80_out_max, scaleBeat_80_in_max⟩

/-- C6 at the bounds of the output pulse and an input above them. -/
theorem C6_clamp_witness :
    F64.le MinOutBeat MaxOutBeat ∧ F64.lt MaxOutBeat (.fin 7) ∧
      clampFunc MinOutBeat MaxOutBeat (.fin 7) = MaxOutBeat :=
  ⟨by norm_num [F64.le, MinOutBeat, MaxOutBeat],
   by norm_num [F64.lt, MaxOutBeat],
   (C6_clamp MinOutBeat MaxOutBeat (.fin 7) (by norm_num [F64.le, MinOutBeat, MaxOutBeat])
      (by simp)).2.2.1 (by norm_num [F64.lt, MaxOutBeat])⟩

/-- C6 as stated fails for an input that is not a number: with the bounds of
the output pulse, `0.1 ≤ 0.5`, the clamped value is not a number either, and
lies neither above the lower bound nor below the upper one. -/
theorem C6_clamp_not_a_number :
    F64.le MinOutBeat MaxOutBeat ∧
    clampFunc MinOutBeat MaxOutBeat .nan = .nan ∧
    ¬ F64.le MinOutBeat (clampFunc MinOutBeat MaxOutBeat .nan) ∧
    ¬ F64.le (clampFunc MinOutBeat MaxOutBeat .nan) MaxOutBeat := by
  refine ⟨by norm_num [F64.le, MinOutBeat, MaxOutBeat], rfl, ?_, ?_⟩
  · simp [clampFunc, MinOutBeat, MaxOutBeat, F64.max, F64.min, F64.le]
  · simp [clampFunc, MinOutBeat, MaxOutBeat, F64.max, F64.min, F64.le]

/-! ## Note advancement -/

theorem advanceAll_append (bm : beatManager) (xs ys : List Int) :
    advanceAll bm (xs ++ ys) =
      match advanceAll bm xs with
      | .error f => .error f
      | .ok bm1 => advanceAll bm1 ys := by
  induction xs generalizing bm with
  | nil => simp [advanceAll]
  | cons x xs ih =>
    simp only [List.cons_append, advanceAll]
    cases bm.advance x with
    | error f => rfl
    | ok bm1 => exact ih bm1

theorem nextNoteAll_append (bm : beatManager) (xs ys : List Int) :
    nextNoteAll bm (xs ++ ys) =
      match nextNoteAll bm xs with
      | .error f => .error f
      | .ok bm1 => nextNoteAll bm1 ys := by
  induction xs generalizing bm with
  | nil => simp [nextNoteAll]
  | cons x xs ih =>
    simp only [List.cons_append, nextNoteAll]
    cases bm.nextNote x with
    | error f => rfl
    | ok r => exact ih r.1

/-- The note after one more call, in terms of the number of calls made. -/
theorem note_step (L k : Nat) (hL : 1 ≤ L) (hk : 1 ≤ k) :
    ((k - 1) % L + 1) % L + 1 = k % L + 1 := by
  have e : k = (k - 1) + 1 := by omega
  by_cases h1 : L = 1
  · subst h1
    simp [Nat.mod_one]
  · have hlt : 1 < L := by omega
    conv_rhs => rw [e, Nat.add_mod, Nat.mod_eq_of_lt hlt]

/-- The measure after one more call, in terms of the number of calls made. -/
theorem measure_step (L k : Nat) (hk : 1 ≤ k) :
    (if k % L + 1 = 1 then (k - 1) / L + 1 + 1 else (k - 1) / L + 1) = k / L + 1 := by
  have e : k = (k - 1) + 1 := by omega
  have hd : k / L = (k - 1) / L + if L ∣ k then 1 else 0 := by
    conv_lhs => rw [e]
    rw [Nat.succ_div]
    rw [← e]
  by_cases h0 : k % L = 0
  · have : L ∣ k := Nat.dvd_of_mod_eq_zero h0
    simp [h0, hd, this]
  · have : ¬ L ∣ k := fun hdiv => h0 (Nat.mod_eq_zero_of_dvd hdiv)
    simp [h0, hd, this]

/-- The state after `k ≥ 1` runs of the critical section from the initial state. -/
theorem advanceAll_state (bm : beatManager) (L : Nat) (hL : 1 ≤ L)
    (hlen : bm.measureLen = L) (hnote : bm.note = 0) (hmeasure : bm.measure = 0)
    (nows : List Int) (hk : 1 ≤ nows.length) :
    ∃ s, advanceAll bm nows = .ok s ∧
      s.note = (nows.length - 1) % L + 1 ∧ s.measure = (nows.length - 1) / L + 1 ∧
      s.measureLen = L ∧ s.measuresNo = bm.measuresNo ∧ s.done = bm.done ∧
      s.userInputs = bm.userInputs := by
  induction nows using List.reverseRecOn with
  | nil => simp at hk
  | append_singleton xs x ih =>
    rw [advanceAll_append]
    by_cases hxs : xs = []
    · subst hxs
      have hL0 : L ≠ 0 := by omega
      simp [advanceAll, beatManager.advance, hL0, hnote, hmeasure, hlen]
    · have hpos : 1 ≤ xs.length := by
        cases xs with
        | nil => exact absurd rfl hxs
        | cons a as => simp
      obtain ⟨s, hs, hn, hm, hl, hM, hd, hu⟩ := ih hpos
      rw [hs]
      have hL0 : s.measureLen ≠ 0 := by omega
      simp only [advanceAll, beatManager.advance, hL0, if_false, List.length_append,
        List.length_singleton, Nat.add_sub_cancel]
      refine ⟨_, rfl, ?_, ?_, hl, hM, hd, hu⟩
      · simp only [hn, hl]
        exact note_step L xs.length hL hpos
      · simp only [hn, hm, hl]
        rw [note_step L xs.length hL hpos]
        exact measure_step L xs.length hpos

/-- A call of `nextNote` on a scheduler that is not done and has a measure
length other than zero returns; the channel is closed exactly when the new
measure exceeds `measuresNo`. -/
theorem nextNote_ok (bm : beatManager) (now : Int) (hL : bm.measureLen ≠ 0)
    (hdone : bm.done = false) :
    bm.nextNote now = .ok
      ({ bm with
          note := bm.note % bm.measureLen + 1
          measure := if bm.note % bm.measureLen + 1 = 1 then bm.measure + 1 else bm.measure
          currentNoteStarted := now
          done := decide (bm.measuresNo <
            ((if bm.note % bm.measureLen + 1 = 1 then bm.measure + 1 else bm.measure : Nat) : Int)) },
        bm.note % bm.measureLen + 1) := by
  simp only [beatManager.nextNote, beatManager.advance, hL, if_false, hdone, gt_iff_lt]
  split_ifs <;> simp_all

theorem done_iff_count (L M k : Nat) (hL : 1 ≤ L) (hk : k ≤ L * M) :
    (M : Int) < ((k / L + 1 : Nat) : Int) ↔ k = L * M := by
  rw [Int.ofNat_lt]
  constructor
  · intro h
    have h1 : M ≤ k / L := by omega
    have h2 := (Nat.le_div_iff_mul_le (by omega : 0 < L)).1 h1
    have h3 : L * M = M * L := Nat.mul_comm _ _
    omega
  · intro h
    have h1 : M ≤ k / L := by
      rw [Nat.le_div_iff_mul_le (by omega : 0 < L), h, Nat.mul_comm]
    omega

/-- The state after `k` calls of `nextNote` from the initial state, for
`1 ≤ k ≤ L * M + 1`: every call returns, and the channel is closed by call
`L * M + 1` only. -/
theorem nextNoteAll_state (bm : beatManager) (L M : Nat) (hL : 1 ≤ L)
    (hlen : bm.measureLen = L) (hM : bm.measuresNo = (M : Int))
    (hnote : bm.note = 0) (hmeasure : bm.measure = 0) (hdone : bm.done = false)
    (nows : List Int) (hk : 1 ≤ nows.length) (hk2 : nows.length ≤ L * M + 1) :
    ∃ s, nextNoteAll bm nows = .ok s ∧
      s.note = (nows.length - 1) % L + 1 ∧ s.measure = (nows.length - 1) / L + 1 ∧
      s.measureLen = L ∧ s.measuresNo = (M : Int) ∧
      s.done = decide (nows.length = L * M + 1) := by
  induction nows using List.reverseRecOn with
  | nil => simp at hk
  | append_singleton xs x ih =>
    rw [nextNoteAll_append]
    have hxlen : xs.length ≤ L * M := by
      simp only [List.length_append, List.length_singleton] at hk2
      omega
    have key : ∀ s0 : beatManager, s0.measureLen = L → s0.measuresNo = (M : Int) →
        s0.done = false →
        (s0.note % L + 1 = xs.length % L + 1) →
        ((if s0.note % L + 1 = 1 then s0.measure + 1 else s0.measure) = xs.length / L + 1) →
        ∃ s, nextNoteAll s0 [x] = .ok s ∧
          s.note = xs.length % L + 1 ∧ s.measure = xs.length / L + 1 ∧
          s.measureLen = L ∧ s.measuresNo = (M : Int) ∧
          s.done = decide (xs.length + 1 = L * M + 1) := by
      intro s0 h1 h2 h3 h4 h5
      have hL0 : s0.measureLen ≠ 0 := by omega
      have hstep := nextNote_ok s0 x hL0 h3
      rw [h1, h5, h4, h2] at hstep
      simp only [nextNoteAll, hstep]
      refine ⟨_, rfl, rfl, rfl, rfl, rfl, ?_⟩
      have hiff := done_iff_count L M xs.length hL hxlen
      show decide _ = decide _
      rw [decide_eq_decide, hiff]
      omega
    simp only [List.length_append, List.length_singleton, Nat.add_sub_cancel]
    by_cases hxs : xs = []
    · subst hxs
      simp only [nextNoteAll]
      exact key bm hlen hM hdone (by simp [hnote]) (by simp [hnote, hmeasure])
    · have hpos : 1 ≤ xs.length := by
        cases xs with
        | nil => exact absurd rfl hxs
        | cons a as => simp
      obtain ⟨s, hs, hn, hm, hl, hMs, hd⟩ := ih hpos (by omega)
      rw [hs]
      have hd0 : s.done = false := by
        rw [hd]
        simp
        omega
      refine key s hl hMs hd0 ?_ ?_
      · rw [hn]
        exact note_step L xs.length hL hpos
      · rw [hn, hm, note_step L xs.length hL hpos]
        exact measure_step L xs.length hpos

/-- A call of `nextNote` on a scheduler whose channel is closed and whose
measure already exceeds `measuresNo` closes the closed channel. -/
theorem nextNote_after_done (bm : beatManager) (now : Int) (hL : bm.measureLen ≠ 0)
    (hdone : bm.done = true) (hm : bm.measuresNo < (bm.measure : Int)) :
    bm.nextNote now = .error .closeOfClosedChannel := by
  simp only [beatManager.nextNote, beatManager.advance, hL, if_false, hdone, gt_iff_lt,
    if_true]
  have h : bm.measuresNo <
      ((if bm.note % bm.measureLen + 1 = 1 then bm.measure + 1 else bm.measure : Nat) :
        Int) := by
    split
    · push_cast
      omega
    · exact hm
  rw [if_pos h]

/-- C8: from the initial scheduler state (note 0, measure 0, channel open) with
measure length `L ≥ 1` and `M ≥ 0` measures, after `k ≥ 1` runs of the critical
section of `nextNote` the note is `(k-1) mod L + 1`, which lies in `[1, L]`,
and the measure is `(k-1) div L + 1`; each run raises the measure by one
exactly when the note wraps to 1; and for `k ≤ L*M + 1` all `k` calls of
`nextNote` return, leave that state, and have closed the channel if and only
if `k = L*M + 1`, which is also the first call after which the measure
exceeds `M`.  A call made after that one closes the closed channel. -/
theorem C8_nextNote (bm : beatManager) (L M : Nat) (nows : List Int)
    (hL : 1 ≤ L) (hlen : bm.measureLen = L) (hM : bm.measuresNo = (M : Int))
    (hnote : bm.note = 0) (hmeasure : bm.measure = 0) (hdone : bm.done = false)
    (hk : 1 ≤ nows.length) :
    (∃ s, advanceAll bm nows = .ok s ∧
      s.note = (nows.length - 1) % L + 1 ∧ s.measure = (nows.length - 1) / L + 1 ∧
      1 ≤ s.note ∧ s.note ≤ L ∧
      ∀ now, ∃ s1, s.advance now = .ok s1 ∧
        s1.measure = (if s1.note = 1 then s.measure + 1 else s.measure)) ∧
    (nows.length ≤ L * M + 1 →
      ∃ s, nextNoteAll bm nows = .ok s ∧
        s.note = (nows.length - 1) % L + 1 ∧ s.measure = (nows.length - 1) / L + 1 ∧
        (s.done = true ↔ nows.length = L * M + 1) ∧
        (s.done = true ↔ (M : Int) < (s.measure : Int))) ∧
    (L * M + 1 < nows.length → nextNoteAll bm nows = .error .closeOfClosedChannel) := by
  refine ⟨?_, ?_, ?_⟩
  · obtain ⟨s, hs, hn, hm, hl, -, -, -⟩ :=
      advanceAll_state bm L hL hlen hnote hmeasure nows hk
    refine ⟨s, hs, hn, hm, by omega, ?_, ?_⟩
    · rw [hn]
      have := Nat.mod_lt (nows.length - 1) (by omega : 0 < L)
      omega
    · intro now
      have hL0 : s.measureLen ≠ 0 := by omega
      simp only [beatManager.advance, hL0, if_false]
      exact ⟨_, rfl, rfl⟩
  · intro hk2
    obtain ⟨s, hs, hn, hm, -, -, hd⟩ :=
      nextNoteAll_state bm L M hL hlen hM hnote hmeasure hdone nows hk hk2
    refine ⟨s, hs, hn, hm, by simp [hd], ?_⟩
    rw [hd, hm, decide_eq_true_iff]
    have h := done_iff_count L M (nows.length - 1) hL (by omega)
    rw [h]
    omega
  · intro hk3
    have hsplit : nows = nows.take (L * M + 1) ++ nows.drop (L * M + 1) :=
      (List.take_append_drop _ _).symm
    have htake : (nows.take (L * M + 1)).length = L * M + 1 := by
      rw [List.length_take]
      omega
    obtain ⟨s, hs, -, hm, hl, hMs, hd⟩ :=
      nextNoteAll_state bm L M hL hlen hM hnote hmeasure hdone (nows.take (L * M + 1))
        (by omega) (by omega)
    rw [hsplit, nextNoteAll_append, hs]
    cases hdrop : nows.drop (L * M + 1) with
    | nil =>
      have := congrArg List.length hdrop
      rw [List.length_drop] at this
      simp only [List.length_nil] at this
      omega
    | cons y ys =>
      have hdone1 : s.done = true := by
        rw [hd, htake]
        simp
      have hgt : s.measuresNo < (s.measure : Int) := by
        rw [hMs, hm, htake]
        have e : (L * M + 1 - 1) / L = M := by
          rw [Nat.add_sub_cancel, Nat.mul_div_cancel_left M (by omega : 0 < L)]
        rw [e]
        push_cast
        omega
      simp only [nextNoteAll, nextNote_after_done s y (by omega) hdone1 hgt]

/-- C8 for measures of four notes and three measures: the thirteenth call
is the first to close the channel. -/
theorem C8_nextNote_witness :
    (∃ s, nextNoteAll scheduler43 (List.replicate 13 0) = .ok s ∧
      s.note = (13 - 1) % 4 + 1 ∧ s.measure = (13 - 1) / 4 + 1 ∧
      (s.done = true ↔ 13 = 4 * 3 + 1) ∧
      (s.done = true ↔ ((3 : Nat) : Int) < (s.measure : Int))) :=
  (C8_nextNote scheduler43 4 3 (List.replicate 13 0) (by decide) rfl rfl rfl rfl rfl
    (by decide)).2.1 (by decide)

/-! ## The score as one sum over the grid -/

theorem foldl_sub_sum {α : Type} (f : ℚ) (g : α → ℚ) (l : List α) (s : ℚ) :
    l.foldl (fun acc x => acc - f * g x) s = s - f * (l.map g).sum := by
  induction l generalizing s with
  | nil => simp
  | cons a l ih =>
    simp only [List.foldl_cons, List.map_cons, List.sum_cons, ih]
    ring

theorem sum_map_flatMap {α β : Type} (g : β → ℚ) (h : α → List β) (l : List α) :
    ((l.flatMap h).map g).sum = (l.map fun a => ((h a).map g).sum).sum := by
  induction l with
  | nil => simp
  | cons a l ih => simp [List.flatMap_cons, List.sum_append, ih]

theorem scoreCell_eq (faultCoef : ℚ) (beatsSet : BeatsSet) (measure trackIndex : Int)
    (score : ℚ) (cell : Nat × Bool) :
    scoreCell faultCoef beatsSet measure trackIndex score cell =
      score - faultCoef *
        cellFault beatsSet (⟨trackIndex, measure, (cell.1 : Int) + 1⟩, cell.2) := by
  unfold scoreCell cellFault
  rcases cell with ⟨i, b⟩
  cases b <;> cases h : beatsSet ⟨trackIndex, measure, (i : Int) + 1⟩ <;> simp [h]

theorem scoreTrack_eq (faultCoef : ℚ) (beatsSet : BeatsSet) (measure : Int)
    (score : ℚ) (t : Nat × Measure) :
    scoreTrack faultCoef beatsSet measure score t =
      score - faultCoef *
        ((t.2.enum.map fun c =>
          ((⟨(t.1 : Int), measure, (c.1 : Int) + 1⟩ : beatRef), c.2)).map
            (cellFault beatsSet)).sum := by
  unfold scoreTrack
  have h : scoreCell faultCoef beatsSet measure t.1 =
      fun acc c => acc - faultCoef *
        cellFault beatsSet (⟨(t.1 : Int), measure, (c.1 : Int) + 1⟩, c.2) := by
    funext acc c
    exact scoreCell_eq faultCoef beatsSet measure t.1 acc c
  rw [h, foldl_sub_sum faultCoef
    (fun c : Nat × Bool => cellFault beatsSet (⟨(t.1 : Int), measure, (c.1 : Int) + 1⟩, c.2))]
  simp [List.map_map, Function.comp_def]

theorem scoreMeasure_eq (faultCoef : ℚ) (beatsSet : BeatsSet) (trackRhythm : List Measure)
    (score : ℚ) (measure : Nat) :
    scoreMeasure faultCoef beatsSet trackRhythm score measure =
      score - faultCoef *
        ((trackRhythm.enum.flatMap fun t =>
          t.2.enum.map fun c =>
            ((⟨(t.1 : Int), (measure : Int), (c.1 : Int) + 1⟩ : beatRef), c.2)).map
              (cellFault beatsSet)).sum := by
  unfold scoreMeasure
  have h : scoreTrack faultCoef beatsSet (measure : Int) =
      fun acc t => acc - faultCoef *
        ((t.2.enum.map fun c =>
          ((⟨(t.1 : Int), (measure : Int), (c.1 : Int) + 1⟩ : beatRef), c.2)).map
            (cellFault beatsSet)).sum := by
    funext acc t
    exact scoreTrack_eq faultCoef beatsSet measure acc t
  rw [h, foldl_sub_sum, sum_map_flatMap]

/-- The score is 1 less the fault coefficient times the faults of all cells. -/
theorem Score_eq (measuresNo : Int) (inputs : List UserBeat) (t0 : Measure)
    (rest : List Measure) :
    ExerciseResult.Score ⟨measuresNo, inputs, t0 :: rest⟩ =
      some (1 - 1 / ((measuresNo * (t0 :: rest).length * t0.length : Int) : ℚ) *
        ((gridCells measuresNo (t0 :: rest)).map (cellFault (collectBeats inputs))).sum) := by
  unfold ExerciseResult.Score gridCells
  simp only []
  have h : scoreMeasure (1 / ((measuresNo * (t0 :: rest).length * t0.length : Int) : ℚ))
      (collectBeats inputs) (t0 :: rest) =
      fun acc (measure : Nat) => acc - 1 / ((measuresNo * (t0 :: rest).length * t0.length : Int) : ℚ) *
        ((((t0 :: rest).enum.flatMap fun t =>
          t.2.enum.map fun c =>
            ((⟨(t.1 : Int), (measure : Int), (c.1 : Int) + 1⟩ : beatRef), c.2)).map
              (cellFault (collectBeats inputs))).sum) := by
    funext acc measure
    exact scoreMeasure_eq _ _ _ acc measure
  rw [h, foldl_sub_sum, sum_map_flatMap]

/-! ## What the map of recorded beats holds -/

theorem recordBeat_same (beatsSet : BeatsSet) (b : UserBeat) :
    recordBeat beatsSet b b.ref = some (max |beatsSet.lookup b.ref| b.Precision) := by
  simp [recordBeat, UserBeat.ref]

theorem recordBeat_other (beatsSet : BeatsSet) (b : UserBeat) (br : beatRef)
    (h : br ≠ b.ref) : recordBeat beatsSet b br = beatsSet br := by
  have h1 : ¬ br = (⟨b.Track, b.Measure, b.Note⟩ : beatRef) := h
  simp [recordBeat, h1]

/-- Every value stored by the first loop of `Score` is at least 0, and at most
any bound `c ≥ 0` on the recorded precisions. -/
theorem foldl_recordBeat_bounds (c : ℚ) (hc : 0 ≤ c) (inputs : List UserBeat)
    (init : BeatsSet) (hinit : ∀ br v, init br = some v → 0 ≤ v ∧ v ≤ c)
    (hp : ∀ b ∈ inputs, b.Precision ≤ c) :
    ∀ br v, inputs.foldl recordBeat init br = some v → 0 ≤ v ∧ v ≤ c := by
  induction inputs generalizing init with
  | nil => simpa using hinit
  | cons b rest ih =>
    simp only [List.foldl_cons]
    apply ih
    · intro br v hv
      by_cases hbr : br = b.ref
      · subst hbr
        rw [recordBeat_same] at hv
        have hv1 : max |init.lookup b.ref| b.Precision = v := by simpa using hv
        subst hv1
        have hl : 0 ≤ init.lookup b.ref ∧ init.lookup b.ref ≤ c := by
          unfold BeatsSet.lookup
          cases hi : init b.ref with
          | none => simpa using hc
          | some w => simpa using hinit _ w hi
        constructor
        · exact le_trans (abs_nonneg _) (le_max_left _ _)
        · apply max_le
          · rw [abs_of_nonneg hl.1]
            exact hl.2
          · exact hp b (by simp)
      · rw [recordBeat_other _ _ _ hbr] at hv
        exact hinit br v hv
    · intro b1 hb1
      exact hp b1 (by simp [hb1])

theorem foldl_recordBeat_nonneg (inputs : List UserBeat)
    (init : BeatsSet) (hinit : ∀ br v, init br = some v → 0 ≤ v) :
    ∀ br v, inputs.foldl recordBeat init br = some v → 0 ≤ v := by
  induction inputs generalizing init with
  | nil => simpa using hinit
  | cons b rest ih =>
    simp only [List.foldl_cons]
    apply ih
    intro br v hv
    by_cases hbr : br = b.ref
    · subst hbr
      rw [recordBeat_same] at hv
      have hv1 : max |init.lookup b.ref| b.Precision = v := by simpa using hv
      subst hv1
      exact le_trans (abs_nonneg _) (le_max_left _ _)
    · rw [recordBeat_other _ _ _ hbr] at hv
      exact hinit br v hv

/-- A cell is bound in the map exactly when some recorded beat falls in it. -/
theorem foldl_recordBeat_isSome (inputs : List UserBeat) (init : BeatsSet) (br : beatRef) :
    (inputs.foldl recordBeat init br).isSome = true ↔
      (init br).isSome = true ∨ ∃ b ∈ inputs, b.ref = br := by
  induction inputs generalizing init with
  | nil => simp
  | cons b rest ih =>
    simp only [List.foldl_cons]
    rw [ih]
    by_cases hbr : br = b.ref
    · subst hbr
      simp [recordBeat_same]
    · rw [recordBeat_other _ _ _ hbr]
      have hne : ¬ b.ref = br := fun h => hbr h.symm
      simp [hne]

theorem collectBeats_nonneg (inputs : List UserBeat) (br : beatRef) (v : ℚ)
    (h : collectBeats inputs br = some v) : 0 ≤ v :=
  foldl_recordBeat_nonneg inputs (fun _ => none) (by simp) br v h

theorem collectBeats_bounds (c : ℚ) (hc : 0 ≤ c) (inputs : List UserBeat)
    (hp : ∀ b ∈ inputs, b.Precision ≤ c) (br : beatRef) (v : ℚ)
    (h : collectBeats inputs br = some v) : 0 ≤ v ∧ v ≤ c :=
  foldl_recordBeat_bounds c hc inputs (fun _ => none) (by simp) hp br v h

theorem collectBeats_isSome (inputs : List UserBeat) (br : beatRef) :
    (collectBeats inputs br).isSome = true ↔ ∃ b ∈ inputs, b.ref = br := by
  unfold collectBeats
  rw [foldl_recordBeat_isSome]
  simp

/-! ## The grid -/

theorem length_flatMap_const {α β : Type} (h : α → List β) (n : Nat) (l : List α)
    (hl : ∀ a ∈ l, (h a).length = n) : (l.flatMap h).length = l.length * n := by
  induction l with
  | nil => simp
  | cons a l ih =>
    simp only [List.flatMap_cons, List.length_append, List.length_cons]
    rw [hl a (by simp), ih (fun x hx => hl x (by simp [hx]))]
    ring

/-- The grid has `measuresNo * tracks * L` cells when every track has `L` notes. -/
theorem gridCells_length (measuresNo : Int) (trackRhythm : List Measure) (L : Nat)
    (hL : ∀ t ∈ trackRhythm, t.length = L) :
    (gridCells measuresNo trackRhythm).length =
      measuresNo.toNat * (trackRhythm.length * L) := by
  unfold gridCells
  rw [length_flatMap_const _ (trackRhythm.length * L)]
  · simp
  · intro m _
    rw [length_flatMap_const _ L]
    · simp
    · intro t ht
      rcases t with ⟨i, t⟩
      have hmem : t ∈ trackRhythm :=
        List.getElem?_mem (List.mk_mem_enum_iff_getElem?.1 ht)
      simp only [List.length_map, List.enum_length]
      exact hL t hmem

/-- Membership in the grid, cell by cell. -/
theorem mem_gridCells (measuresNo : Int) (trackRhythm : List Measure)
    (br : beatRef) (e : Bool) :
    (br, e) ∈ gridCells measuresNo trackRhythm ↔
      ∃ (m t n : Nat) (track : Measure), 1 ≤ m ∧ (m : Int) ≤ measuresNo ∧
        trackRhythm[t]? = some track ∧ track[n]? = some e ∧
        br = ⟨(t : Int), (m : Int), (n : Int) + 1⟩ := by
  unfold gridCells
  simp only [List.mem_flatMap, List.mem_map, List.mem_range'_1, Prod.exists,
    List.mk_mem_enum_iff_getElem?, Prod.mk.injEq]
  constructor
  · rintro ⟨m, ⟨hm1, hm2⟩, t, track, ht, n, e1, hn, hbr, he⟩
    subst he
    exact ⟨m, t, n, track, hm1, by omega, ht, hn, hbr.symm⟩
  · rintro ⟨m, t, n, track, hm1, hm2, ht, hn, hbr⟩
    exact ⟨m, ⟨hm1, by omega⟩, t, track, ht, n, e, hn, hbr.symm, rfl⟩

/-- A cell of the grid has one expectation. -/
theorem gridCells_expect_unique (measuresNo : Int) (trackRhythm : List Measure)
    (br : beatRef) (e1 e2 : Bool)
    (h1 : (br, e1) ∈ gridCells measuresNo trackRhythm)
    (h2 : (br, e2) ∈ gridCells measuresNo trackRhythm) : e1 = e2 := by
  rw [mem_gridCells] at h1 h2
  obtain ⟨m, t, n, track, -, -, ht, hn, hbr⟩ := h1
  obtain ⟨m2, t2, n2, track2, -, -, ht2, hn2, hbr2⟩ := h2
  rw [hbr] at hbr2
  simp only [beatRef.mk.injEq, Nat.cast_inj, add_left_inj] at hbr2
  obtain ⟨rfl, -, rfl⟩ := hbr2
  rw [ht] at ht2
  cases ht2
  rw [hn] at hn2
  cases hn2
  rfl

/-! ## Bounds on the score -/

theorem sum_map_le {α : Type} (g : α → ℚ) (c : ℚ) (l : List α)
    (h : ∀ x ∈ l, g x ≤ c) : (l.map g).sum ≤ l.length * c := by
  induction l with
  | nil => simp
  | cons a l ih =>
    simp only [List.map_cons, List.sum_cons, List.length_cons, Nat.cast_add, Nat.cast_one]
    have h1 := h a (by simp)
    have h2 := ih (fun x hx => h x (by simp [hx]))
    linarith

theorem sum_map_nonneg {α : Type} (g : α → ℚ) (l : List α)
    (h : ∀ x ∈ l, 0 ≤ g x) : 0 ≤ (l.map g).sum := by
  induction l with
  | nil => simp
  | cons a l ih =>
    simp only [List.map_cons, List.sum_cons]
    have h1 := h a (by simp)
    have h2 := ih (fun x hx => h x (by simp [hx]))
    linarith

theorem cellFault_nonneg (beatsSet : BeatsSet) (c : beatRef × Bool)
    (h : ∀ v, beatsSet c.1 = some v → 0 ≤ v) : 0 ≤ cellFault beatsSet c := by
  unfold cellFault
  rcases c with ⟨br, e⟩
  cases e <;> cases hb : beatsSet br <;> simp
  exact h _ hb

/-- The number of cells as a rational, for a result with at least one measure. -/
theorem cells_cast (measuresNo : Int) (T L : Nat) (hM : 1 ≤ measuresNo) :
    ((measuresNo.toNat * (T * L) : Nat) : ℚ) = ((measuresNo * T * L : Int) : ℚ) := by
  have h : ((measuresNo.toNat : Nat) : Int) = measuresNo := Int.toNat_of_nonneg (by omega)
  have h2 : ((measuresNo.toNat : Nat) : ℚ) = (measuresNo : ℚ) := by
    conv_rhs => rw [← h]
    rfl
  rw [Nat.cast_mul, Nat.cast_mul, h2]
  push_cast
  ring

/-- C7: for a result with at least one measure, at least one track and
tracks of at least one note, whatever beats were recorded, `Score` returns a
value and that value is at most 1. -/
theorem C7_score_le_one (er : ExerciseResult) (hM : 1 ≤ er.measuresNo)
    (hT : er.trackRhythm ≠ []) (hL : ∀ t ∈ er.trackRhythm, 1 ≤ t.length) :
    ∃ s, er.Score = some s ∧ s ≤ 1 := by
  rcases er with ⟨measuresNo, inputs, trackRhythm⟩
  cases trackRhythm with
  | nil => exact absurd rfl hT
  | cons t0 rest =>
    refine ⟨_, Score_eq measuresNo inputs t0 rest, ?_⟩
    have hM1 : (1 : Int) ≤ measuresNo := hM
    have hf : (0 : ℚ) ≤ 1 / ((measuresNo * (t0 :: rest).length * t0.length : Int) : ℚ) := by
      apply one_div_nonneg.2
      have h1 : (0 : Int) ≤ measuresNo * (t0 :: rest).length * t0.length := by positivity
      exact_mod_cast h1
    have hs : (0 : ℚ) ≤
        ((gridCells measuresNo (t0 :: rest)).map (cellFault (collectBeats inputs))).sum :=
      sum_map_nonneg _ _ (fun c _ =>
        cellFault_nonneg _ c (fun v hv => collectBeats_nonneg inputs c.1 v hv))
    have := mul_nonneg hf hs
    linarith

/-- C7 on a result with early, doubled, unexpected and out-of-grid beats. -/
theorem C7_score_le_one_witness : ∃ s, messyResult.Score = some s ∧ s ≤ 1 :=
  C7_score_le_one messyResult (by decide) (by decide) (by decide)

theorem foldl_flatMap_eq {α β σ : Type} (f : σ → β → σ) (g : α → List β) (l : List α)
    (s : σ) :
    (l.flatMap g).foldl f s = l.foldl (fun acc a => (g a).foldl f acc) s := by
  induction l generalizing s with
  | nil => rfl
  | cons a l ih => simp [List.flatMap_cons, List.foldl_append, ih]

theorem scoreCellF64_eq (faultCoef : F64) (beatsSet : BeatsSet) (measure trackIndex : Int)
    (score : F64) (cell : Nat × Bool) :
    scoreCellF64 faultCoef beatsSet measure trackIndex score cell =
      cellStepF64 faultCoef beatsSet score
        (⟨trackIndex, measure, (cell.1 : Int) + 1⟩, cell.2) := rfl

/-- The rounded score is a fold of the cell step over the grid, from 1. -/
theorem ScoreF64_eq (measuresNo : Int) (inputs : List UserBeat) (t0 : Measure)
    (rest : List Measure) :
    ExerciseResult.ScoreF64 ⟨measuresNo, inputs, t0 :: rest⟩ =
      some ((gridCells measuresNo (t0 :: rest)).foldl
        (cellStepF64
          ((F64.fin 1).div (F64.ofInt (measuresNo * (t0 :: rest).length * t0.length)))
          (collectBeats inputs)) (.fin 1)) := by
  unfold ExerciseResult.ScoreF64 gridCells
  simp only []
  rw [foldl_flatMap_eq]
  congr 1
  congr 1
  funext acc measure
  unfold scoreMeasureF64
  rw [foldl_flatMap_eq]
  congr 1
  funext acc2 t
  unfold scoreTrackF64
  rw [List.foldl_map]
  rfl

/-! ## Rounding in the score of a perfect play -/

/-- In a perfect play whose recorded precisions are at most `q`, every cell
that expects a beat holds a value between 0 and `q`, and no other cell holds
one. -/
theorem perfect_cells (measuresNo : Int) (inputs : List UserBeat)
    (trackRhythm : List Measure) (q : ℚ) (hq : 0 ≤ q)
    (hcover : ∀ c ∈ gridCells measuresNo trackRhythm, c.2 = true →
      ∃ b ∈ inputs, b.ref = c.1)
    (hexact : ∀ b ∈ inputs, (b.ref, true) ∈ gridCells measuresNo trackRhythm)
    (hpq : ∀ b ∈ inputs, b.Precision ≤ q) :
    ∀ c ∈ gridCells measuresNo trackRhythm,
      (c.2 = true → ∃ p, collectBeats inputs c.1 = some p ∧ 0 ≤ p ∧ p ≤ q) ∧
      (c.2 = false → collectBeats inputs c.1 = none) := by
  rintro ⟨br, e⟩ hc
  constructor
  · intro he
    simp only at he
    subst he
    obtain ⟨b, hb, hbr⟩ := hcover (br, true) hc rfl
    have hsome := (collectBeats_isSome inputs br).2 ⟨b, hb, hbr⟩
    obtain ⟨v, hv⟩ := Option.isSome_iff_exists.1 hsome
    have hb2 := collectBeats_bounds q hq inputs hpq br v hv
    exact ⟨v, hv, hb2.1, hb2.2⟩
  · intro he
    simp only at he
    subst he
    cases hv : collectBeats inputs br with
    | none => rfl
    | some v =>
      exfalso
      have hsome : (collectBeats inputs br).isSome = true := by simp [hv]
      obtain ⟨b, hb, hbr⟩ := (collectBeats_isSome inputs br).1 hsome
      have h1 := hexact b hb
      rw [hbr] at h1
      have := gridCells_expect_unique measuresNo trackRhythm br true false h1 hc
      cases this

theorem F64.round_zero : F64.round 0 = .fin 0 := by
  rw [F64.round_fin 0 (by norm_num), round64_zero]

theorem F64.round_one : F64.round 1 = .fin 1 := by
  rw [F64.round_fin 1 (by norm_num), round64_one]

/-- A result of magnitude at most 1 does not overflow. -/
theorem F64.round_unit (x : ℚ) (h : |x| ≤ 1) : F64.round x = .fin (round64 x) :=
  F64.round_fin x (le_trans h (one_le_pow₀ (by norm_num)))

/-- The absolute error of rounding a number between 0 and 1. -/
theorem round64_unit (x : ℚ) (h0 : 0 ≤ x) (h1 : x ≤ 1) :
    x - 2 ^ (-53 : Int) ≤ round64 x := by
  have hu : (0 : ℚ) ≤ 2 ^ (-53 : Int) := by positivity
  rcases eq_or_lt_of_le h0 with hx | hx
  · rw [← hx, round64_zero]
    linarith
  · have hx0 : x ≠ 0 := hx.ne'
    have h := round64_half_ulp x hx0
    have hpos : 0 < |x| := abs_pos.2 hx0
    have hlog : Int.log 2 |x| < 1 :=
      (Int.lt_zpow_iff_log_lt (b := 2) (by norm_num) hpos).1 (by
        rw [abs_of_pos hx]
        norm_num
        linarith)
    have hk : max (Int.log 2 |x| - 52) (-1074) ≤ -52 := max_le (by omega) (by norm_num)
    have h2 : (2 : ℚ) ^ (max (Int.log 2 |x| - 52) (-1074)) ≤ 2 ^ (-52 : Int) :=
      zpow_le_zpow_right₀ (by norm_num) hk
    have h3 : (1 : ℚ) / 2 * 2 ^ (-52 : Int) = 2 ^ (-53 : Int) := by norm_num
    have h4 : |round64 x - x| ≤ 2 ^ (-53 : Int) := by
      rw [← h3]
      exact le_trans h (mul_le_mul_of_nonneg_left h2 (by norm_num))
    rw [abs_le] at h4
    linarith [h4.1]

/-- Rounding a number of normal magnitude raises it by at most the factor
`1 + 2 ^ (-53)`. -/
theorem round64_up (x : ℚ) (h0 : (2 : ℚ) ^ (-1022 : Int) ≤ x) :
    round64 x ≤ x * (1 + 2 ^ (-53 : Int)) := by
  have hx : 0 ≤ x := le_trans (by positivity) h0
  have h := round64_error_normal x (by rw [abs_of_nonneg hx]; exact h0)
  rw [abs_of_nonneg hx, abs_le] at h
  linarith [h.2]

/-- Rounding a number that is not negative raises it by at most the factor
`1 + 2 ^ (-53)` and half of the smallest unit. -/
theorem round64_up_add (x : ℚ) (h0 : 0 ≤ x) :
    round64 x ≤ x * (1 + 2 ^ (-53 : Int)) + 2 ^ (-1075 : Int) := by
  have h := round64_error x
  rw [abs_of_nonneg h0, abs_le] at h
  linarith [h.2]

/-- A fold of the rounded cell step over cells of a perfect play: when every
rounded product is between 0 and `T`, each cell lowers the score by at most
`T + 2 ^ (-53)` and never raises it above 1. -/
theorem foldl_cellStepF64_bound (F T : ℚ) (beatsSet : BeatsSet) (c : ℚ)
    (hT : 0 ≤ T) (hF0 : 0 ≤ F) (hF1 : F ≤ 1) (hc1 : c ≤ 1)
    (hprod : ∀ p, 0 ≤ p → p ≤ c → 0 ≤ round64 (F * p) ∧ round64 (F * p) ≤ T)
    (l : List (beatRef × Bool))
    (hl : ∀ x ∈ l, (x.2 = true → ∃ p, beatsSet x.1 = some p ∧ 0 ≤ p ∧ p ≤ c) ∧
      (x.2 = false → beatsSet x.1 = none))
    (q a : ℚ) (ha0 : 0 ≤ a) (hq1 : 1 - a ≤ q) (hq2 : q ≤ 1)
    (ha : a + l.length * (T + 2 ^ (-53 : Int)) ≤ 1) :
    ∃ q1, l.foldl (cellStepF64 (.fin F) beatsSet) (.fin q) = .fin q1 ∧
      1 - a - l.length * (T + 2 ^ (-53 : Int)) ≤ q1 ∧ q1 ≤ 1 := by
  have hu : (0 : ℚ) < 2 ^ (-53 : Int) := by positivity
  induction l generalizing q a with
  | nil =>
    refine ⟨q, rfl, ?_, hq2⟩
    simp only [List.length_nil, Nat.cast_zero, zero_mul, sub_zero]
    exact hq1
  | cons x rest ih =>
    have hrest : ∀ y ∈ rest, (y.2 = true → ∃ p, beatsSet y.1 = some p ∧ 0 ≤ p ∧ p ≤ c) ∧
        (y.2 = false → beatsSet y.1 = none) := fun y hy => hl y (by simp [hy])
    have hlen : ((x :: rest).length : ℚ) = (rest.length : ℚ) + 1 := by
      simp only [List.length_cons, Nat.cast_add, Nat.cast_one]
    rw [hlen] at ha ⊢
    have hrn : (0 : ℚ) ≤ (rest.length : ℚ) := Nat.cast_nonneg _
    have hD : (0 : ℚ) ≤ (rest.length : ℚ) * (T + 2 ^ (-53 : Int)) :=
      mul_nonneg hrn (by linarith)
    obtain ⟨hx1, hx2⟩ := hl x (by simp)
    simp only [List.foldl_cons]
    rcases x with ⟨br, e⟩
    cases e with
    | false =>
      have hnone : beatsSet br = none := hx2 rfl
      have hstep : cellStepF64 (.fin F) beatsSet (.fin q) (br, false) = .fin q := by
        simp [cellStepF64, hnone]
      rw [hstep]
      obtain ⟨q1, h1, h2, h3⟩ := ih hrest q (a + (T + 2 ^ (-53 : Int))) (by linarith)
        (by linarith) hq2 (by linarith)
      exact ⟨q1, h1, by linarith, h3⟩
    | true =>
      obtain ⟨p, hp, hp0, hpc⟩ := hx1 rfl
      obtain ⟨ht0, htT⟩ := hprod p hp0 hpc
      have hx0 : 0 ≤ q - round64 (F * p) := by linarith
      have hxle : q - round64 (F * p) ≤ 1 := by linarith
      have hFp : |F * p| ≤ 1 := by
        rw [abs_of_nonneg (mul_nonneg hF0 hp0)]
        exact mul_le_one₀ hF1 hp0 (le_trans hpc hc1)
      have hstep : cellStepF64 (.fin F) beatsSet (.fin q) (br, true) =
          .fin (round64 (q - round64 (F * p))) := by
        simp only [cellStepF64, hp, F64.mul, F64.round_unit _ hFp, F64.sub]
        rw [F64.round_unit _ (by rw [abs_of_nonneg hx0]; exact hxle)]
      rw [hstep]
      have hlow := round64_unit _ hx0 hxle
      have hhigh := round64_le_one _ hxle
      obtain ⟨q1, h1, h2, h3⟩ := ih hrest (round64 (q - round64 (F * p)))
        (a + (T + 2 ^ (-53 : Int))) (by linarith) (by linarith) hhigh (by linarith)
      exact ⟨q1, h1, by linarith, h3⟩

/-- A fold of the rounded cell step over cells of a perfect play in which
every stored precision is 0 leaves the score at 1. -/
theorem foldl_cellStepF64_zero (F : ℚ) (beatsSet : BeatsSet)
    (l : List (beatRef × Bool))
    (hl : ∀ x ∈ l, (x.2 = true → ∃ p, beatsSet x.1 = some p ∧ 0 ≤ p ∧ p ≤ 0) ∧
      (x.2 = false → beatsSet x.1 = none)) :
    l.foldl (cellStepF64 (.fin F) beatsSet) (.fin 1) = .fin 1 := by
  induction l with
  | nil => rfl
  | cons x rest ih =>
    obtain ⟨hx1, hx2⟩ := hl x (by simp)
    simp only [List.foldl_cons]
    rcases x with ⟨br, e⟩
    have hstep : cellStepF64 (.fin F) beatsSet (.fin 1) (br, e) = .fin 1 := by
      cases e with
      | false => simp [cellStepF64, hx2 rfl]
      | true =>
        obtain ⟨p, hp, hp0, hpc⟩ := hx1 rfl
        have hp00 : p = 0 := le_antisymm hpc hp0
        subst hp00
        simp [cellStepF64, hp, F64.sub, F64.mul, F64.round_zero, F64.round_one]
    rw [hstep]
    exact ih (fun y hy => hl y (by simp [hy]))

/-- C4, as amended: for a result with at least one measure, at least one track
and tracks of one length `L ≥ 1`, at most `2 ^ 52` cells in all, in which every
cell that expects a beat holds a recorded beat, every recorded beat lies in a
cell that expects one, and every recorded precision is at most 0.01 in
absolute value (at most the `float64` nearest 0.01, which is what a comparison
with the constant `0.01` tests), `Score` as computed in binary64 returns a
finite value that is at most 1 and at least `0.99 - (N + 1) * 2 ^ (-53)`, where
`N` is the number of cells; and that value is exactly 1 when every recorded
precision is 0. -/
theorem C4_perfect_play (er : ExerciseResult) (L : Nat) (hM : 1 ≤ er.measuresNo)
    (hT : er.trackRhythm ≠ []) (hL : 1 ≤ L)
    (hlen : ∀ t ∈ er.trackRhythm, t.length = L)
    (hN : er.measuresNo * er.trackRhythm.length * L ≤ 2 ^ 52)
    (hcover : ∀ c ∈ gridCells er.measuresNo er.trackRhythm, c.2 = true →
      ∃ b ∈ er.inputs, b.ref = c.1)
    (hexact : ∀ b ∈ er.inputs, (b.ref, true) ∈ gridCells er.measuresNo er.trackRhythm)
    (hprec : ∀ b ∈ er.inputs, |b.Precision| ≤ f64_001) :
    ∃ s : ℚ, er.ScoreF64 = some (.fin s) ∧
      99 / 100 - (((er.measuresNo * er.trackRhythm.length * L : Int) : ℚ) + 1) *
        2 ^ (-53 : Int) ≤ s ∧
      s ≤ 1 ∧
      ((∀ b ∈ er.inputs, b.Precision = 0) → s = 1) := by
  rcases er with ⟨measuresNo, inputs, trackRhythm⟩
  cases trackRhythm with
  | nil => exact absurd rfl hT
  | cons t0 rest =>
    simp only at hM hlen hN hcover hexact hprec ⊢
    have h0 : t0.length = L := hlen t0 (by simp)
    -- the number of cells
    have hcells : (((gridCells measuresNo (t0 :: rest)).length : Nat) : ℚ) =
        ((measuresNo * (t0 :: rest).length * L : Int) : ℚ) := by
      rw [gridCells_length measuresNo (t0 :: rest) L hlen, cells_cast measuresNo _ L hM]
    have hNat : ((measuresNo * (t0 :: rest).length * L : Int) : ℚ) =
        ((measuresNo.toNat * ((t0 :: rest).length * L) : Nat) : ℚ) :=
      (cells_cast measuresNo _ L hM).symm
    have hNle : measuresNo.toNat * ((t0 :: rest).length * L) ≤ 2 ^ 52 := by
      have h1 : ((measuresNo.toNat * ((t0 :: rest).length * L) : Nat) : Int) =
          measuresNo * (t0 :: rest).length * L := by
        push_cast
        rw [Int.toNat_of_nonneg (by omega)]
        ring
      have h2 : ((measuresNo.toNat * ((t0 :: rest).length * L) : Nat) : Int) ≤
          ((2 ^ 52 : Nat) : Int) := by
        rw [h1]
        exact_mod_cast hN
      exact_mod_cast h2
    have hNpos : 1 ≤ measuresNo.toNat * ((t0 :: rest).length * L) := by
      have h1 : 1 ≤ measuresNo.toNat := by omega
      have h2 : 1 ≤ (t0 :: rest).length * L :=
        Nat.one_le_iff_ne_zero.2 (Nat.mul_ne_zero (by simp) (by omega))
      exact Nat.one_le_iff_ne_zero.2 (Nat.mul_ne_zero (by omega) (by omega))
    generalize hn : measuresNo.toNat * ((t0 :: rest).length * L) = n at hNat hNle hNpos
    have hnq1 : (1 : ℚ) ≤ (n : ℚ) := by exact_mod_cast hNpos
    have hnq2 : (n : ℚ) ≤ 4503599627370496 := by
      have : ((n : Nat) : ℚ) ≤ ((2 ^ 52 : Nat) : ℚ) := by exact_mod_cast hNle
      simpa using this
    have hu : (2 : ℚ) ^ (-53 : Int) = 1 / 9007199254740992 := by norm_num
    -- the fault coefficient
    have hn53 : n < 2 ^ 53 := lt_of_le_of_lt hNle (by norm_num)
    have hn0 : (n : ℚ) ≠ 0 := by linarith
    have hinv0 : (0 : ℚ) ≤ 1 / (n : ℚ) := by positivity
    have hinv1 : 1 / (n : ℚ) ≤ 1 := by
      rw [div_le_one (by linarith)]
      exact hnq1
    have hcoef : (F64.fin 1).div (F64.ofInt (measuresNo * (t0 :: rest).length * t0.length)) =
        .fin (round64 (1 / (n : ℚ))) := by
      have hbig : |(n : ℚ)| ≤ 2 ^ 1023 := by
        rw [abs_of_nonneg (by linarith)]
        exact le_trans hnq2 (by norm_num)
      rw [h0, F64.ofInt, hNat, F64.round_fin _ hbig, round64_natCast n hn53]
      simp only [F64.div, hn0, if_false]
      exact F64.round_unit _ (by rw [abs_of_nonneg hinv0]; exact hinv1)
    have hF0 : 0 ≤ round64 (1 / (n : ℚ)) := round64_nonneg _ hinv0
    have hFle : round64 (1 / (n : ℚ)) ≤ 1 := round64_le_one _ hinv1
    have hF1 : round64 (1 / (n : ℚ)) ≤ 1 / (n : ℚ) * (1 + 2 ^ (-53 : Int)) := by
      apply round64_up
      have h1 : (2 : ℚ) ^ (-1022 : Int) ≤ 2 ^ (-52 : Int) :=
        zpow_le_zpow_right₀ (by norm_num) (by norm_num)
      have h2 : (2 : ℚ) ^ (-52 : Int) = 1 / 4503599627370496 := by norm_num
      have h3 : (1 : ℚ) / 4503599627370496 ≤ 1 / (n : ℚ) :=
        one_div_le_one_div_of_le (by linarith) hnq2
      linarith
    -- half of the smallest unit
    obtain ⟨d, hd, hd0, hd1⟩ : ∃ d : ℚ, (2 : ℚ) ^ (-1075 : Int) = d ∧ 0 ≤ d ∧
        d ≤ 1 / 1329227995784915872903807060280344576 := by
      refine ⟨_, rfl, by positivity, ?_⟩
      have h1 : (2 : ℚ) ^ (-1075 : Int) ≤ 2 ^ (-120 : Int) :=
        zpow_le_zpow_right₀ (by norm_num) (by norm_num)
      have h2 : (2 : ℚ) ^ (-120 : Int) = 1 / 1329227995784915872903807060280344576 := by
        norm_num
      linarith
    -- the rounded product of one cell
    have hprod : ∀ q : ℚ, 0 ≤ q → ∀ p, 0 ≤ p → p ≤ q →
        0 ≤ round64 (round64 (1 / (n : ℚ)) * p) ∧
        round64 (round64 (1 / (n : ℚ)) * p) ≤
          q / (n : ℚ) * (1 + 2 ^ (-53 : Int)) ^ 2 + d := by
      intro q hq p hp0 hpq
      have hfp : 0 ≤ round64 (1 / (n : ℚ)) * p := mul_nonneg hF0 hp0
      refine ⟨round64_nonneg _ hfp, le_trans (round64_up_add _ hfp) ?_⟩
      have h3 : (0 : ℚ) ≤ 1 + 2 ^ (-53 : Int) := by positivity
      have h4 : round64 (1 / (n : ℚ)) * p ≤
          1 / (n : ℚ) * (1 + 2 ^ (-53 : Int)) * q :=
        mul_le_mul hF1 hpq hp0 (by positivity)
      have h5 := mul_le_mul_of_nonneg_right h4 h3
      have e : 1 / (n : ℚ) * (1 + 2 ^ (-53 : Int)) * q * (1 + 2 ^ (-53 : Int)) =
          q / (n : ℚ) * (1 + 2 ^ (-53 : Int)) ^ 2 := by
        field_simp
        ring
      rw [e] at h5
      rw [hd]
      linarith
    rw [ScoreF64_eq, hcoef]
    have hle : ∀ b ∈ inputs, b.Precision ≤ f64_001 := fun b hb =>
      le_trans (le_abs_self _) (hprec b hb)
    have hc0 : (0 : ℚ) ≤ f64_001 := by norm_num [f64_001]
    have hcellsOk := perfect_cells measuresNo inputs (t0 :: rest) f64_001 hc0
      hcover hexact hle
    have hTnn : (0 : ℚ) ≤ f64_001 / (n : ℚ) * (1 + 2 ^ (-53 : Int)) ^ 2 + d := by positivity
    have hNT : (n : ℚ) * (f64_001 / (n : ℚ) * (1 + 2 ^ (-53 : Int)) ^ 2 + d) =
        f64_001 * (1 + 2 ^ (-53 : Int)) ^ 2 + (n : ℚ) * d := by
      field_simp
      ring
    have hnd0 : 0 ≤ (n : ℚ) * d := mul_nonneg (by linarith) hd0
    have hnd : (n : ℚ) * d ≤
        4503599627370496 * (1 / 1329227995784915872903807060280344576) :=
      mul_le_mul hnq2 hd1 hd0 (by norm_num)
    have hlenq : (((gridCells measuresNo (t0 :: rest)).length : Nat) : ℚ) = (n : ℚ) := by
      rw [hcells, hNat]
    obtain ⟨q1, hq1, hlow, hhigh⟩ := foldl_cellStepF64_bound
      (round64 (1 / (n : ℚ))) (f64_001 / (n : ℚ) * (1 + 2 ^ (-53 : Int)) ^ 2 + d)
      (collectBeats inputs) f64_001 hTnn hF0 hFle (by norm_num [f64_001])
      (hprod f64_001 hc0)
      (gridCells measuresNo (t0 :: rest)) hcellsOk 1 0 le_rfl (by norm_num) le_rfl
      (by
        rw [hlenq, mul_add, hNT, hu, f64_001]
        norm_num at hnd ⊢
        linarith)
    refine ⟨q1, by rw [hq1], ?_, hhigh, ?_⟩
    · rw [hlenq, mul_add, hNT, hu, f64_001] at hlow
      rw [hNat, hu]
      norm_num at hlow hnd ⊢
      linarith
    · intro hzero
      have hle0 : ∀ b ∈ inputs, b.Precision ≤ 0 := fun b hb => (hzero b hb).le
      have hcells0 := perfect_cells measuresNo inputs (t0 :: rest) 0 le_rfl
        hcover hexact hle0
      have hfold := foldl_cellStepF64_zero (round64 (1 / (n : ℚ)))
        (collectBeats inputs) (gridCells measuresNo (t0 :: rest)) hcells0
      rw [hfold] at hq1
      exact (F64.fin.inj hq1).symm

set_option maxRecDepth 100000 in
/-- C4 on the test patterns `1000`, `1010`, `0100` over twelve measures, with
a beat of precision 0 in each of the 48 expected cells. -/
theorem C4_perfect_play_witness :
    ∃ s : ℚ, perfectResult.ScoreF64 = some (.fin s) ∧
      99 / 100 - (((perfectResult.measuresNo * perfectResult.trackRhythm.length *
        (4 : Nat) : Int) : ℚ) + 1) * 2 ^ (-53 : Int) ≤ s ∧
      s ≤ 1 ∧
      ((∀ b ∈ perfectResult.inputs, b.Precision = 0) → s = 1) :=
  C4_perfect_play perfectResult 4 (by decide) (by decide) (by decide) (by decide)
    (by decide) (by decide) (by decide)
    (by
      intro b hb
      simp only [perfectResult, perfectInputs, List.mem_map] at hb
      obtain ⟨c, -, rfl⟩ := hb
      norm_num [f64_001])

theorem sixNote_grid :
    gridCells 1 [[true, true, true, true, true, true]] =
      [(⟨0, 1, 1⟩, true), (⟨0, 1, 2⟩, true), (⟨0, 1, 3⟩, true),
       (⟨0, 1, 4⟩, true), (⟨0, 1, 5⟩, true), (⟨0, 1, 6⟩, true)] := by
  decide

theorem sixNote_beats (k : Int) (hk : k = 1 ∨ k = 2 ∨ k = 3 ∨ k = 4 ∨ k = 5 ∨ k = 6) :
    collectBeats sixNoteResult.inputs ⟨0, 1, k⟩ = some justBelow001 := by
  have hp : max |(0 : ℚ)| justBelow001 = justBelow001 := by
    norm_num [justBelow001, max_def]
  rcases hk with h | h | h | h | h | h <;> subst h <;>
    simp [sixNoteResult, collectBeats, recordBeat, BeatsSet.lookup, hp] <;>
    norm_num [justBelow001]

/-- The score of `sixNoteResult` as computed in binary64. -/
theorem sixNote_score :
    sixNoteResult.ScoreF64 = some (.fin (2229281815548395 / 2251799813685248)) := by
  have h1 := sixNote_beats 1 (by simp)
  have h2 := sixNote_beats 2 (by simp)
  have h3 := sixNote_beats 3 (by simp)
  have h4 := sixNote_beats 4 (by simp)
  have h5 := sixNote_beats 5 (by simp)
  have h6 := sixNote_beats 6 (by simp)
  have hcells : F64.ofInt
      (1 * ([[true, true, true, true, true, true]] : List Measure).length *
        ([true, true, true, true, true, true] : Measure).length) = .fin 6 := by
    have e : (1 : Int) *
        (([[true, true, true, true, true, true]] : List Measure).length : Int) *
        (([true, true, true, true, true, true] : Measure).length : Int) = 6 := by decide
    rw [e, F64.ofInt_of_nonneg 6 (by norm_num) (by norm_num)]
    norm_num
  have rF : (F64.fin 1).div (.fin 6) = .fin (6004799503160661 / 36028797018963968) := by
    have e : F64.round (1 / 6) = .fin (6004799503160661 / 36028797018963968) := by
      rw [F64.round_eq (1 / 6) 6004799503160661 (-55) (by norm_num [abs_of_pos])
        (by norm_num [abs_of_pos]) (by rw [abs_lt]; constructor <;> norm_num)
        (by norm_num) (by norm_num)]
      norm_num
    simp only [F64.div]
    norm_num
    exact e
  have rT : (F64.fin (6004799503160661 / 36028797018963968)).mul (.fin justBelow001) =
      .fin (7686143364045645 / 4611686018427387904) := by
    simp only [F64.mul]
    rw [F64.round_eq _ 7686143364045645 (-62) (by norm_num [abs_of_pos, justBelow001])
      (by norm_num [abs_of_pos, justBelow001])
      (by rw [abs_lt]; constructor <;> norm_num [justBelow001]) (by norm_num) (by norm_num)]
    norm_num
  have s1 : (F64.fin 1).sub
      (.fin (7686143364045645 / 4611686018427387904)) =
      .fin (4496093627991545 / 4503599627370496) := by
    have e : (1 : ℚ) - 7686143364045645 / 4611686018427387904 =
        4603999875063342259 / 4611686018427387904 := by norm_num
    simp only [F64.sub]
    rw [e, F64.round_eq _ 8992187255983090 (-53) (by norm_num [abs_of_pos])
      (by norm_num [abs_of_pos]) (by rw [abs_lt]; constructor <;> norm_num)
      (by norm_num) (by norm_num)]
    norm_num
  have s2 : (F64.fin (4496093627991545 / 4503599627370496)).sub
      (.fin (7686143364045645 / 4611686018427387904)) =
      .fin (2244293814306297 / 2251799813685248) := by
    have e : (4496093627991545 / 4503599627370496 : ℚ) - 7686143364045645 / 4611686018427387904 =
        4596313731699296435 / 4611686018427387904 := by norm_num
    simp only [F64.sub]
    rw [e, F64.round_eq _ 8977175257225188 (-53) (by norm_num [abs_of_pos])
      (by norm_num [abs_of_pos]) (by rw [abs_lt]; constructor <;> norm_num)
      (by norm_num) (by norm_num)]
    norm_num
  have s3 : (F64.fin (2244293814306297 / 2251799813685248)).sub
      (.fin (7686143364045645 / 4611686018427387904)) =
      .fin (4481081629233643 / 4503599627370496) := by
    have e : (2244293814306297 / 2251799813685248 : ℚ) - 7686143364045645 / 4611686018427387904 =
        4588627588335250611 / 4611686018427387904 := by norm_num
    simp only [F64.sub]
    rw [e, F64.round_eq _ 8962163258467286 (-53) (by norm_num [abs_of_pos])
      (by norm_num [abs_of_pos]) (by rw [abs_lt]; constructor <;> norm_num)
      (by norm_num) (by norm_num)]
    norm_num
  have s4 : (F64.fin (4481081629233643 / 4503599627370496)).sub
      (.fin (7686143364045645 / 4611686018427387904)) =
      .fin (1118393907463673 / 1125899906842624) := by
    have e : (4481081629233643 / 4503599627370496 : ℚ) - 7686143364045645 / 4611686018427387904 =
        4580941444971204787 / 4611686018427387904 := by norm_num
    simp only [F64.sub]
    rw [e, F64.round_eq _ 8947151259709384 (-53) (by norm_num [abs_of_pos])
      (by norm_num [abs_of_pos]) (by rw [abs_lt]; constructor <;> norm_num)
      (by norm_num) (by norm_num)]
    norm_num
  have s5 : (F64.fin (1118393907463673 / 1125899906842624)).sub
      (.fin (7686143364045645 / 4611686018427387904)) =
      .fin (4466069630475741 / 4503599627370496) := by
    have e : (1118393907463673 / 1125899906842624 : ℚ) - 7686143364045645 / 4611686018427387904 =
        4573255301607158963 / 4611686018427387904 := by norm_num
    simp only [F64.sub]
    rw [e, F64.round_eq _ 8932139260951482 (-53) (by norm_num [abs_of_pos])
      (by norm_num [abs_of_pos]) (by rw [abs_lt]; constructor <;> norm_num)
      (by norm_num) (by norm_num)]
    norm_num
  have s6 : (F64.fin (4466069630475741 / 4503599627370496)).sub
      (.fin (7686143364045645 / 4611686018427387904)) =
      .fin (2229281815548395 / 2251799813685248) := by
    have e : (4466069630475741 / 4503599627370496 : ℚ) - 7686143364045645 / 4611686018427387904 =
        4565569158243113139 / 4611686018427387904 := by norm_num
    simp only [F64.sub]
    rw [e, F64.round_eq _ 8917127262193580 (-53) (by norm_num [abs_of_pos])
      (by norm_num [abs_of_pos]) (by rw [abs_lt]; constructor <;> norm_num)
      (by norm_num) (by norm_num)]
    norm_num
  have hstep : ∀ (q : ℚ) (k : Int),
      collectBeats sixNoteResult.inputs ⟨0, 1, k⟩ = some justBelow001 →
      cellStepF64 (.fin (6004799503160661 / 36028797018963968))
        (collectBeats sixNoteResult.inputs) (.fin q) (⟨0, 1, k⟩, true) =
      (F64.fin q).sub (.fin (7686143364045645 / 4611686018427387904)) := by
    intro q k hk
    simp only [cellStepF64, hk, rT]
  have hsix : sixNoteResult = ⟨1, sixNoteResult.inputs,
      [[true, true, true, true, true, true]]⟩ := rfl
  rw [hsix, ScoreF64_eq, sixNote_grid, hcells, rF]
  rw [List.foldl_cons, List.foldl_cons, List.foldl_cons, List.foldl_cons, List.foldl_cons,
    List.foldl_cons, List.foldl_nil]
  rw [hstep _ 1 h1, s1, hstep _ 2 h2, s2, hstep _ 3 h3, s3, hstep _ 4 h4, s4,
    hstep _ 5 h5, s5, hstep _ 6 h6, s6]

/-- C4 as stated fails by rounding: one measure of one track of six notes that
all expect a beat, with a beat in every cell whose precision is the largest
`float64` below 0.01.  The result is valid and the play is perfect in the
sense of the claim, and the
score computed in binary64 is 0.9899999999999998, below the `float64` nearest
0.99, which itself is below 0.99. -/
theorem C4_rounding_below_bound :
    1 ≤ sixNoteResult.measuresNo ∧ sixNoteResult.trackRhythm ≠ [] ∧
    (∀ t ∈ sixNoteResult.trackRhythm, t.length = 6) ∧
    (∀ b ∈ sixNoteResult.inputs, |b.Precision| ≤ 1 / 100) ∧
    (∀ c ∈ gridCells sixNoteResult.measuresNo sixNoteResult.trackRhythm, c.2 = true →
      ∃ b ∈ sixNoteResult.inputs, b.ref = c.1) ∧
    (∀ b ∈ sixNoteResult.inputs,
      (b.ref, true) ∈ gridCells sixNoteResult.measuresNo sixNoteResult.trackRhythm) ∧
    sixNoteResult.ScoreF64 = some (.fin (2229281815548395 / 2251799813685248)) ∧
    (2229281815548395 / 2251799813685248 : ℚ) < 4458563631096791 / 4503599627370496 ∧
    (4458563631096791 / 4503599627370496 : ℚ) < 99 / 100 := by
  refine ⟨by decide, by decide, by decide, ?_, by decide, by decide, sixNote_score,
    by norm_num, by norm_num⟩
  · intro b hb
    simp only [sixNoteResult, List.mem_cons, List.mem_singleton, List.not_mem_nil,
      or_false] at hb
    rcases hb with h | h | h | h | h | h <;> subst h <;>
      norm_num [justBelow001, abs_le]

/-! ## Early beats

`Score` stores `math.Max(math.Abs(beatsSet[br]), in.Precision)`: the absolute
value is taken of the value already stored, not of the incoming precision, so
a negative precision never raises the stored value. -/

/-- C2 at one early beat: one expected cell holds one recorded beat of
precision -0.4; the fault coefficient is 1 and the claimed score is
`1 - 0.4 = 0.6`, the score of the late beat of the same size, but `Score`
returns 1. -/
theorem C2_early_beat_scores_as_perfect :
    earlyBeatResult.Score = some 1 ∧ lateBeatResult.Score = some (3 / 5) := by
  constructor
  · simp only [earlyBeatResult, Score_eq]
    simp [gridCells, List.range', List.enum, List.enumFrom, cellFault, collectBeats,
      recordBeat, BeatsSet.lookup]
    norm_num
  · simp only [lateBeatResult, Score_eq]
    simp [gridCells, List.range', List.enum, List.enumFrom, cellFault, collectBeats,
      recordBeat, BeatsSet.lookup]
    norm_num

/-- C3 at a doubled beat: two beats of precisions -0.4 and 0.1 in one expected
cell; the largest absolute precision is 0.4 and the claimed score is 0.6, but
the map holds 0.1 and `Score` returns 0.9.  Two late beats of 0.1 and 0.4 do
give 0.6. -/
theorem C3_early_beat_is_not_the_worst :
    collectBeats doubleBeatResult.inputs ⟨0, 1, 1⟩ = some (1 / 10) ∧
    doubleBeatResult.Score = some (9 / 10) ∧
    doubleLateResult.Score = some (3 / 5) := by
  refine ⟨?_, ?_, ?_⟩
  · simp [doubleBeatResult, collectBeats, recordBeat, BeatsSet.lookup]
    norm_num [max_def, abs_le]
  · simp only [doubleBeatResult, Score_eq]
    simp [gridCells, List.range', List.enum, List.enumFrom, cellFault, collectBeats,
      recordBeat, BeatsSet.lookup]
    norm_num
  · simp only [doubleLateResult, Score_eq]
    simp [gridCells, List.range', List.enum, List.enumFrom, cellFault, collectBeats,
      recordBeat, BeatsSet.lookup]
    norm_num [max_def, abs_of_nonneg]

/-! ## The sampler -/

/-- What the sampler does for one track in one pass: a beat is appended
exactly when the level read is high and the last-seen level is low; the
last-seen level becomes the level read. -/
theorem listenTrack_eq (now : Int) (levels : Input → Bool) (bm : beatManager)
    (wasUp : List Bool) (track : Nat) (input : Input) :
    listenTrack now levels (bm, wasUp) (track, input) =
      (if levels input = true ∧ wasUp.getD track false = false then
          { bm with userInputs := bm.userInputs ++
              [⟨(track : Int), (bm.measure : Int), (bm.note : Int), bm.precision now⟩] }
        else bm,
       if levels input = wasUp.getD track false then wasUp
        else wasUp.set track (levels input)) := by
  unfold listenTrack
  cases hv : levels input <;> cases hw : wasUp.getD track false <;> simp [hv, hw]

/-- The effect of one track's step on the beat count and the last-seen level
of any track `t`. -/
theorem listenTrack_track (now : Int) (levels : Input → Bool)
    (st : beatManager × List Bool) (i : Nat) (input : Input) (t : Nat) :
    (listenTrack now levels st (i, input)).2.length = st.2.length ∧
    (listenTrack now levels st (i, input)).1.done = st.1.done ∧
    (listenTrack now levels st (i, input)).1.inputs = st.1.inputs ∧
    (t ≠ i →
      (listenTrack now levels st (i, input)).2.getD t false = st.2.getD t false ∧
      beatsOnTrack t (listenTrack now levels st (i, input)).1.userInputs =
        beatsOnTrack t st.1.userInputs) ∧
    (t = i → i < st.2.length →
      (listenTrack now levels st (i, input)).2.getD t false = levels input ∧
      beatsOnTrack t (listenTrack now levels st (i, input)).1.userInputs =
        beatsOnTrack t st.1.userInputs +
          (if levels input = true ∧ st.2.getD t false = false then 1 else 0)) := by
  rcases st with ⟨bm, wasUp⟩
  rw [listenTrack_eq]
  dsimp only
  refine ⟨?_, ?_, ?_, ?_, ?_⟩
  · by_cases hv : levels input = wasUp.getD i false
    · rw [if_pos hv]
    · rw [if_neg hv, List.length_set]
  · by_cases he : levels input = true ∧ wasUp.getD i false = false
    · rw [if_pos he]
    · rw [if_neg he]
  · by_cases he : levels input = true ∧ wasUp.getD i false = false
    · rw [if_pos he]
    · rw [if_neg he]
  · intro hne
    have hne2 : ¬ (i : Int) = (t : Int) := by
      intro h
      exact hne (by exact_mod_cast h.symm)
    constructor
    · by_cases hv : levels input = wasUp.getD i false
      · rw [if_pos hv]
      · rw [if_neg hv]
        simp [List.getD_eq_getElem?_getD, List.getElem?_set, Ne.symm hne]
    · by_cases he : levels input = true ∧ wasUp.getD i false = false
      · rw [if_pos he]
        simp [beatsOnTrack, List.countP_append, hne2]
      · rw [if_neg he]
  · intro he hlt
    subst he
    have hlt2 : t < wasUp.length := hlt
    constructor
    · by_cases hv : levels input = wasUp.getD t false
      · rw [if_pos hv]
        exact hv.symm
      · rw [if_neg hv]
        simp [List.getD_eq_getElem?_getD, List.getElem?_set, hlt2]
    · by_cases he : levels input = true ∧ wasUp.getD t false = false
      · rw [if_pos he, if_pos he]
        simp [beatsOnTrack, List.countP_append]
      · rw [if_neg he, if_neg he]
        rfl

/-- The effect of the loop over the inputs (numbered from `k`) on the beat
count and the last-seen level of any track `t`. -/
theorem foldl_listenTrack (now : Int) (levels : Input → Bool) (l : List Input) (k : Nat)
    (st : beatManager × List Bool) (t : Nat) :
    ((l.enumFrom k).foldl (listenTrack now levels) st).2.length = st.2.length ∧
    ((l.enumFrom k).foldl (listenTrack now levels) st).1.done = st.1.done ∧
    ((l.enumFrom k).foldl (listenTrack now levels) st).1.inputs = st.1.inputs ∧
    ((t < k ∨ k + l.length ≤ t) →
      ((l.enumFrom k).foldl (listenTrack now levels) st).2.getD t false = st.2.getD t false ∧
      beatsOnTrack t ((l.enumFrom k).foldl (listenTrack now levels) st).1.userInputs =
        beatsOnTrack t st.1.userInputs) ∧
    (∀ input, k ≤ t → l[t - k]? = some input → t < st.2.length →
      ((l.enumFrom k).foldl (listenTrack now levels) st).2.getD t false = levels input ∧
      beatsOnTrack t ((l.enumFrom k).foldl (listenTrack now levels) st).1.userInputs =
        beatsOnTrack t st.1.userInputs +
          (if levels input = true ∧ st.2.getD t false = false then 1 else 0)) := by
  induction l generalizing k st with
  | nil => simp
  | cons x xs ih =>
    simp only [List.enumFrom_cons, List.foldl_cons]
    obtain ⟨hlen1, hdone1, hin1, hother1, hsame1⟩ := listenTrack_track now levels st k x t
    obtain ⟨hlen, hdone, hin, hout, hins⟩ := ih (k + 1) (listenTrack now levels st (k, x))
    refine ⟨hlen.trans hlen1, hdone.trans hdone1, hin.trans hin1, ?_, ?_⟩
    · intro hr
      have hne : t ≠ k := by
        simp only [List.length_cons] at hr
        omega
      have h1 := hout (by simp only [List.length_cons] at hr; omega)
      have h2 := hother1 hne
      exact ⟨h1.1.trans h2.1, h1.2.trans h2.2⟩
    · intro input hk hget hlt
      by_cases hkt : t = k
      · have hx : x = input := by
          subst hkt
          simpa using hget
        subst hx
        have h1 := hout (Or.inl (by omega))
        have h2 := hsame1 hkt (by omega)
        exact ⟨h1.1.trans h2.1, h1.2.trans h2.2⟩
      · have hget2 : xs[t - (k + 1)]? = some input := by
          have e : t - k = (t - (k + 1)) + 1 := by omega
          rw [e, List.getElem?_cons_succ] at hget
          exact hget
        have h2 := hother1 hkt
        have h1 := hins input (by omega) hget2 (by rw [hlen1]; exact hlt)
        rw [h2.1, h2.2] at h1
        exact h1

/-- One pass of the sampler that is not cancelled, seen from track `t`. -/
theorem listenPass_track (bm : beatManager) (wasUp : List Bool) (now : Int)
    (levels : Input → Bool) (hdone : bm.done = false) (t : Nat) (input : Input)
    (ht : bm.inputs[t]? = some input) (hlt : t < wasUp.length) :
    (listenPass bm wasUp now levels).2.length = wasUp.length ∧
    (listenPass bm wasUp now levels).1.done = false ∧
    (listenPass bm wasUp now levels).1.inputs = bm.inputs ∧
    (listenPass bm wasUp now levels).2.getD t false = levels input ∧
    beatsOnTrack t (listenPass bm wasUp now levels).1.userInputs =
      beatsOnTrack t bm.userInputs +
        (if levels input = true ∧ wasUp.getD t false = false then 1 else 0) := by
  unfold listenPass
  simp only [hdone, Bool.false_eq_true, if_false, List.enum]
  obtain ⟨hlen, hd, hin, -, hins⟩ := foldl_listenTrack now levels bm.inputs 0 (bm, wasUp) t
  have h := hins input (Nat.zero_le _) (by simpa using ht) hlt
  exact ⟨hlen, hd.trans hdone, hin, h.1, h.2⟩

/-- The sampler's loop, seen from track `t`: the beats recorded for the track
are the low-to-high transitions of its input. -/
theorem listenLoop_track (samples : List Sample) (bm : beatManager) (wasUp : List Bool)
    (hdone : bm.done = false) (t : Nat) (input : Input)
    (ht : bm.inputs[t]? = some input) (hlt : t < wasUp.length) :
    beatsOnTrack t (listenLoop bm wasUp samples).1.userInputs =
      beatsOnTrack t bm.userInputs +
        risingEdges (wasUp.getD t false) (samples.map fun s => s.levels input) := by
  induction samples generalizing bm wasUp with
  | nil => simp [listenLoop, risingEdges]
  | cons s rest ih =>
    obtain ⟨hlen, hd, hin, hw, hc⟩ :=
      listenPass_track bm wasUp s.now s.levels hdone t input ht hlt
    have h := ih (listenPass bm wasUp s.now s.levels).1 (listenPass bm wasUp s.now s.levels).2
      hd (by rw [hin]; exact ht) (by rw [hlen]; exact hlt)
    simp only [listenLoop, List.foldl_cons, List.map_cons, risingEdges] at h ⊢
    rw [h, hc, hw]
    ring

theorem precision_half_beat (bm : beatManager) :
    bm.precision (bm.currentNoteStarted + Int.tdiv bm.beatLen 2) = 0 := by
  unfold beatManager.precision
  have h : bm.currentNoteStarted + Int.tdiv bm.beatLen 2 - bm.currentNoteStarted -
      Int.tdiv bm.beatLen 2 = 0 := by ring
  rw [h]
  simp

theorem precision_in_window (bm : beatManager) (now : Int)
    (h1 : bm.currentNoteStarted ≤ now) (h2 : now < bm.currentNoteStarted + bm.beatLen) :
    |bm.precision now| ≤ 1 / 2 := by
  unfold beatManager.precision
  have hpos : (0 : Int) < bm.beatLen := by omega
  have hposq : (0 : ℚ) < (bm.beatLen : ℚ) := by exact_mod_cast hpos
  have hdiv : Int.tdiv bm.beatLen 2 = bm.beatLen / 2 :=
    Int.tdiv_eq_ediv hpos.le (by decide)
  rw [hdiv, abs_div, abs_of_pos hposq, div_le_iff₀ hposq, abs_le]
  have ha : -bm.beatLen ≤ 2 * (now - bm.currentNoteStarted - bm.beatLen / 2) := by omega
  have hb : 2 * (now - bm.currentNoteStarted - bm.beatLen / 2) ≤ bm.beatLen := by omega
  have haq : (-(bm.beatLen : ℚ)) ≤
      2 * ((now - bm.currentNoteStarted - bm.beatLen / 2 : Int) : ℚ) := by exact_mod_cast ha
  have hbq : 2 * ((now - bm.currentNoteStarted - bm.beatLen / 2 : Int) : ℚ) ≤
      (bm.beatLen : ℚ) := by exact_mod_cast hb
  constructor <;> linarith

/-- C10: the sampler as a fold over its firings, with the last-seen levels
initially low and the channel open.  For a track `t` bound to `input`, the
number of beats recorded for the track grows by the number of low-to-high
transitions in the levels sampled on that input.  In each pass and for each
track a beat is appended exactly when the level read is high and the
last-seen level of the track is low, the last-seen level then becomes the
level read, and the appended beat carries the track index, the scheduler's
measure and note, and the precision
`(now - currentNoteStarted - beatLen/2) / beatLen`.  That precision is 0 for a
sample `beatLen/2` after the note started, and at most 0.5 in absolute value
for a sample taken from the start of the note up to one beat later. -/
theorem C10_listen (bm : beatManager) (samples : List Sample) (t : Nat) (input : Input)
    (hdone : bm.done = false) (ht : bm.inputs[t]? = some input) :
    beatsOnTrack t
        (listenLoop bm (List.replicate bm.inputs.length false) samples).1.userInputs =
      beatsOnTrack t bm.userInputs +
        risingEdges false (samples.map fun s => s.levels input) ∧
    (∀ (b : beatManager) (wasUp : List Bool) (now : Int) (levels : Input → Bool)
        (track : Nat) (inp : Input),
      listenTrack now levels (b, wasUp) (track, inp) =
        (if levels inp = true ∧ wasUp.getD track false = false then
            { b with userInputs := b.userInputs ++
                [⟨(track : Int), (b.measure : Int), (b.note : Int),
                  ((now - b.currentNoteStarted - Int.tdiv b.beatLen 2 : Int) : ℚ) /
                    (b.beatLen : ℚ)⟩] }
          else b,
         if levels inp = wasUp.getD track false then wasUp
          else wasUp.set track (levels inp))) ∧
    (∀ b : beatManager, b.precision (b.currentNoteStarted + Int.tdiv b.beatLen 2) = 0) ∧
    (∀ (b : beatManager) (now : Int), b.currentNoteStarted ≤ now →
      now < b.currentNoteStarted + b.beatLen → |b.precision now| ≤ 1 / 2) := by
  refine ⟨?_, ?_, precision_half_beat, precision_in_window⟩
  · have hlt : t < (List.replicate bm.inputs.length false).length := by
      rw [List.length_replicate]
      exact (List.getElem?_eq_some.1 ht).1
    have h := listenLoop_track samples bm (List.replicate bm.inputs.length false) hdone t
      input ht hlt
    have hw : (List.replicate bm.inputs.length false).getD t false = false := by
      simp only [List.getD_eq_getElem?_getD, List.getElem?_replicate]
      split <;> rfl
    rw [hw] at h
    exact h
  · intro b wasUp now levels track inp
    exact listenTrack_eq now levels b wasUp track inp

/-- C10 on five firings: input 5 reads high, high, low, high, high, which are
two low-to-high transitions, and two beats are recorded for track 0. -/
theorem C10_listen_witness :
    beatsOnTrack 0
        (listenLoop listeningScheduler
          (List.replicate listeningScheduler.inputs.length false) fiveSamples).1.userInputs
      = 2 :=
  (C10_listen listeningScheduler fiveSamples 0 5 rfl rfl).1.trans (by decide)

/-! ## The exercise runs to completion -/

theorem bindInputs_ok (rt : RhythmTrainer) (idxs : List Nat)
    (h : ∀ i ∈ idxs, i < rt.tracks.length) :
    ∃ ins, bindInputs rt idxs = .ok ins := by
  induction idxs with
  | nil => exact ⟨[], rfl⟩
  | cons i rest ih =>
    obtain ⟨ins, hins⟩ := ih (fun j hj => h j (by simp [hj]))
    have hi : i < rt.tracks.length := h i (by simp)
    simp only [bindInputs, List.getElem?_eq_getElem hi, hins]
    exact ⟨_, rfl⟩

theorem indicate_ok (rt : RhythmTrainer) (L note : Nat) (h1 : 1 ≤ note) (h2 : note ≤ L)
    (tis : List (Nat × Measure))
    (h : ∀ ti ∈ tis, ti.2.length = L ∧ ti.1 < rt.tracks.length) (outs : List Output) :
    ∃ outs1, indicate rt note tis outs = .ok outs1 := by
  induction tis generalizing outs with
  | nil => exact ⟨outs, rfl⟩
  | cons ti rest ih =>
    rcases ti with ⟨i, rhythm⟩
    obtain ⟨hlen, hi⟩ := h (i, rhythm) (by simp)
    have hrest : ∀ ti ∈ rest, ti.2.length = L ∧ ti.1 < rt.tracks.length :=
      fun ti hti => h ti (by simp [hti])
    cases note with
    | zero => omega
    | succ n =>
      have hn : n < rhythm.length := by
        simp only at hlen
        omega
      simp only [indicate, List.getElem?_eq_getElem hn, List.getElem?_eq_getElem hi]
      cases rhythm[n] with
      | false => exact ih hrest outs
      | true => exact ih hrest _

/-- The beat length at a tempo from 1 to 30 000 000 beats a minute. -/
theorem beatLen_bounds (bpm : Int) (h1 : 1 ≤ bpm) (h2 : bpm ≤ 30000000) :
    2000 ≤ Int.tdiv minute bpm := by
  rw [Int.tdiv_eq_ediv (by decide) (by omega)]
  apply Int.le_ediv_of_mul_le (by omega)
  unfold minute
  omega

/-- The input pulse of a beat of at least 2000 ns lasts at least 20 ns. -/
theorem scaleBeat_in_ge (beatDuration : Int) (x : F64) (hx : x ≠ F64.nan)
    (h : 2000 ≤ beatDuration) (h2 : beatDuration ≤ 60000000000) :
    20 ≤ scaleBeat beatDuration (clampInBeat x) := by
  obtain ⟨c, hc, hc1, hc2⟩ := clampInBeat_fin x hx
  rw [hc]
  have hb : (2000 : ℚ) ≤ (beatDuration : ℚ) := by exact_mod_cast h
  have hb2 : (beatDuration : ℚ) ≤ 60000000000 := by exact_mod_cast h2
  have hr := scaleBeat_range beatDuration c 20 60000000000 (by omega) h2 (by norm_num)
    (by push_cast; nlinarith) (by push_cast; nlinarith) (by norm_num)
  exact hr.1

/-- The beat manager built for a configuration with a track, a tempo from 1 to
30 000 000 and an input pulse fraction that is a number. -/
theorem newBeatManager_ok (ec : ExerciseConfig) (inputs : List Input) (t0 : Measure)
    (rest : List Measure) (ht : ec.TracksRhythm = t0 :: rest)
    (h1 : 1 ≤ ec.BPM) (h2 : ec.BPM ≤ 30000000) (hx : ec.InBeat ≠ F64.nan) :
    ∃ bm, newBeatManager ec inputs = .ok bm ∧ bm.measureLen = t0.length ∧
      bm.measuresNo = ec.MeasuresNo ∧ bm.note = 0 ∧ bm.measure = 0 ∧ bm.done = false ∧
      bm.userInputs = [] ∧ 2000 ≤ bm.beatLen ∧ 20 ≤ bm.inIndicatorDuration := by
  have hne : ¬ ec.BPM = 0 := by omega
  simp only [newBeatManager, hne, if_false, ht]
  exact ⟨_, rfl, rfl, rfl, rfl, rfl, rfl, rfl, beatLen_bounds ec.BPM h1 h2,
    scaleBeat_in_ge _ _ hx (beatLen_bounds ec.BPM h1 h2) (beatLen_range ec.BPM h1).2⟩

/-- A pass of the sampler changes nothing of the scheduler but the recorded
beats. -/
theorem foldl_listenTrack_fields (now : Int) (levels : Input → Bool)
    (tis : List (Nat × Input)) (st : beatManager × List Bool) :
    ∃ us, (tis.foldl (listenTrack now levels) st).1 = { st.1 with userInputs := us } := by
  induction tis generalizing st with
  | nil => exact ⟨st.1.userInputs, rfl⟩
  | cons ti rest ih =>
    simp only [List.foldl_cons]
    obtain ⟨us, hus⟩ := ih (listenTrack now levels st ti)
    rcases st with ⟨bm, wasUp⟩
    rcases ti with ⟨i, input⟩
    rw [hus, listenTrack_eq]
    by_cases he : levels input = true ∧ wasUp.getD i false = false
    · rw [if_pos he]
      exact ⟨us, rfl⟩
    · rw [if_neg he]
      exact ⟨us, rfl⟩

theorem listenPass_fields (bm : beatManager) (wasUp : List Bool) (now : Int)
    (levels : Input → Bool) :
    ∃ us, (listenPass bm wasUp now levels).1 = { bm with userInputs := us } := by
  unfold listenPass
  by_cases hd : bm.done = true
  · rw [if_pos hd]
    exact ⟨bm.userInputs, rfl⟩
  · rw [if_neg hd]
    exact foldl_listenTrack_fields now levels _ (bm, wasUp)

theorem listen_ok (bm : beatManager) (h : 20 ≤ bm.inIndicatorDuration) :
    bm.listen = .ok (List.replicate bm.inputs.length false) := by
  unfold beatManager.listen
  have h1 : Int.tdiv bm.inIndicatorDuration 20 = bm.inIndicatorDuration / 20 :=
    Int.tdiv_eq_ediv (by omega) (by decide)
  have h2 : ¬ Int.tdiv bm.inIndicatorDuration 20 ≤ 0 := by
    rw [h1]
    omega
  rw [if_neg h2]

/-- An even exercise tick: `nextNote` returns and the invariant holds again. -/
theorem nextNote_inv (L : Nat) (M : Int) (hL : 1 ≤ L) (s : LoopState) (now : Int)
    (hlen : s.bm.measureLen = L) (hM : s.bm.measuresNo = M)
    (hs : 20 ≤ s.bm.inIndicatorDuration) (hd : s.bm.done = false)
    (heven : s.halfBeat % 2 = 0) (hge : 2 * L ≤ s.halfBeat)
    (hprev : (s.halfBeat = 2 * L ∧ s.bm.note = 0 ∧ s.bm.measure = 0) ∨
      (2 * L < s.halfBeat ∧ 1 ≤ s.bm.note ∧ s.bm.note ≤ L ∧ 1 ≤ s.bm.measure ∧
        L * (s.bm.measure - 1) + s.bm.note = (s.halfBeat - 1 - 2 * L) / 2 + 1)) :
    ∃ r, s.bm.nextNote now = .ok r ∧
      LoopInv L M { s with bm := r.1, note := r.2 } := by
  have hL0 : s.bm.measureLen ≠ 0 := by omega
  refine ⟨_, nextNote_ok s.bm now hL0 hd, ?_⟩
  rcases hprev with ⟨hh, hn, hm⟩ | ⟨hh, hn1, hn2, hm, hc⟩
  · have hnote : s.bm.note % s.bm.measureLen + 1 = 1 := by simp [hn]
    refine ⟨hlen, hM, hs, Or.inr ⟨hge, ?_, ?_, rfl, ?_, ?_, ?_⟩⟩
    · simp only [hnote]; omega
    · simp only [hnote]; omega
    · simp only [hnote, if_true]; omega
    · simp only [hnote, if_true, hm, hh]
      simp
    · simp only [hnote, if_true, hM]
      simp
  · by_cases hw : s.bm.note = L
    · have hnote : s.bm.note % s.bm.measureLen + 1 = 1 := by
        rw [hlen, hw, Nat.mod_self]
      have hmul : L * (s.bm.measure + 1 - 1) = L * (s.bm.measure - 1) + L := by
        have e : s.bm.measure + 1 - 1 = (s.bm.measure - 1) + 1 := by omega
        rw [e, Nat.mul_succ]
      refine ⟨hlen, hM, hs, Or.inr ⟨hge, ?_, ?_, rfl, ?_, ?_, ?_⟩⟩
      · simp only [hnote]; omega
      · simp only [hnote]; omega
      · simp only [hnote, if_true]; omega
      · simp only [hnote, if_true]
        rw [hmul]
        omega
      · simp only [hnote, if_true, hM]
        simp
    · have hlt : s.bm.note < L := by omega
      have hnote : s.bm.note % s.bm.measureLen + 1 = s.bm.note + 1 := by
        rw [hlen, Nat.mod_eq_of_lt hlt]
      have hne : ¬ s.bm.note + 1 = 1 := by omega
      refine ⟨hlen, hM, hs, Or.inr ⟨hge, ?_, ?_, rfl, ?_, ?_, ?_⟩⟩
      · simp only [hnote]; omega
      · simp only [hnote]; omega
      · simp only [hnote, hne, if_false]; omega
      · simp only [hnote, hne, if_false]
        omega
      · simp only [hnote, hne, if_false, hM]
        simp

/-- One tick of the control loop on a state of the invariant, when the channel
is still open or the tick is an odd one: the body returns, the invariant
holds again and the half-beat counter has advanced by one. -/
theorem tickBody_inv (rt : RhythmTrainer) (ec : ExerciseConfig) (L : Nat) (M : Int)
    (hL : 1 ≤ L)
    (htr : ∀ ti ∈ ec.TracksRhythm.enum, ti.2.length = L ∧ ti.1 < rt.tracks.length)
    (s : LoopState) (now : Int) (hinv : LoopInv L M s)
    (hd : s.bm.done = false ∨ (s.halfBeat + 1) % 2 = 1) :
    ∃ s1, tickBody rt ec L s now = .ok s1 ∧ LoopInv L M s1 ∧
      s1.halfBeat = s.halfBeat + 1 := by
  obtain ⟨hlen, hM, hs, hphase⟩ := hinv
  -- the state after the counter and the metronome
  obtain ⟨outs, hs1⟩ : ∃ outs,
      (if (s.halfBeat + 1) % 2 = 1 then
          ({ s with halfBeat := s.halfBeat + 1, outputs := s.outputs ++ [rt.metronome] } :
            LoopState)
        else { s with halfBeat := s.halfBeat + 1 }) =
        { s with halfBeat := s.halfBeat + 1, outputs := outs } := by
    by_cases h : (s.halfBeat + 1) % 2 = 1
    · exact ⟨_, by rw [if_pos h]⟩
    · exact ⟨s.outputs, by rw [if_neg h]⟩
  unfold tickBody
  simp only [hs1]
  by_cases hintro : s.halfBeat + 1 < 2 * L
  · rw [if_pos hintro]
    refine ⟨_, rfl, ⟨hlen, hM, hs, ?_⟩, rfl⟩
    rcases hphase with h | h
    · exact Or.inl ⟨hintro, h.2⟩
    · exact absurd h.1 (by omega)
  · rw [if_neg hintro]
    unfold exerciseTick
    by_cases htrans : s.halfBeat + 1 = 2 * L
    · -- the transition tick: the sampler starts and the first note begins
      simp only [htrans, if_true, listen_ok s.bm hs]
      have heven : (2 * L) % 2 = 0 := by omega
      simp only [heven, if_true]
      have hprev : s.bm.note = 0 ∧ s.bm.measure = 0 ∧ s.bm.done = false := by
        rcases hphase with h | h
        · exact ⟨h.2.1, h.2.2.1, h.2.2.2.2⟩
        · exact absurd h.1 (by omega)
      obtain ⟨r, hr, hinv1⟩ := nextNote_inv L M hL
        { s with halfBeat := 2 * L, outputs := outs,
                 wasUp := some (List.replicate s.bm.inputs.length false) }
        now hlen hM hs hprev.2.2 heven (le_refl _) (Or.inl ⟨rfl, hprev.1, hprev.2.1⟩)
      simp only at hr
      rw [hr]
      exact ⟨_, rfl, hinv1, (by simp only)⟩
    · have hgt : 2 * L < s.halfBeat + 1 := by omega
      have hex : 2 * L ≤ s.halfBeat ∧ 1 ≤ s.bm.note ∧ s.bm.note ≤ L ∧
          s.note = s.bm.note ∧ 1 ≤ s.bm.measure ∧
          L * (s.bm.measure - 1) + s.bm.note = (s.halfBeat - 2 * L) / 2 + 1 ∧
          (s.bm.done = true ↔ M < (s.bm.measure : Int)) := by
        rcases hphase with h | h
        · exact absurd h.1 (by omega)
        · exact h
      obtain ⟨h1, h2, h3, h4, h5, h6, h7⟩ := hex
      simp only [htrans, if_false]
      by_cases heven : (s.halfBeat + 1) % 2 = 0
      · simp only [heven, if_true]
        have hd1 : s.bm.done = false := by
          rcases hd with h | h
          · exact h
          · omega
        obtain ⟨r, hr, hinv1⟩ := nextNote_inv L M hL
          { s with halfBeat := s.halfBeat + 1, outputs := outs }
          now hlen hM hs hd1 heven (by simp only; omega)
          (Or.inr ⟨hgt, h2, h3, h5, by simp only [Nat.add_sub_cancel]; exact h6⟩)
        simp only at hr
        rw [hr]
        exact ⟨_, rfl, hinv1, rfl⟩
      · simp only [heven, if_false]
        obtain ⟨outs1, houts⟩ := indicate_ok rt L s.note (by omega) (by omega)
          ec.TracksRhythm.enum htr outs
        rw [houts]
        refine ⟨_, rfl, ⟨hlen, hM, hs, Or.inr ⟨by simp only; omega, h2, h3, h4, h5, ?_, h7⟩⟩, rfl⟩
        simp only
        omega

/-- A firing of the sampler keeps the invariant and the half-beat counter. -/
theorem sample_inv (rt : RhythmTrainer) (ec : ExerciseConfig) (L : Nat) (M : Int)
    (s : LoopState) (now : Int) (levels : Input → Bool) (hinv : LoopInv L M s) :
    ∃ s1, step rt ec L s (.sample now levels) = .ok s1 ∧ LoopInv L M s1 ∧
      s1.halfBeat = s.halfBeat := by
  unfold step
  cases hw : s.wasUp with
  | none => exact ⟨s, rfl, hinv, rfl⟩
  | some w =>
    obtain ⟨us, hus⟩ := listenPass_fields s.bm w now levels
    simp only [hus]
    obtain ⟨hlen, hM, hs, hphase⟩ := hinv
    exact ⟨_, rfl, ⟨hlen, hM, hs, hphase⟩, rfl⟩

/-- A state of the invariant that is not done has seen fewer than
`2 * L * (M + 1)` half-beats. -/
theorem halfBeat_lt_of_not_done (L : Nat) (M : Int) (s : LoopState)
    (hinv : LoopInv L M s) (hd : s.bm.done = false) :
    s.halfBeat < 2 * L * (M.toNat + 1) := by
  have hexp : 2 * L * (M.toNat + 1) = 2 * (L * M.toNat) + 2 * L := by ring
  rcases hinv.phase with h | h
  · rw [hexp]
    omega
  · obtain ⟨h1, h2, h3, -, h5, h6, h7⟩ := h
    have hle : ¬ M < (s.bm.measure : Int) := by
      intro hlt
      have := h7.2 hlt
      rw [hd] at this
      cases this
    have hmn : s.bm.measure ≤ M.toNat := by omega
    have hmul : L * (s.bm.measure - 1) + L ≤ L * M.toNat := by
      have e : L * (s.bm.measure - 1) + L = L * s.bm.measure := by
        have e1 : s.bm.measure = (s.bm.measure - 1) + 1 := by omega
        conv_rhs => rw [e1, Nat.mul_succ]
      rw [e]
      exact Nat.mul_le_mul_left L hmn
    rw [hexp]
    omega

/-- A state of the invariant that is done has seen at least `2 * L * (M + 1)`
half-beats. -/
theorem halfBeat_ge_of_done (L : Nat) (M : Int) (s : LoopState)
    (hinv : LoopInv L M s) (hd : s.bm.done = true) :
    2 * L * (M.toNat + 1) ≤ s.halfBeat := by
  have hexp : 2 * L * (M.toNat + 1) = 2 * (L * M.toNat) + 2 * L := by ring
  rcases hinv.phase with h | h
  · rw [h.2.2.2.2] at hd
    cases hd
  · obtain ⟨h1, h2, h3, -, h5, h6, h7⟩ := h
    have hlt : M < (s.bm.measure : Int) := h7.1 hd
    have hmn : M.toNat + 1 ≤ s.bm.measure := by omega
    have hmul : L * M.toNat ≤ L * (s.bm.measure - 1) :=
      Nat.mul_le_mul_left L (by omega)
    rw [hexp]
    omega

/-- The control loop from a state of the invariant, under a schedule that
delivers at most one tick beyond the `2 * L * (M + 1)` of the exercise: the
loop does not panic and keeps the invariant; if it has ended the channel is
closed, and if not every tick of the schedule has been counted. -/
theorem runLoop_inv (rt : RhythmTrainer) (ec : ExerciseConfig) (L : Nat) (M : Int)
    (hL : 1 ≤ L)
    (htr : ∀ ti ∈ ec.TracksRhythm.enum, ti.2.length = L ∧ ti.1 < rt.tracks.length)
    (events : List Event) (s : LoopState) (hinv : LoopInv L M s)
    (hticks : s.halfBeat + tickCount events ≤ 2 * L * (M.toNat + 1) + 1) :
    ∃ r, runLoop rt ec L s events = .ok r ∧ LoopInv L M r.1 ∧
      (r.2 = true → r.1.bm.done = true) ∧
      (r.2 = false → r.1.halfBeat = s.halfBeat + tickCount events) := by
  have heven : 2 * L * (M.toNat + 1) = 2 * (L * (M.toNat + 1)) := by ring
  induction events generalizing s with
  | nil => exact ⟨(s, false), rfl, hinv, by simp, by simp [tickCount]⟩
  | cons e rest ih =>
    cases e with
    | stop =>
      simp only [runLoop]
      by_cases hd : s.bm.done = true
      · rw [if_pos hd]
        exact ⟨(s, true), rfl, hinv, fun _ => hd, by simp⟩
      · rw [if_neg hd]
        obtain ⟨r, hr, hinv1, h1, h2⟩ := ih s hinv (by simpa [tickCount] using hticks)
        exact ⟨r, hr, hinv1, h1, by simpa [tickCount] using h2⟩
    | tick now =>
      simp only [runLoop, step]
      simp only [tickCount] at hticks
      have hd : s.bm.done = false ∨ (s.halfBeat + 1) % 2 = 1 := by
        by_cases hdone : s.bm.done = true
        · right
          have := halfBeat_ge_of_done L M s hinv hdone
          omega
        · left
          simpa using hdone
      obtain ⟨s1, hs1, hinv1, hh⟩ := tickBody_inv rt ec L M hL htr s now hinv hd
      rw [hs1]
      obtain ⟨r, hr, hinv2, h1, h2⟩ := ih s1 hinv1 (by omega)
      refine ⟨r, hr, hinv2, h1, ?_⟩
      intro hf
      rw [h2 hf, hh]
      simp only [tickCount]
      omega
    | sample now levels =>
      simp only [runLoop]
      obtain ⟨s1, hs1, hinv1, hh⟩ := sample_inv rt ec L M s now levels hinv
      rw [hs1]
      obtain ⟨r, hr, hinv2, h1, h2⟩ := ih s1 hinv1 (by simpa [tickCount, hh] using hticks)
      refine ⟨r, hr, hinv2, h1, ?_⟩
      intro hf
      rw [h2 hf, hh]
      simp [tickCount]

/-- The control loop over a schedule in two parts. -/
theorem runLoop_append (rt : RhythmTrainer) (ec : ExerciseConfig) (L : Nat)
    (pre post : List Event) (s : LoopState) :
    runLoop rt ec L s (pre ++ post) =
      match runLoop rt ec L s pre with
      | .error f => .error f
      | .ok r => if r.2 then .ok r else runLoop rt ec L r.1 post := by
  induction pre generalizing s with
  | nil => simp [runLoop]
  | cons e rest ih =>
    cases e with
    | stop =>
      simp only [List.cons_append, runLoop]
      by_cases hd : s.bm.done = true
      · simp [hd]
      · simp only [hd, if_false]
        exact ih s
    | tick now =>
      simp only [List.cons_append, runLoop]
      cases step rt ec L s (.tick now) with
      | error f => rfl
      | ok s1 => exact ih s1
    | sample now levels =>
      simp only [List.cons_append, runLoop]
      cases step rt ec L s (.sample now levels) with
      | error f => rfl
      | ok s1 => exact ih s1

/-- C9, as amended: for a configuration that passes `validateRhythmTracks`
with a measure length `L ≥ 1`, has a tempo from 1 to 30 000 000 beats a minute
and an input pulse fraction that is a number, `RunExercise` does not panic
under any schedule of ticks and samples that delivers at most one tick beyond
the `2 * L * (MeasuresNo + 1)` ticks of the exercise (no division or remainder
by zero, no lookup or binding out of range, no ticker with an interval that is
not positive, no second close of the channel); and when the ticker goroutine
stops after the last tick of the exercise or after one more, the call
returns, without error, the result for the configured measures and
patterns. -/
theorem C9_runs_to_completion (rt : RhythmTrainer) (ec : ExerciseConfig) (L : Nat)
    (hv : rt.validateRhythmTracks ec.TracksRhythm = .ok L) (hL : 1 ≤ L)
    (hB1 : 1 ≤ ec.BPM) (hB2 : ec.BPM ≤ 30000000) (hIn : ec.InBeat ≠ F64.nan) :
    (∀ events, tickCount events ≤ 2 * L * (ec.MeasuresNo.toNat + 1) + 1 →
      ∃ r, rt.RunExercise ec events = .ok r) ∧
    (∀ pre post, 2 * L * (ec.MeasuresNo.toNat + 1) ≤ tickCount pre →
      tickCount pre ≤ 2 * L * (ec.MeasuresNo.toNat + 1) + 1 →
      ∃ o, rt.RunExercise ec (pre ++ Event.stop :: post) = .ok (some o) ∧ o.err = none ∧
        o.result.measuresNo = ec.MeasuresNo ∧ o.result.trackRhythm = ec.TracksRhythm) := by
  obtain ⟨hle, hne, hall⟩ := (validate_ok_iff rt ec.TracksRhythm L).1 hv
  obtain ⟨t0, rest, ht⟩ : ∃ t0 rest, ec.TracksRhythm = t0 :: rest := by
    cases h : ec.TracksRhythm with
    | nil => exact absurd h hne
    | cons t0 rest => exact ⟨t0, rest, rfl⟩
  have ht0 : t0.length = L := hall t0 (by rw [ht]; simp)
  have htr : ∀ ti ∈ ec.TracksRhythm.enum, ti.2.length = L ∧ ti.1 < rt.tracks.length := by
    rintro ⟨i, t⟩ hti
    have hget := List.mk_mem_enum_iff_getElem?.1 hti
    have hi : i < ec.TracksRhythm.length := (List.getElem?_eq_some.1 hget).1
    exact ⟨hall t (List.getElem?_mem hget), by simp only; omega⟩
  obtain ⟨inputs, hinputs⟩ := bindInputs_ok rt (List.range ec.TracksRhythm.length)
    (fun i hi => by
      have := List.mem_range.1 hi
      omega)
  obtain ⟨bm, hbm, hlen, hM, hnote, hmeasure, hdone, -, hbeat, hin⟩ :=
    newBeatManager_ok ec inputs t0 rest ht hB1 hB2 hIn
  have hticker : bm.startHalfBeatTicker = .ok () := by
    unfold beatManager.startHalfBeatTicker
    have h1 : Int.tdiv bm.beatLen 2 = bm.beatLen / 2 :=
      Int.tdiv_eq_ediv (by omega) (by decide)
    have h2 : ¬ Int.tdiv bm.beatLen 2 ≤ 0 := by
      rw [h1]
      omega
    rw [if_neg h2]
  have hinv0 : LoopInv L ec.MeasuresNo ⟨bm, 0, 0, none, []⟩ :=
    ⟨hlen.trans ht0, hM, hin, Or.inl ⟨by simp only; omega, hnote, hmeasure, rfl, hdone⟩⟩
  have hrun : ∀ events : List Event,
      rt.RunExercise ec events =
        match runLoop rt ec L ⟨bm, 0, 0, none, []⟩ events with
        | .error f => .error f
        | .ok r =>
          if r.2 then
            .ok (some ⟨⟨ec.MeasuresNo, r.1.bm.userInputs, ec.TracksRhythm⟩, none,
              r.1.outputs⟩)
          else .ok none := by
    intro events
    simp only [RhythmTrainer.RunExercise, hv, hinputs, hbm, hticker]
  constructor
  · intro events hticks
    obtain ⟨r, hr, -, -, -⟩ := runLoop_inv rt ec L ec.MeasuresNo hL htr events _ hinv0
      (by simpa using hticks)
    rw [hrun, hr]
    simp only
    split
    · exact ⟨_, rfl⟩
    · exact ⟨_, rfl⟩
  · intro pre post hge hle1
    obtain ⟨r, hr, hinv1, h1, h2⟩ := runLoop_inv rt ec L ec.MeasuresNo hL htr pre _ hinv0
      (by simpa using hle1)
    have hend : ∃ r1, runLoop rt ec L ⟨bm, 0, 0, none, []⟩ (pre ++ Event.stop :: post) =
        .ok r1 ∧ r1.2 = true := by
      rw [runLoop_append, hr]
      simp only
      by_cases hr2 : r.2 = true
      · rw [if_pos hr2]
        exact ⟨r, rfl, hr2⟩
      · rw [if_neg hr2]
        have hf : r.2 = false := by simpa using hr2
        have hh := h2 hf
        simp only [Nat.zero_add] at hh
        have hd : r.1.bm.done = true := by
          by_contra hcon
          have hd0 : r.1.bm.done = false := by simpa using hcon
          have := halfBeat_lt_of_not_done L ec.MeasuresNo r.1 hinv1 hd0
          omega
        simp only [runLoop, hd, if_true]
        exact ⟨_, rfl, rfl⟩
    obtain ⟨r1, hr1, hr12⟩ := hend
    rw [hrun, hr1]
    simp only [hr12, if_true]
    exact ⟨_, rfl, rfl, rfl, rfl⟩

set_option maxRecDepth 100000 in
/-- C9 on the test configuration: three tracks of four notes, twelve measures,
2880 beats a minute, under a schedule of 104 ticks with samples in between,
one more tick, and then the stop of the ticker goroutine. -/
theorem C9_runs_to_completion_witness :
    ∃ o, trainer3.RunExercise testConfig testSchedule = .ok (some o) ∧ o.err = none ∧
      o.result.measuresNo = testConfig.MeasuresNo ∧
      o.result.trackRhythm = testConfig.TracksRhythm :=
  (C9_runs_to_completion trainer3 testConfig 4 rfl (by decide) (by decide) (by decide)
    (by simp [testConfig, inBeatTest])).2 testTicks [] (by decide) (by decide)

/-- The input pulse at 30 000 001 beats a minute with the smallest fraction:
1999 ns scaled by 0.01 and truncated. -/
theorem scaleBeat_fast_tempo : scaleBeat 1999 (clampInBeat (.fin 0)) = 19 := by
  have hc : clampInBeat (.fin 0) = MinInBeat := by
    simp only [clampInBeat, clampFunc, MinInBeat, MaxInBeat, F64.max, F64.min]
    norm_num [max_def, min_def]
  rw [hc]
  exact scaleBeat_eval 1999 _ 5626684784446014 (-48) 19 (by norm_num)
    (by norm_num) (by norm_num [abs_of_pos]) (by norm_num [abs_of_pos])
    (by rw [abs_lt]; constructor <;> norm_num) (by norm_num) (by norm_num)
    (by norm_num) (by norm_num) (by norm_num)

/-- The input pulse at 60 beats a minute for `InBeat = 0.05`. -/
theorem scaleBeat_60_in : scaleBeat 1000000000 (clampInBeat inBeatTest) = 50000000 := by
  have hc : clampInBeat inBeatTest = inBeatTest := by
    simp only [clampInBeat, clampFunc, MinInBeat, MaxInBeat, inBeatTest, F64.max, F64.min]
    norm_num [max_def, min_def]
  rw [hc]
  exact scaleBeat_eval 1000000000 _ 6710886400000000 (-27) 50000000 (by norm_num)
    (by norm_num) (by norm_num [abs_of_pos]) (by norm_num [abs_of_pos])
    (by rw [abs_lt]; constructor <;> norm_num) (by norm_num) (by norm_num)
    (by norm_num) (by norm_num) (by norm_num)

/-- The input pulse at 60 beats a minute for a fraction that is not a number:
the product is not a number, and converts to the smallest integer. -/
theorem scaleBeat_not_a_number :
    scaleBeat 1000000000 (clampInBeat .nan) = -9223372036854775808 := by
  have hc : clampInBeat .nan = .nan := rfl
  rw [hc, scaleBeat, F64.ofInt_of_nonneg 1000000000 (by norm_num) (by norm_num)]
  rfl

/-- The call up to the loop, for a one-note pattern on the first track of
`trainer3`: the beat manager holds the two pulses and the loop starts. -/
theorem RunExercise_one_note (ec : ExerciseConfig) (events : List Event)
    (htr : ec.TracksRhythm = [[true]]) (hbpm : ec.BPM ≠ 0)
    (ht : ¬ Int.tdiv (Int.tdiv minute ec.BPM) 2 ≤ 0) :
    trainer3.RunExercise ec events =
      match runLoop trainer3 ec 1
          ⟨⟨Int.tdiv minute ec.BPM,
            scaleBeat (Int.tdiv minute ec.BPM) (clampOutBeat ec.OutBeat),
            scaleBeat (Int.tdiv minute ec.BPM) (clampInBeat ec.InBeat),
            1, ec.MeasuresNo, [0], [], false, 0, 0, 0⟩, 0, 0, none, []⟩ events with
      | .error f => .error f
      | .ok r =>
        if r.2 then
          .ok (some ⟨⟨ec.MeasuresNo, r.1.bm.userInputs, ec.TracksRhythm⟩, none,
            r.1.outputs⟩)
        else .ok none := by
  have hv : trainer3.validateRhythmTracks ec.TracksRhythm = .ok 1 := by
    rw [htr]
    rfl
  have hbind : bindInputs trainer3 (List.range ec.TracksRhythm.length) = .ok [0] := by
    rw [htr]
    rfl
  have hbm : newBeatManager ec [0] = .ok ⟨Int.tdiv minute ec.BPM,
      scaleBeat (Int.tdiv minute ec.BPM) (clampOutBeat ec.OutBeat),
      scaleBeat (Int.tdiv minute ec.BPM) (clampInBeat ec.InBeat),
      1, ec.MeasuresNo, [0], [], false, 0, 0, 0⟩ := by
    simp only [newBeatManager, hbpm, if_false, htr]
    rfl
  unfold RhythmTrainer.RunExercise
  simp only [hv, hbind, hbm, beatManager.startHalfBeatTicker, ht, if_false]

/-- At 30 000 001 beats a minute the transition tick panics as soon as the
input pulse is shorter than 20 ns. -/
theorem fast_tempo_fault (ec : ExerciseConfig) (htr : ec.TracksRhythm = [[true]])
    (hbpm : ec.BPM = 30000001)
    (hs : scaleBeat 1999 (clampInBeat ec.InBeat) = 19) :
    trainer3.RunExercise ec [Event.tick 0, Event.tick 1] =
      (Except.error Fault.nonPositiveInterval : Except Fault (Option Outcome)) := by
  have hb : Int.tdiv minute ec.BPM = 1999 := by
    rw [hbpm]
    decide
  rw [RunExercise_one_note ec _ htr (by omega) (by rw [hb]; decide), hb, hs]
  generalize scaleBeat 1999 (clampOutBeat ec.OutBeat) = o
  generalize ec.MeasuresNo = M
  have h2 : Int.tdiv 19 20 = 0 := by decide
  simp [runLoop, step, tickBody, exerciseTick, beatManager.listen, h2]

/-- At 60 beats a minute the transition tick panics when the input pulse is
negative. -/
theorem not_a_number_fault (ec : ExerciseConfig) (htr : ec.TracksRhythm = [[true]])
    (hbpm : ec.BPM = 60)
    (hs : scaleBeat 1000000000 (clampInBeat ec.InBeat) = -9223372036854775808) :
    trainer3.RunExercise ec [Event.tick 0, Event.tick 500000000] =
      (Except.error Fault.nonPositiveInterval : Except Fault (Option Outcome)) := by
  have hb : Int.tdiv minute ec.BPM = 1000000000 := by
    rw [hbpm]
    decide
  rw [RunExercise_one_note ec _ htr (by omega) (by rw [hb]; decide), hb, hs]
  generalize scaleBeat 1000000000 (clampOutBeat ec.OutBeat) = o
  generalize ec.MeasuresNo = M
  have h2 : Int.tdiv (-9223372036854775808) 20 = -461168601842738790 := by decide
  simp [runLoop, step, tickBody, exerciseTick, beatManager.listen, h2]

/-- A second tick after the last tick of the exercise closes the closed
channel. -/
theorem late_stop_fault (ec : ExerciseConfig) (htr : ec.TracksRhythm = [[true]])
    (hbpm : ec.BPM = 60) (hM : ec.MeasuresNo = 1)
    (hs : scaleBeat 1000000000 (clampInBeat ec.InBeat) = 50000000) :
    trainer3.RunExercise ec
        [Event.tick 0, Event.tick 500000000, Event.tick 1000000000, Event.tick 1500000000,
         Event.tick 2000000000, Event.tick 2500000000, Event.stop] =
      (Except.error Fault.closeOfClosedChannel : Except Fault (Option Outcome)) := by
  have hb : Int.tdiv minute ec.BPM = 1000000000 := by
    rw [hbpm]
    decide
  rw [RunExercise_one_note ec _ htr (by omega) (by rw [hb]; decide), hb, hs, hM]
  generalize scaleBeat 1000000000 (clampOutBeat ec.OutBeat) = o
  have h2 : Int.tdiv 50000000 20 = 2500000 := by decide
  simp [runLoop, step, tickBody, exerciseTick, beatManager.listen, h2, htr,
    beatManager.nextNote, beatManager.advance, indicate, List.enum, List.enumFrom,
    trainer3]

/-- C9 as stated fails: six configurations pass `validateRhythmTracks` and
`RunExercise` panics.  At a tempo of zero the division `60s / BPM` divides by
zero; with a pattern without notes the first tick looks up `rhythm[-1]`; at a
negative tempo the half-beat ticker gets a negative interval; at 30 000 001
beats a minute with the smallest input pulse, and with an input pulse
fraction that is not a number, the sampler's ticker gets an interval that is
not positive on the transition tick; and when two ticks are delivered after
the last tick of the exercise, the second calls `nextNote` again, which
closes the closed channel. -/
theorem C9_validated_configurations_panic :
    (trainer3.validateRhythmTracks configZeroTempo.TracksRhythm = .ok 1 ∧
      trainer3.RunExercise configZeroTempo [Event.tick 0] =
        (Except.error Fault.divideByZero : Except Fault (Option Outcome))) ∧
    (trainer3.validateRhythmTracks configEmptyMeasure.TracksRhythm = .ok 0 ∧
      trainer3.RunExercise configEmptyMeasure [Event.tick 0] =
        (Except.error Fault.indexOutOfRange : Except Fault (Option Outcome))) ∧
    (trainer3.validateRhythmTracks configNegativeTempo.TracksRhythm = .ok 1 ∧
      trainer3.RunExercise configNegativeTempo [Event.tick 0] =
        (Except.error Fault.nonPositiveInterval : Except Fault (Option Outcome))) ∧
    (trainer3.validateRhythmTracks configFastTempo.TracksRhythm = .ok 1 ∧
      trainer3.RunExercise configFastTempo [Event.tick 0, Event.tick 1] =
        (Except.error Fault.nonPositiveInterval : Except Fault (Option Outcome))) ∧
    (trainer3.validateRhythmTracks configNaN.TracksRhythm = .ok 1 ∧
      trainer3.RunExercise configNaN [Event.tick 0, Event.tick 500000000] =
        (Except.error Fault.nonPositiveInterval : Except Fault (Option Outcome))) ∧
    (trainer3.validateRhythmTracks configOneNote.TracksRhythm = .ok 1 ∧
      trainer3.RunExercise configOneNote lateStopSchedule =
        (Except.error Fault.closeOfClosedChannel : Except Fault (Option Outcome))) := by
  exact ⟨⟨rfl, rfl⟩, ⟨rfl, rfl⟩, ⟨rfl, rfl⟩,
    ⟨rfl, fast_tempo_fault configFastTempo rfl rfl scaleBeat_fast_tempo⟩,
    ⟨rfl, not_a_number_fault configNaN rfl rfl scaleBeat_not_a_number⟩,
    ⟨rfl, late_stop_fault configOneNote rfl rfl rfl scaleBeat_60_in⟩⟩

end Domain
